import Mathlib

/-!
# HiTIME-CPP: the concurrent scoring pipeline of `src/score/score.cpp`

A shallow embedding of the `Scorer` class: the output sequencer
(`put_spectrum`), the work distributor (`get_next_spectrum_todo`), the worker
loop (`score_worker`), the score engine (`score_spectra`), the input cache
(`get_spectrum`) and the window of the constructor (`half_window`); and of
`centre_vector`, `apply_vect_func` and the body of `main` in `src/hitime.cpp`.

Conventions of the embedding.

* `int` values are `Int`.  The counters start at `0` and are only ever
  incremented, once per call, so signed overflow (undefined in C++) would need
  more than `2^31` calls and is outside the model.
* Code that runs under one of the three global mutexes is one atomic step.
-/

namespace HiTIME

/-! ## Output sequencer (`Scorer::put_spectrum`, score.cpp 98-133) -/

/-- The pair type `IndexSpectrum` of the source, `pair<int, PeakSpectrum>`;
the spectrum type is left abstract. -/
abbrev IndexSpectrum (S : Type) := Int × S

/-- Modelled from the spec: the type of `output_spectrum_queue` is declared in
`score.h`, which is not among the sources; the specification describes it as
"a min-ordered pending buffer keyed by index".  The buffer is kept as a list
in ascending key order: `top` is the head and `pop` drops the head.  `push`
inserts the entry in front of the first entry whose key is not smaller. -/
def IndexSpectrumQueue.push {S : Type} :
    List (IndexSpectrum S) → IndexSpectrum S → List (IndexSpectrum S)
  | [], e => [e]
  | x :: q, e => if e.1 ≤ x.1 then e :: x :: q else x :: IndexSpectrumQueue.push q e

/-- The part of the `Scorer` object that `put_spectrum` reads and writes.
`written` logs the calls `spectrum_writer.consumeSpectrum(s)`, oldest first;
each logged spectrum carries the index it was submitted under. -/
structure Sequencer (S : Type) where
  next_output_spectrum_id : Int
  output_spectrum_queue : List (IndexSpectrum S)
  written : List (IndexSpectrum S)

/-- The state built by the constructor: `next_output_spectrum_id{0}`, an empty
queue, nothing written. -/
def Sequencer.init (S : Type) : Sequencer S :=
  { next_output_spectrum_id := 0, output_spectrum_queue := [], written := [] }

/-- The loop `while (output_spectrum_queue.size() > 0)` of `put_spectrum`
(score.cpp 110-124): look at the top entry; when its index is the next one to
write, hand it to the writer, pop it and advance the cursor; otherwise
`break`. -/
def flush_queue {S : Type} :
    Int → List (IndexSpectrum S) → List (IndexSpectrum S) → Sequencer S
  | next, [], w =>
      { next_output_spectrum_id := next, output_spectrum_queue := [], written := w }
  | next, index_spectrum :: rest, w =>
      if index_spectrum.1 = next then
        flush_queue (next + 1) rest (w ++ [index_spectrum])
      else
        { next_output_spectrum_id := next,
          output_spectrum_queue := index_spectrum :: rest, written := w }

/-- The method `Scorer::put_spectrum(int spectrum_id, PeakSpectrum spectrum)`. -/
def put_spectrum {S : Type} (st : Sequencer S) (spectrum_id : Int) (spectrum : S) :
    Sequencer S :=
  if spectrum_id = st.next_output_spectrum_id then
    flush_queue (st.next_output_spectrum_id + 1) st.output_spectrum_queue
      (st.written ++ [(spectrum_id, spectrum)])
  else
    { st with
      output_spectrum_queue :=
        IndexSpectrumQueue.push st.output_spectrum_queue (spectrum_id, spectrum) }

/-- A sequence of `put_spectrum` calls, in the order in which they get the
output lock. -/
def put_all {S : Type} (st : Sequencer S) (calls : List (IndexSpectrum S)) : Sequencer S :=
  calls.foldl (fun s c => put_spectrum s c.1 c.2) st

/-- The indices `0, 1, ..., n-1` as `int` values. -/
def first_indices (n : Nat) : List Int := (List.range n).map (fun (i : Nat) => (i : Int))

/-- The log holds the indices `0 .. cursor-1`, in that order. -/
def Delivered {S : Type} (st : Sequencer S) : Prop :=
  ∃ n : Nat, st.next_output_spectrum_id = n ∧ st.written.map Prod.fst = first_indices n

/-- The queue holds pairwise different indices in ascending order, all of them
beyond the cursor. -/
def Pending {S : Type} (st : Sequencer S) : Prop :=
  (st.output_spectrum_queue.map Prod.fst).Pairwise (· < ·) ∧
  ∀ k ∈ st.output_spectrum_queue.map Prod.fst, st.next_output_spectrum_id < k

/-- The calls made when the spectra `spectrum_of 0, spectrum_of 1, ...` are
submitted in the order `order`. -/
def calls_in_order {S : Type} (spectrum_of : Int → S) (order : List Nat) :
    List (IndexSpectrum S) :=
  order.map (fun (i : Nat) => ((i : Int), spectrum_of (i : Int)))

/-! ## Work distributor and worker loop
(`Scorer::get_next_spectrum_todo`, score.cpp 135-143; `Scorer::score_worker`,
score.cpp 145-171) -/

/-- The method `Scorer::get_next_spectrum_todo`, run under `next_spectrum_lock`:
the argument is `current_spectrum_id` before the call; the result is the
returned `this_spectrum` and `current_spectrum_id` after the call. -/
def get_next_spectrum_todo (current_spectrum_id : Int) : Int × Int :=
  let this_spectrum := current_spectrum_id
  (this_spectrum, current_spectrum_id + 1)

/-- The first `k` calls of `get_next_spectrum_todo` from a counter value: the
values returned, in call order, and the counter afterwards. -/
def get_next_calls : Nat → Int → List Int × Int
  | 0, c => ([], c)
  | k + 1, c =>
      let r := get_next_spectrum_todo c
      ((r.1 :: (get_next_calls k r.2).1), (get_next_calls k r.2).2)

/-- Where one `score_worker` thread stands: about to call
`get_next_spectrum_todo` (score.cpp 150 and 168), inside the body of the
`while` loop with its `this_spectrum_id` (score.cpp 156-166), or past the
loop. -/
inductive WorkerPc where
  | fetch
  | body (this_spectrum_id : Int)
  | finished
  deriving DecidableEq, Repr

/-- The statement `this_spectrum_id = get_next_spectrum_todo();` followed by
the loop test `while (this_spectrum_id < num_spectra)`: where the worker goes
next, and the counter after the call. -/
def fetch_next (num_spectra current_spectrum_id : Int) : WorkerPc × Int :=
  let r := get_next_spectrum_todo current_spectrum_id
  (if r.1 < num_spectra then WorkerPc.body r.1 else WorkerPc.finished, r.2)

/-- The worker pool started by the constructor: the shared counter, one
program point per thread, and the log of loop bodies run so far (thread,
index): each entry stands for one `score_spectra(i)`, `get_spectrum(i)` and
`put_spectrum(i, ...)` of that thread. -/
structure Pool where
  current_spectrum_id : Int
  workers : List WorkerPc
  processed : List (Nat × Int)
  deriving DecidableEq, Repr

/-- The pool right after the `num_threads` threads are created:
`current_spectrum_id{0}`, every thread at the start of `score_worker`. -/
def Pool.init (num_threads : Nat) : Pool :=
  { current_spectrum_id := 0, workers := List.replicate num_threads WorkerPc.fetch,
    processed := [] }

/-- One step of thread `t`: either the atomic `get_next_spectrum_todo` call
with the loop test, or one loop body.  A thread past its loop, or a thread
number that does not exist, does nothing. -/
def score_worker_step (num_spectra : Int) (st : Pool) (t : Nat) : Pool :=
  match st.workers[t]? with
  | none => st
  | some WorkerPc.finished => st
  | some WorkerPc.fetch =>
      { st with
        current_spectrum_id := (fetch_next num_spectra st.current_spectrum_id).2,
        workers := st.workers.set t (fetch_next num_spectra st.current_spectrum_id).1 }
  | some (WorkerPc.body this_spectrum_id) =>
      { st with
        processed := st.processed ++ [(t, this_spectrum_id)],
        workers := st.workers.set t WorkerPc.fetch }

/-- An interleaving: the threads take steps in the order of `schedule`. -/
def run_pool (num_spectra : Int) (st : Pool) (schedule : List Nat) : Pool :=
  schedule.foldl (score_worker_step num_spectra) st

/-- All `score_worker` loops have terminated. -/
def Pool.all_finished (st : Pool) : Prop :=
  ∀ pc ∈ st.workers, pc = WorkerPc.finished

instance (st : Pool) : Decidable st.all_finished := by
  unfold Pool.all_finished; infer_instance

/-- The index a thread holds inside its loop body, if it is there. -/
def WorkerPc.holding : WorkerPc → List Int
  | WorkerPc.body i => [i]
  | _ => []

/-- The indices handed out but not yet processed. -/
def in_flight (ws : List WorkerPc) : List Int :=
  (ws.map WorkerPc.holding).flatten

/-- The invariant of the pool: the counter is a natural number `c`; the indices
processed or held by a thread are, together, `0 .. min c N - 1`, each once;
and once some thread has left its loop the counter is at least `N`. -/
def PoolInv (N : Nat) (st : Pool) : Prop :=
  ∃ c : Nat, st.current_spectrum_id = c ∧
    (st.processed.map Prod.snd ++ in_flight st.workers).Perm (first_indices (min c N)) ∧
    (WorkerPc.finished ∈ st.workers → N ≤ c)

/-- Steps a thread still has to take at its program point, counted for the
termination argument. -/
def WorkerPc.weight : WorkerPc → Nat
  | WorkerPc.fetch => 2
  | WorkerPc.body _ => 3
  | WorkerPc.finished => 0

/-- The termination measure of the pool: twice the number of indices not yet
handed out, plus the weights of the threads. -/
def pool_measure (num_spectra : Int) (st : Pool) : Nat :=
  2 * (num_spectra - st.current_spectrum_id).toNat + (st.workers.map WorkerPc.weight).sum

/-! ## Arithmetic on `double`

`double` values are modelled as exact numbers of an ordered field `α`
(`ℚ` when the embedding is evaluated), together with the three special
values of IEEE 754 arithmetic.  Rounding, overflow of finite operations and
the sign of zero are not modelled: a zero divisor counts as `+0`.  The
window of the constructor is the exception: its two operations round to
binary64 (`round_binary64`). -/

/-- A `double`: not-a-number, minus infinity, plus infinity, or a finite
value. -/
inductive Dbl (α : Type) where
  | nan
  | ninf
  | pinf
  | fin (x : α)
  deriving DecidableEq, Repr

namespace Dbl

variable {α : Type} [LinearOrderedField α]

instance : OfNat (Dbl α) n := ⟨fin (n : α)⟩

instance : OfScientific (Dbl α) :=
  ⟨fun mantissa exponentSign decimalExponent =>
    fin (OfScientific.ofScientific mantissa exponentSign decimalExponent)⟩

/-- Conversion of a `size_t` or `int` value to `double`. -/
def ofNat (n : Nat) : Dbl α := fin (n : α)

/-- Conversion of an `int` value to `double`. -/
def ofInt (n : Int) : Dbl α := fin (n : α)

/-- Unary minus. -/
def neg : Dbl α → Dbl α
  | nan => nan
  | ninf => pinf
  | pinf => ninf
  | fin x => fin (-x)

/-- Addition: `∞ + (-∞)` is not a number. -/
def add : Dbl α → Dbl α → Dbl α
  | nan, _ => nan
  | _, nan => nan
  | pinf, ninf => nan
  | ninf, pinf => nan
  | pinf, _ => pinf
  | _, pinf => pinf
  | ninf, _ => ninf
  | _, ninf => ninf
  | fin x, fin y => fin (x + y)

/-- Subtraction. -/
def sub (x y : Dbl α) : Dbl α := add x (neg y)

/-- The infinity with the sign of the product of a nonzero finite value and
an infinity; `0 * ∞` is not a number. -/
def inf_of_sign (positive : Bool) (x : α) : Dbl α :=
  if x = 0 then nan else if decide (0 < x) = positive then pinf else ninf

/-- Multiplication. -/
def mul : Dbl α → Dbl α → Dbl α
  | nan, _ => nan
  | _, nan => nan
  | pinf, pinf => pinf
  | ninf, ninf => pinf
  | pinf, ninf => ninf
  | ninf, pinf => ninf
  | pinf, fin y => inf_of_sign true y
  | fin x, pinf => inf_of_sign true x
  | ninf, fin y => inf_of_sign false y
  | fin x, ninf => inf_of_sign false x
  | fin x, fin y => fin (x * y)

/-- Division: `x / 0` is an infinity for `x ≠ 0`, and `0 / 0`, `∞ / ∞` are
not numbers. -/
def div : Dbl α → Dbl α → Dbl α
  | nan, _ => nan
  | _, nan => nan
  | pinf, pinf => nan
  | pinf, ninf => nan
  | ninf, pinf => nan
  | ninf, ninf => nan
  | fin _, pinf => fin 0
  | fin _, ninf => fin 0
  | pinf, fin y => if y < 0 then ninf else pinf
  | ninf, fin y => if y < 0 then pinf else ninf
  | fin x, fin y =>
      if y = 0 then (if x = 0 then nan else if 0 < x then pinf else ninf) else fin (x / y)

instance : Neg (Dbl α) := ⟨neg⟩
instance : Add (Dbl α) := ⟨add⟩
instance : Sub (Dbl α) := ⟨sub⟩
instance : Mul (Dbl α) := ⟨mul⟩
instance : Div (Dbl α) := ⟨div⟩

/-- The comparison `x < y` of two doubles: false as soon as one of them is
not a number. -/
def lt : Dbl α → Dbl α → Bool
  | nan, _ => false
  | _, nan => false
  | ninf, ninf => false
  | ninf, _ => true
  | _, ninf => false
  | pinf, _ => false
  | fin _, pinf => true
  | fin x, fin y => decide (x < y)

/-- The comparison `x <= y` of two doubles: false as soon as one of them is
not a number. -/
def le : Dbl α → Dbl α → Bool
  | nan, _ => false
  | _, nan => false
  | ninf, _ => true
  | _, pinf => true
  | pinf, _ => false
  | fin _, ninf => false
  | fin x, fin y => decide (x ≤ y)

instance : LT (Dbl α) := ⟨fun x y => lt x y = true⟩
instance : LE (Dbl α) := ⟨fun x y => le x y = true⟩
instance (x y : Dbl α) : Decidable (x < y) := inferInstanceAs (Decidable (lt x y = true))
instance (x y : Dbl α) : Decidable (x ≤ y) := inferInstanceAs (Decidable (le x y = true))

/-- The function `fabs`. -/
def fabs : Dbl α → Dbl α
  | nan => nan
  | ninf => pinf
  | pinf => pinf
  | fin x => fin |x|

/-- The test `std::isnan`. -/
def isNaN : Dbl α → Bool
  | nan => true
  | _ => false

end Dbl

/-- The functions of `<cmath>` on finite arguments inside their domain, and
the two constants of `constants.h` (not among the sources) that
`score_spectra` uses: `root2pi`, and `std_dev_in_fwhm`, which the
specification gives as `2.355`. -/
structure Libm (α : Type) where
  sqrt : α → α
  exp : α → α
  atanh : α → α
  root2pi : α
  std_dev_in_fwhm : α

namespace Dbl

variable {α : Type} [LinearOrderedField α]

/-- The function `std::sqrt`: not a number below zero. -/
def sqrt (L : Libm α) : Dbl α → Dbl α
  | nan => nan
  | ninf => nan
  | pinf => pinf
  | fin x => if x < 0 then nan else fin (L.sqrt x)

/-- The function `exp`. -/
def exp (L : Libm α) : Dbl α → Dbl α
  | nan => nan
  | ninf => fin 0
  | pinf => pinf
  | fin x => fin (L.exp x)

/-- The function `std::atanh`: infinite at `±1`, not a number outside
`[-1, 1]`. -/
def atanh (L : Libm α) : Dbl α → Dbl α
  | nan => nan
  | ninf => nan
  | pinf => nan
  | fin x =>
      if x < -1 ∨ 1 < x then nan
      else if x = 1 then pinf
      else if x = -1 then ninf
      else fin (L.atanh x)

end Dbl

/-! ## Spectra and the `Scorer` object -/

/-- A peak of OpenMS, `Peak1D`: position (m/z) and intensity. -/
structure Peak1D (α : Type) where
  mz : Dbl α
  intensity : Dbl α
  deriving DecidableEq, Repr

/-- A spectrum of OpenMS, `PeakSpectrum`: its peaks in storage order. -/
abbrev PeakSpectrum (α : Type) := List (Peak1D α)

/-- What stops `score_spectra` early: the exception thrown at score.cpp 281,
or a query of the spectrum store outside `[0, N)`, which the specification
calls a programming error. -/
inductive Fault where
  | runtime_error (what : String)
  | out_of_range (spectrum_id : Int)
  deriving DecidableEq, Repr

/-- The configuration and input held by the `Scorer` object (score.cpp 24-50),
as far as `score_spectra` reads them.  `half_window` and `input_map` are set
by the constructor. -/
structure Scorer (α : Type) where
  intensity_ratio : Dbl α
  rt_width : Dbl α
  rt_sigma : Dbl α
  ppm : Dbl α
  mz_width : Dbl α
  mz_sigma : Dbl α
  mz_delta : Dbl α
  min_sample : Dbl α
  half_window : Int
  input_map : List (PeakSpectrum α)

/-- The four sample lists `data_nat`, `data_iso`, `shape_nat`, `shape_iso` of
`score_spectra` (score.cpp 233-236). -/
structure Samples (α : Type) where
  data_nat : List (Dbl α)
  data_iso : List (Dbl α)
  shape_nat : List (Dbl α)
  shape_iso : List (Dbl α)
  deriving DecidableEq, Repr

/-- The sample lists as declared at score.cpp 233-236: all empty. -/
def Samples.empty (α : Type) : Samples α :=
  { data_nat := [], data_iso := [], shape_nat := [], shape_iso := [] }

/-- The functions of `vector.h` that `score_spectra` calls; `vector.cpp` is
not among the sources, so they are parameters of the embedding. -/
structure VectorLib (α : Type) where
  mean_vector : List (Dbl α) → Dbl α
  mean_scalars : Dbl α → Dbl α → Dbl α
  shift_vector : List (Dbl α) → Dbl α → List (Dbl α)
  square_vector : List (Dbl α) → List (Dbl α)
  mult_vectors : List (Dbl α) → List (Dbl α) → List (Dbl α)
  mult_scalars : Dbl α → Dbl α → Dbl α

section engine

variable {α : Type} [LinearOrderedField α]

/-- Modelled from the spec: the functions of `vector.h` (`vector.cpp` is not
among the sources), read off the comments at their call sites and the
specification: "each region's own sample mean", "the arithmetic mean of the
two regional means", `(Xa - E(Xab))`, `(Xa - E(Xab))^2`, element-wise and
scalar products.  The mean divides the sum by the size, as `centre_vector`
in `hitime.cpp` does. -/
def vector_h : VectorLib α :=
  { mean_vector := fun v => v.foldl (· + ·) 0 / Dbl.ofNat v.length
    mean_scalars := fun a b => (a + b) / 2
    shift_vector := fun v shift => v.map (fun x => x - shift)
    square_vector := fun v => v.map (fun x => x * x)
    mult_vectors := fun v w => List.zipWith (· * ·) v w
    mult_scalars := fun a b => a * b }

/-- The accessor `input_map.getSpectrum(spectrum_id)` behind
`Scorer::get_spectrum` (score.cpp 80-96); the cache in front of it only saves
reloading. -/
def getSpectrum (input_map : List (PeakSpectrum α)) (spectrum_id : Int) :
    Except Fault (PeakSpectrum α) :=
  if 0 ≤ spectrum_id then
    match input_map[spectrum_id.toNat]? with
    | some spectrum => Except.ok spectrum
    | none => Except.error (Fault.out_of_range spectrum_id)
  else Except.error (Fault.out_of_range spectrum_id)

/-- The OpenMS method `isSorted`: no peak has a larger m/z than its
successor. -/
def isSorted : PeakSpectrum α → Bool
  | [] => true
  | [_] => true
  | p :: q :: rest => !(decide (p.mz > q.mz)) && isSorted (q :: rest)

/-- The OpenMS method `MZBegin(mz)` as an offset from `begin()`: the position
of the first peak whose m/z is not less than `mz` (`std::lower_bound`), the
size of the spectrum when there is none.  It is only called on spectra that
passed `isSorted`. -/
def MZBegin (spectrum : PeakSpectrum α) (mz : Dbl α) : Nat :=
  (spectrum.takeWhile (fun p => decide (p.mz < mz))).length

/-- The read `(*rowi_spectrum)[index]` (score.cpp 308, 344).  `operator[]`
does not check bounds, and a read past the end has undefined behaviour in
C++; here the peak found one past the end is the parameter `junk`, and
`score_spectra_checked` records whether a call reads there at all. -/
def peak_at (rowi_spectrum : PeakSpectrum α) (junk : Peak1D α) (index : Nat) : Peak1D α :=
  rowi_spectrum.getD index junk

/-- The body of the loops `for (Size index = lower_index; index <= upper_index;
++index)` (score.cpp 306-325 and 342-361), acting on one data list and one
shape list. -/
def collect_peak (L : Libm α) (rowi_spectrum : PeakSpectrum α) (junk : Peak1D α)
    (lower_bound upper_bound centre sigma rt_shape_row : Dbl α)
    (lists : List (Dbl α) × List (Dbl α)) (index : Nat) : List (Dbl α) × List (Dbl α) :=
  let peak := peak_at rowi_spectrum junk index
  let mz := peak.mz
  let intensity := peak.intensity
  if mz < lower_bound ∨ mz > upper_bound then lists
  else
    let mz := (mz - centre) / sigma
    let mz := -0.5 * mz * mz
    let fit := Dbl.exp L mz / (sigma * Dbl.fin L.root2pi)
    (lists.1 ++ [intensity], lists.2 ++ [fit * rt_shape_row])

/-- The indices `lower_index, ..., upper_index` visited by the matching loops,
none when `lower_index > upper_index`. -/
def match_indices (lower_index upper_index : Nat) : List Nat :=
  if lower_index ≤ upper_index then
    (List.range (upper_index + 1 - lower_index)).map (fun j => lower_index + j)
  else []

/-- One region of one row (score.cpp 297-326 and 333-362): the two `MZBegin`
searches and the loop over the indices between them. -/
def collect_region (L : Libm α) (rowi_spectrum : PeakSpectrum α) (junk : Peak1D α)
    (lower_bound upper_bound centre sigma rt_shape_row : Dbl α)
    (lists : List (Dbl α) × List (Dbl α)) : List (Dbl α) × List (Dbl α) :=
  let lower_index := MZBegin rowi_spectrum lower_bound
  let upper_index := MZBegin rowi_spectrum upper_bound
  (match_indices lower_index upper_index).foldl
    (collect_peak L rowi_spectrum junk lower_bound upper_bound centre sigma rt_shape_row) lists

end engine

section engine

variable {α : Type} [LinearOrderedField α]

/-- The constant `mz_ppm_sigma` (score.cpp 193). -/
def mz_ppm_sigma (L : Libm α) (sc : Scorer α) : Dbl α :=
  sc.mz_width / (Dbl.fin L.std_dev_in_fwhm * 1e6)

/-- The constant `lower_tol` (score.cpp 195). -/
def lower_tol (L : Libm α) (sc : Scorer α) : Dbl α :=
  1.0 - sc.mz_sigma * mz_ppm_sigma L sc

/-- The constant `upper_tol` (score.cpp 196). -/
def upper_tol (L : Libm α) (sc : Scorer α) : Dbl α :=
  1.0 + sc.mz_sigma * mz_ppm_sigma L sc

/-- The vector `rt_shape` built by the loop at score.cpp 202-211; the local
`rt_sigma` of score.cpp 192 is `rt_width / std_dev_in_fwhm`. -/
def rt_shape (L : Libm α) (sc : Scorer α) : List (Dbl α) :=
  let rt_sigma := sc.rt_width / Dbl.fin L.std_dev_in_fwhm
  (List.range ((2 * sc.half_window) + 1).toNat).map (fun (i : Nat) =>
    let pt := Dbl.ofInt ((i : Int) - sc.half_window) / rt_sigma
    let pt := -0.5 * pt * pt
    Dbl.exp L pt / (rt_sigma * Dbl.fin L.root2pi))

/-- The row indices `centre_idx - half_window, ..., centre_idx + half_window`
of the loop at score.cpp 268. -/
def window_rows (sc : Scorer α) (centre_idx : Int) : List Int :=
  (List.range ((2 * sc.half_window) + 1).toNat).map
    (fun (j : Nat) => centre_idx - sc.half_window + (j : Int))

/-- The variables that the loop over the rows carries from one row to the
next: `centre` and `sigma`, declared at score.cpp 248 and 265 outside that
loop and reassigned at score.cpp 329-330 inside it, and the sample lists. -/
structure RowState (α : Type) where
  centre : Dbl α
  sigma : Dbl α
  samples : Samples α

/-- The body of the loop over the rows (score.cpp 268-365) for the centre peak
with m/z `centre0`. -/
def scan_row (L : Libm α) (sc : Scorer α) (junk : Peak1D α) (centre_idx : Int)
    (centre0 : Dbl α) (st : RowState α) (rowi : Int) : Except Fault (RowState α) :=
  let lower_bound_nat := centre0 * lower_tol L sc
  let upper_bound_nat := centre0 * upper_tol L sc
  let lower_bound_iso := (centre0 + sc.mz_delta) * lower_tol L sc
  let upper_bound_iso := (centre0 + sc.mz_delta) * upper_tol L sc
  let rt_offset := centre_idx - sc.half_window
  if 0 ≤ rowi ∧ rowi < (sc.input_map.length : Int) then
    let rt_shape_nat := (rt_shape L sc).getD (rowi - rt_offset).toNat Dbl.nan
    let rt_shape_iso := rt_shape_nat * sc.intensity_ratio
    match getSpectrum sc.input_map rowi with
    | Except.error e => Except.error e
    | Except.ok rowi_spectrum =>
      if !isSorted rowi_spectrum then
        Except.error (Fault.runtime_error "Spectrum not sorted")
      else
        let nat := collect_region L rowi_spectrum junk lower_bound_nat upper_bound_nat
          st.centre st.sigma rt_shape_nat (st.samples.data_nat, st.samples.shape_nat)
        let centre := st.centre + sc.mz_delta
        let sigma := centre * mz_ppm_sigma L sc
        let iso := collect_region L rowi_spectrum junk lower_bound_iso upper_bound_iso
          centre sigma rt_shape_iso (st.samples.data_iso, st.samples.shape_iso)
        Except.ok
          { centre := centre, sigma := sigma,
            samples :=
              { data_nat := nat.1, shape_nat := nat.2, data_iso := iso.1, shape_iso := iso.2 } }
  else Except.ok st

/-- The loop over the rows of the window (score.cpp 268-365). -/
def scan_rows (L : Libm α) (sc : Scorer α) (junk : Peak1D α) (centre_idx : Int)
    (centre0 : Dbl α) : RowState α → List Int → Except Fault (RowState α)
  | st, [] => Except.ok st
  | st, rowi :: rows =>
      match scan_row L sc junk centre_idx centre0 st rowi with
      | Except.error e => Except.error e
      | Except.ok st1 => scan_rows L sc junk centre_idx centre0 st1 rows

/-- The test on the sample counts (score.cpp 367-378): the sample lists and
`nAB` after it. -/
def apply_min_sample (min_sample_opt : Dbl α) (s : Samples α) : Samples α × Dbl α :=
  if Dbl.ofNat s.data_nat.length < min_sample_opt ∨
      Dbl.ofNat s.data_iso.length < min_sample_opt then
    ({ s with data_nat := [], shape_nat := [] }, 0)
  else
    (s, Dbl.ofNat (s.data_nat.length + s.data_iso.length))

/-- The function `std::min` on an initializer list, `*std::min_element`: the
first element that no later element is less than. -/
def std_min : List (Dbl α) → Dbl α
  | [] => Dbl.nan
  | x :: xs => xs.foldl (fun smallest y => if y < smallest then y else smallest) x

/-- The function `std::max` on an initializer list, `*std::max_element`: the
first element that is not less than any later element. -/
def std_max : List (Dbl α) → Dbl α
  | [] => Dbl.nan
  | x :: xs => xs.foldl (fun largest y => if largest < y then y else largest) x

/-- The clamp `(c > 0.0 ? c : 0.0)` applied to every correlation. -/
def clamp_correl (c : Dbl α) : Dbl α := if c > 0.0 then c else 0.0

end engine

/-! ## The statistics of one centre peak (score.cpp 408-826)

Every local variable of the source is a function of the sample lists `s`
left by the test on the sample counts, and of `nAB`. -/

section statistics

variable {α : Type} [LinearOrderedField α] (L : Libm α) (V : VectorLib α) (s : Samples α)

def EXa : Dbl α := V.mean_vector s.data_nat
def EXb : Dbl α := V.mean_vector s.data_iso
def EYa : Dbl α := V.mean_vector s.shape_nat
def EYb : Dbl α := V.mean_vector s.shape_iso

def EXab : Dbl α := V.mean_scalars (EXa V s) (EXb V s)
def EYab : Dbl α := V.mean_scalars (EYa V s) (EYb V s)

def CXa : List (Dbl α) := V.shift_vector s.data_nat (EXab V s)
def CXb : List (Dbl α) := V.shift_vector s.data_iso (EXab V s)
def CYa : List (Dbl α) := V.shift_vector s.shape_nat (EYab V s)
def CYb : List (Dbl α) := V.shift_vector s.shape_iso (EYab V s)

def CXa2 : List (Dbl α) := V.square_vector (CXa V s)
def CXb2 : List (Dbl α) := V.square_vector (CXb V s)
def CYa2 : List (Dbl α) := V.square_vector (CYa V s)
def CYb2 : List (Dbl α) := V.square_vector (CYb V s)

def CXaCYa : List (Dbl α) := V.mult_vectors (CXa V s) (CYa V s)
def CXbCYb : List (Dbl α) := V.mult_vectors (CXb V s) (CYb V s)

def ECXaCYa : Dbl α := V.mean_vector (CXaCYa V s)
def ECXbCYb : Dbl α := V.mean_vector (CXbCYb V s)
def ECXa2 : Dbl α := V.mean_vector (CXa2 V s)
def ECXb2 : Dbl α := V.mean_vector (CXb2 V s)
def ECYa2 : Dbl α := V.mean_vector (CYa2 V s)
def ECYb2 : Dbl α := V.mean_vector (CYb2 V s)

def cov_Xab : Dbl α := V.mean_scalars (ECXaCYa V s) (ECXbCYb V s)
def var_Xab : Dbl α := V.mean_scalars (ECXa2 V s) (ECXb2 V s)
def var_Yab : Dbl α := V.mean_scalars (ECYa2 V s) (ECYb2 V s)

/-! Model A0: the isotope region modelled as all zero (score.cpp 528-586). -/

def EYa_ : Dbl α := 0.5 * EYa V s
def CYa_ : List (Dbl α) := V.shift_vector s.shape_nat (EYa_ V s)
def CYa_2 : List (Dbl α) := V.square_vector (CYa_ V s)
def CXaCYa_ : List (Dbl α) := V.mult_vectors (CXa V s) (CYa_ V s)
def ECXaCYaEa_ : Dbl α := V.mean_vector (CXaCYa_ V s)
def ECXbCYbEa_ : Dbl α := -(V.mult_scalars (V.mean_vector (CXb V s)) (EYa_ V s))
def ECYaEa_2 : Dbl α := V.mean_vector (CYa_2 V s)
def ECYbEa_2 : Dbl α := V.mult_scalars (EYa_ V s) (EYa_ V s)
def cov_Xa_ : Dbl α := V.mean_scalars (ECXaCYaEa_ V s) (ECXbCYbEa_ V s)
def var_Ya_ : Dbl α := V.mean_scalars (ECYaEa_2 V s) (ECYbEa_2 V s)

/-! Model 0B: the natural region modelled as all zero (score.cpp 588-657). -/

def EY_b : Dbl α := 0.5 * EYb V s
def CY_b : List (Dbl α) := V.shift_vector s.shape_iso (EY_b V s)
def CY_b2 : List (Dbl α) := V.square_vector (CY_b V s)
def CXbCY_b : List (Dbl α) := V.mult_vectors (CXb V s) (CY_b V s)
def ECXbCYbE_b : Dbl α := V.mean_vector (CXbCY_b V s)
def ECXaCYaE_b : Dbl α := -(V.mult_scalars (V.mean_vector (CXa V s)) (EY_b V s))
def ECYbE_b2 : Dbl α := V.mean_vector (CY_b2 V s)
def ECYaE_b2 : Dbl α := V.mult_scalars (EY_b V s) (EY_b V s)
def cov_X_b : Dbl α := V.mean_scalars (ECXaCYaE_b V s) (ECXbCYbE_b V s)
def var_Y_b : Dbl α := V.mean_scalars (ECYaE_b2 V s) (ECYbE_b2 V s)

/-! Correlations of the data with the three models (score.cpp 661-673). -/

def correl_XabYab : Dbl α :=
  clamp_correl (cov_Xab V s / Dbl.sqrt L (var_Xab V s * var_Yab V s))
def correl_XabYa_ : Dbl α :=
  clamp_correl (cov_Xa_ V s / Dbl.sqrt L (var_Xab V s * var_Ya_ V s))
def correl_XabY_b : Dbl α :=
  clamp_correl (cov_X_b V s / Dbl.sqrt L (var_Xab V s * var_Y_b V s))

/-! Correlations between the models (score.cpp 681-753). -/

def CYaCYa_ : List (Dbl α) := V.mult_vectors (CYa V s) (CYa_ V s)
def ECYaCYaEa_ : Dbl α := V.mean_vector (CYaCYa_ V s)
def ECYbCYbEa_ : Dbl α := -(V.mult_scalars (V.mean_vector (CYa V s)) (EYa_ V s))
def cov_YabYa_ : Dbl α := V.mean_scalars (ECYaCYaEa_ V s) (ECYbCYbEa_ V s)
def correl_YabYa_ : Dbl α :=
  clamp_correl (cov_YabYa_ V s / Dbl.sqrt L (var_Yab V s * var_Ya_ V s))

def CYbCY_b : List (Dbl α) := V.mult_vectors (CYb V s) (CY_b V s)
def ECYbCYbE_b : Dbl α := V.mean_vector (CYbCY_b V s)
def ECYaCYaE_b : Dbl α := -(V.mult_scalars (V.mean_vector (CYb V s)) (EY_b V s))
def cov_YabY_b : Dbl α := V.mean_scalars (ECYaCYaE_b V s) (ECYbCYbE_b V s)
def correl_YabY_b : Dbl α :=
  clamp_correl (cov_YabY_b V s / Dbl.sqrt L (var_Yab V s * var_Y_b V s))

/-! Comparison of the correlations (score.cpp 757-826). -/

def rm2ABA0 : Dbl α :=
  0.5 * (correl_XabYab L V s * correl_XabYab L V s + correl_XabYa_ L V s * correl_XabYa_ L V s)
def rm2AB0B : Dbl α :=
  0.5 * (correl_XabYab L V s * correl_XabYab L V s + correl_XabY_b L V s * correl_XabY_b L V s)

def fABA0 : Dbl α := (1.0 - correl_XabYa_ L V s) / (2.0 * (1.0 - rm2ABA0 L V s))
def fAB0B : Dbl α := (1.0 - correl_XabY_b L V s) / (2.0 * (1.0 - rm2AB0B L V s))

def hABA0 : Dbl α := (1.0 - fABA0 L V s * rm2ABA0 L V s) / (1.0 - rm2ABA0 L V s)
def hAB0B : Dbl α := (1.0 - fAB0B L V s * rm2AB0B L V s) / (1.0 - rm2AB0B L V s)

/-- The value of `nAB` after `nAB = std::sqrt(nAB - 3.0)` (score.cpp 799). -/
def sqrt_nAB (nAB : Dbl α) : Dbl α := Dbl.sqrt L (nAB - 3.0)

def zABA0 (nAB : Dbl α) : Dbl α :=
  (Dbl.atanh L (correl_XabYab L V s) - Dbl.atanh L (correl_XabYa_ L V s)) * sqrt_nAB L nAB
    / (2.0 * (1.0 - correl_YabYa_ L V s) * hABA0 L V s)
def zAB0B (nAB : Dbl α) : Dbl α :=
  (Dbl.atanh L (correl_XabYab L V s) - Dbl.atanh L (correl_XabY_b L V s)) * sqrt_nAB L nAB
    / (2.0 * (1.0 - correl_YabY_b L V s) * hAB0B L V s)

/-- The local `min_score` (score.cpp 826). -/
def min_score (nAB : Dbl α) : Dbl α :=
  std_max [0.0, std_min [zABA0 L V s nAB, zAB0B L V s nAB]]

end statistics

/-! ## `Scorer::score_spectra` (score.cpp 186-836) -/

section engine

variable {α : Type} [LinearOrderedField α]

/-- What one pass of the loop over the centre peaks leaves behind: the sample
lists and `nAB` after the test on the sample counts, from which the
statistics of that pass, up to its `min_score`, are computed. -/
structure PointRun (α : Type) where
  samples : Samples α
  nAB : Dbl α
  deriving DecidableEq, Repr

/-- The local `min_score` of a pass. -/
def PointRun.min_score (L : Libm α) (V : VectorLib α) (p : PointRun α) : Dbl α :=
  HiTIME.min_score L V p.samples p.nAB

/-- One pass of the loop over the peaks of the centre spectrum (score.cpp
245-833), entered with the sample lists `acc` as the previous pass left
them. -/
def score_point (L : Libm α) (sc : Scorer α) (junk : Peak1D α) (centre_idx : Int)
    (acc : Samples α) (it : Peak1D α) : Except Fault (PointRun α) :=
  let centre := it.mz
  let sigma := centre * mz_ppm_sigma L sc
  match scan_rows L sc junk centre_idx centre
      { centre := centre, sigma := sigma, samples := acc } (window_rows sc centre_idx) with
  | Except.error e => Except.error e
  | Except.ok st =>
      Except.ok
        { samples := (apply_min_sample sc.min_sample st.samples).1,
          nAB := (apply_min_sample sc.min_sample st.samples).2 }

/-- The loop over the peaks of the centre spectrum: the passes in order.  The
sample lists are declared before the loop (score.cpp 233-236), so each pass
starts from the lists the previous pass ended with. -/
def score_points (L : Libm α) (sc : Scorer α) (junk : Peak1D α) (centre_idx : Int) :
    Samples α → List (Peak1D α) → Except Fault (List (PointRun α))
  | _, [] => Except.ok []
  | acc, it :: rest =>
      match score_point L sc junk centre_idx acc it with
      | Except.error e => Except.error e
      | Except.ok p =>
          match score_points L sc junk centre_idx p.samples rest with
          | Except.error e => Except.error e
          | Except.ok ps => Except.ok (p :: ps)

/-- A completed call of `score_spectra`.  `returned` is the `double_vect` handed
back by a `return` statement: the function has none (both are commented out,
score.cpp 834-835).  `points` are the passes of the loop over the centre
peaks, in peak order. -/
structure ScoreRun (α : Type) where
  returned : Option (List (Dbl α))
  points : List (PointRun α)
  deriving DecidableEq, Repr

/-- The method `Scorer::score_spectra(int centre_idx)`. -/
def score_spectra (L : Libm α) (sc : Scorer α) (junk : Peak1D α) (centre_idx : Int) :
    Except Fault (ScoreRun α) :=
  match getSpectrum sc.input_map centre_idx with
  | Except.error e => Except.error e
  | Except.ok centre_row_points =>
      match score_points L sc junk centre_idx (Samples.empty α) centre_row_points with
      | Except.error e => Except.error e
      | Except.ok points => Except.ok { returned := none, points := points }

/-- The values the local `min_score` takes, one per pass, in peak order. -/
def ScoreRun.min_scores (L : Libm α) (V : VectorLib α) (r : ScoreRun α) : List (Dbl α) :=
  r.points.map (PointRun.min_score L V)

/-- The samples one centre peak collects on its own: a pass entered with empty
lists, before the test on the sample counts. -/
def collected_for (L : Libm α) (sc : Scorer α) (junk : Peak1D α) (centre_idx : Int)
    (it : Peak1D α) : Except Fault (Samples α) :=
  match scan_rows L sc junk centre_idx it.mz
      { centre := it.mz, sigma := it.mz * mz_ppm_sigma L sc, samples := Samples.empty α }
      (window_rows sc centre_idx) with
  | Except.error e => Except.error e
  | Except.ok st => Except.ok st.samples

end engine

/-! ## A rational `<cmath>` for evaluating the embedding

The theorems about `score_spectra` hold for every `Libm`.  To evaluate the
embedding on a concrete input, `libm_q` supplies rational functions: its
`sqrt` is exact on squares of rationals, `exp 0 = 1`, `atanh 0 = 0`, and
elsewhere the values are rational approximations. -/

/-- Partial sum of the exponential series, by Horner's rule. -/
def exp_series : Nat → ℚ → ℚ
  | 0, _ => 1
  | k + 1, x => 1 + x / (20 - k) * exp_series k x

/-- Exponential: the partial sum of degree 20, through `exp (-x) = 1 / exp x`
for negative arguments. -/
def exp_q (x : ℚ) : ℚ :=
  if x < 0 then 1 / exp_series 20 (-x) else exp_series 20 x

/-- Partial sum of the series `Σ x^(2k+1) / (2k+1)` of `atanh`. -/
def atanh_series : Nat → ℚ → ℚ
  | 0, _ => 0
  | k + 1, x => atanh_series k x + x ^ (2 * k + 1) / (2 * k + 1)

/-- The rational stand-in for `<cmath>` and `constants.h`. -/
def libm_q : Libm ℚ :=
  { sqrt := Rat.sqrt
    exp := exp_q
    atanh := atanh_series 40
    root2pi := 2.5066282746310002
    std_dev_in_fwhm := 2.355 }

/-! ## Concrete inputs -/

instance {ε β : Type} [DecidableEq ε] [DecidableEq β] : DecidableEq (Except ε β)
  | Except.ok a, Except.ok b =>
      if h : a = b then isTrue (by rw [h]) else isFalse (fun h2 => by cases h2; exact h rfl)
  | Except.error a, Except.error b =>
      if h : a = b then isTrue (by rw [h]) else isFalse (fun h2 => by cases h2; exact h rfl)
  | Except.ok _, Except.error _ => isFalse (fun h => by cases h)
  | Except.error _, Except.ok _ => isFalse (fun h => by cases h)

/-- The command-line defaults of `hitime.cpp` for the m/z parameters, with
isotope ratio `2`, at least `2` samples per region and a window of one row on
each side (`half_window = ceil(0.1 * 17 / 2.355) = 1`), over a given store. -/
def scorer_on (input_map : List (PeakSpectrum ℚ)) : Scorer ℚ :=
  { intensity_ratio := 2.0, rt_width := 17.0, rt_sigma := 0.1, ppm := 4.0, mz_width := 150.0,
    mz_sigma := 1.5, mz_delta := 6.0201, min_sample := 2.0, half_window := 1,
    input_map := input_map }

/-- A store of one spectrum: two peaks at m/z `100` with intensity `1`, one
peak at `100 + mz_delta` with intensity `2`, and a far peak at m/z `1000`,
which ends every search of the passes for the other peaks inside the
spectrum. -/
def store_two_and_one : List (PeakSpectrum ℚ) :=
  [[⟨100.0, 1.0⟩, ⟨100.0, 1.0⟩, ⟨106.0201, 2.0⟩, ⟨1000.0, 1.0⟩]]

/-- A store of one spectrum: two peaks at m/z `100` with intensity `1`, two
peaks at `100 + mz_delta` with intensity `2`, and a far peak at m/z `1000`,
which ends every search of the passes for the other peaks inside the
spectrum. -/
def store_two_and_two : List (PeakSpectrum ℚ) :=
  [[⟨100.0, 1.0⟩, ⟨100.0, 1.0⟩, ⟨106.0201, 2.0⟩, ⟨106.0201, 2.0⟩, ⟨1000.0, 1.0⟩]]

/-- The peak read one past the end of a spectrum in the evaluations: zeroed
memory.  Only the pass for the far peak of a store reads there. -/
def junk_zero : Peak1D ℚ := ⟨0, 0⟩

/-- The shape sample of a natural-region match at m/z `100` in the centre row
of `scorer_on`, computed with `libm_q`. -/
def shape_100 : ℚ := 3081125000000000000000000000000000 / 890117918517107869451975037423339

/-- The shape sample of an isotope-region match at m/z `106.0201` in the centre
row of `scorer_on`, computed with `libm_q`. -/
def shape_106 : ℚ :=
  6162250000000000000000000000000000000000 / 943703907329756280300853386651261431139

/-- Row `rowi` of the store exists and fails `isSorted`. -/
def row_unsorted {α : Type} [LinearOrderedField α] (sc : Scorer α) (rowi : Int) : Prop :=
  0 ≤ rowi ∧ ∃ spectrum, sc.input_map[rowi.toNat]? = some spectrum ∧ isSorted spectrum = false

/-- The pass of `score_spectra` for the first peak (m/z `100`) of
`store_two_and_one`: one isotope sample, fewer than `min_sample = 2`. -/
def pass_under_sampled : PointRun ℚ :=
  { samples := { data_nat := [], data_iso := [2], shape_nat := [],
                 shape_iso := [Dbl.fin shape_106] },
    nAB := 0 }

/-- The pass of `score_spectra` for the second peak (m/z `100`) of
`store_two_and_one`. -/
def pass_with_stale_samples : PointRun ℚ :=
  { samples := { data_nat := [1, 1], data_iso := [2, 2],
                 shape_nat := [Dbl.fin shape_100, Dbl.fin shape_100],
                 shape_iso := [Dbl.fin shape_106, Dbl.fin shape_106] },
    nAB := 4 }

/-- The pass of `score_spectra` for the third peak (m/z `106.0201`) of
`store_two_and_one`. -/
def pass_third : PointRun ℚ :=
  { samples := { data_nat := [1, 1, 2], data_iso := [2, 2],
                 shape_nat := [Dbl.fin shape_100, Dbl.fin shape_100, Dbl.fin (shape_106 / 2)],
                 shape_iso := [Dbl.fin shape_106, Dbl.fin shape_106] },
    nAB := 5 }

/-- The pass of `score_spectra` for the far peak (m/z `1000`) of
`store_two_and_one`, when `junk_zero` lies past the end of the spectrum. -/
def pass_far : PointRun ℚ :=
  { samples := { data_nat := [1, 1, 2, 1], data_iso := [2, 2],
                 shape_nat := [Dbl.fin shape_100, Dbl.fin shape_100, Dbl.fin (shape_106 / 2),
                               Dbl.fin (shape_100 / 10)],
                 shape_iso := [Dbl.fin shape_106, Dbl.fin shape_106] },
    nAB := 6 }

/-- The run of `score_spectra` on `store_two_and_one`, centre row `0`: one pass
per peak. -/
def run_two_and_one : ScoreRun ℚ :=
  { returned := none,
    points := [pass_under_sampled, pass_with_stale_samples, pass_third, pass_far] }

/-- Sample lists with two equal samples per region: intensities `xa`, shapes
`a` in the natural region, intensities `xb`, shapes `b` in the isotope
region. -/
def two_and_two {α : Type} (xa xb a b : α) : Samples α :=
  { data_nat := [Dbl.fin xa, Dbl.fin xa], data_iso := [Dbl.fin xb, Dbl.fin xb],
    shape_nat := [Dbl.fin a, Dbl.fin a], shape_iso := [Dbl.fin b, Dbl.fin b] }

/-- The run of `score_spectra` on `store_two_and_two`, centre row `0`: one pass
per peak. -/
def run_two_and_two : ScoreRun ℚ :=
  { returned := none,
    points :=
      [ { samples := two_and_two 1 2 shape_100 shape_106, nAB := 4 },
        { samples :=
            { data_nat := [1, 1, 1, 1], data_iso := [2, 2, 2, 2],
              shape_nat := List.replicate 4 (Dbl.fin shape_100),
              shape_iso := List.replicate 4 (Dbl.fin shape_106) },
          nAB := 8 },
        { samples :=
            { data_nat := [1, 1, 1, 1, 2, 2], data_iso := [2, 2, 2, 2],
              shape_nat := List.replicate 4 (Dbl.fin shape_100)
                ++ List.replicate 2 (Dbl.fin (shape_106 / 2)),
              shape_iso := List.replicate 4 (Dbl.fin shape_106) },
          nAB := 10 },
        { samples :=
            { data_nat := [1, 1, 1, 1, 2, 2, 2, 2], data_iso := [2, 2, 2, 2],
              shape_nat := List.replicate 4 (Dbl.fin shape_100)
                ++ List.replicate 4 (Dbl.fin (shape_106 / 2)),
              shape_iso := List.replicate 4 (Dbl.fin shape_106) },
          nAB := 12 },
        { samples :=
            { data_nat := [1, 1, 1, 1, 2, 2, 2, 2, 1], data_iso := [2, 2, 2, 2],
              shape_nat := List.replicate 4 (Dbl.fin shape_100)
                ++ List.replicate 4 (Dbl.fin (shape_106 / 2)) ++ [Dbl.fin (shape_100 / 10)],
              shape_iso := List.replicate 4 (Dbl.fin shape_106) },
          nAB := 13 } ] }

/-- What a peak at m/z `100` of `store_two_and_one` collects on its own: two
natural samples and one isotope sample. -/
def collected_alone : Samples ℚ :=
  { data_nat := [1, 1], data_iso := [2],
    shape_nat := [Dbl.fin shape_100, Dbl.fin shape_100],
    shape_iso := [Dbl.fin shape_106] }

section engine

variable {α : Type} [LinearOrderedField α]

/-- Every index visited by the matching loop of a region is a position of the
row spectrum: the loop reads no peak past the end. -/
def region_in_bounds (rowi_spectrum : PeakSpectrum α) (lower_bound upper_bound : Dbl α) : Bool :=
  (match_indices (MZBegin rowi_spectrum lower_bound) (MZBegin rowi_spectrum upper_bound)).all
    (fun index => decide (index < rowi_spectrum.length))

/-- The two matching loops of row `rowi`, for the centre peak with m/z
`centre0`, read no peak past the end of the row spectrum. -/
def row_in_bounds (L : Libm α) (sc : Scorer α) (centre0 : Dbl α) (rowi : Int) : Bool :=
  match getSpectrum sc.input_map rowi with
  | Except.error _ => true
  | Except.ok rowi_spectrum =>
      region_in_bounds rowi_spectrum (centre0 * lower_tol L sc) (centre0 * upper_tol L sc) &&
      region_in_bounds rowi_spectrum ((centre0 + sc.mz_delta) * lower_tol L sc)
        ((centre0 + sc.mz_delta) * upper_tol L sc)

/-- The pass for the centre peak with m/z `centre0` reads no peak past the end
of any row spectrum of its window. -/
def pass_in_bounds (L : Libm α) (sc : Scorer α) (centre_idx : Int) (centre0 : Dbl α) : Bool :=
  (window_rows sc centre_idx).all (row_in_bounds L sc centre0)

end engine

/-! ## Input cache (`Scorer::get_spectrum`, score.cpp 80-96) -/

/-- The cache size of score.cpp 14, `#define CACHE_SIZE 30`. -/
def CACHE_SIZE : Nat := 30

/-- Modelled from the spec: the class `lru_cache` of `lru_cache.hpp`, which is
not among the sources.  The specification describes a "bounded
least-recently-used cache" whose capacity "is a fixed configured bound"; an
entry is an index with the shared spectrum, and the "recency marker" is the
position in `items`, most recently used first. -/
structure LruCache (V : Type) where
  max_size : Nat
  items : List (Int × V)
  deriving DecidableEq, Repr

/-- Modelled from the spec: the cache built by `input_spectrum_cache(CACHE_SIZE)`
(score.cpp 39) holds nothing. -/
def LruCache.empty (V : Type) (max_size : Nat) : LruCache V :=
  { max_size := max_size, items := [] }

/-- The indices held by the cache, most recently used first. -/
def LruCache.keys {V : Type} (c : LruCache V) : List Int := c.items.map Prod.fst

/-- Modelled from the spec: the test `input_spectrum_cache.exists(key)`, a
"hit" when the cache holds an entry for the index. -/
def LruCache.exists {V : Type} (c : LruCache V) (key : Int) : Bool :=
  c.items.any (fun e => decide (e.1 = key))

/-- Modelled from the spec: `input_spectrum_cache.get(key)`: "On hit, promotes
the entry to most-recently-used and returns the shared handle."  There is no
result when the cache has no entry for the index. -/
def LruCache.get {V : Type} (c : LruCache V) (key : Int) : Option (V × LruCache V) :=
  match c.items.find? (fun e => decide (e.1 = key)) with
  | some e =>
      some (e.2, { c with items := e :: c.items.filter (fun x => !decide (x.1 = key)) })
  | none => none

/-- Modelled from the spec: `input_spectrum_cache.put(key, value)` for an index
the cache does not hold: "inserts as most-recently-used, and — if the cache
is at capacity — evicts the least-recently-used entry first." -/
def LruCache.put {V : Type} (c : LruCache V) (key : Int) (value : V) : LruCache V :=
  if c.max_size ≤ c.items.length then
    { c with items := (key, value) :: c.items.dropLast }
  else
    { c with items := (key, value) :: c.items }

section engine

variable {α : Type} [LinearOrderedField α]

/-- The method `Scorer::get_spectrum(int spectrum_id)`, run under
`input_spectrum_lock`: the spectrum handed back and the cache after the call.
`exists` has just answered yes when `get` is called, so `get` has a result. -/
def get_spectrum (input_map : List (PeakSpectrum α)) (input_spectrum_cache : LruCache (PeakSpectrum α))
    (spectrum_id : Int) : Except Fault (PeakSpectrum α × LruCache (PeakSpectrum α)) :=
  if input_spectrum_cache.exists spectrum_id then
    match input_spectrum_cache.get spectrum_id with
    | some (spectrum, cache) => Except.ok (spectrum, cache)
    | none => Except.error (Fault.out_of_range spectrum_id)
  else
    match getSpectrum input_map spectrum_id with
    | Except.error e => Except.error e
    | Except.ok spectrum =>
        Except.ok (spectrum, input_spectrum_cache.put spectrum_id spectrum)

/-- A sequence of `get_spectrum` calls, in the order in which they get the
input lock: the cache after the last one. -/
def get_spectrum_calls (input_map : List (PeakSpectrum α)) :
    LruCache (PeakSpectrum α) → List Int → Except Fault (LruCache (PeakSpectrum α))
  | cache, [] => Except.ok cache
  | cache, spectrum_id :: rest =>
      match get_spectrum input_map cache spectrum_id with
      | Except.error e => Except.error e
      | Except.ok r => get_spectrum_calls input_map r.2 rest

/-- The indices that one `get_spectrum` call removes from the cache: held
before the call and not after it. -/
def evicted_by {V : Type} (before after : LruCache V) : List Int :=
  before.keys.filter (fun k => !after.exists k)

/-- The indices removed from the cache by a sequence of `get_spectrum` calls,
in the order of their removal. -/
def evictions (input_map : List (PeakSpectrum α)) :
    LruCache (PeakSpectrum α) → List Int → List Int
  | _, [] => []
  | cache, spectrum_id :: rest =>
      match get_spectrum input_map cache spectrum_id with
      | Except.error _ => []
      | Except.ok r => evicted_by cache r.2 ++ evictions input_map r.2 rest

end engine

/-- The order of recency after a sequence of accesses, most recent first: each
index once, at the place of its last access. -/
def recency (accesses : List Int) : List Int :=
  accesses.foldl (fun order key => key :: order.erase key) []

section engine

variable {α : Type} [LinearOrderedField α]

/-- The invariant of the input cache, against the store and an order of
recency: the capacity is as configured, the indices held are the first
`max_size` of the order, and every entry holds the spectrum the store has
for its index. -/
def CacheInv (input_map : List (PeakSpectrum α)) (max_size : Nat) (order : List Int)
    (c : LruCache (PeakSpectrum α)) : Prop :=
  c.max_size = max_size ∧ c.keys = order.take max_size ∧
    ∀ e ∈ c.items, getSpectrum input_map e.1 = Except.ok e.2

end engine

/-- A store of four spectra of one peak each. -/
def store_of_four : List (PeakSpectrum ℚ) :=
  [[⟨100.0, 1.0⟩], [⟨101.0, 1.0⟩], [⟨102.0, 1.0⟩], [⟨103.0, 1.0⟩]]

/-- The cache of capacity `2` after `get_spectrum` was called for the indices
`1, 2, 3` of `store_of_four`. -/
def cache_after_1_2_3 : LruCache (PeakSpectrum ℚ) :=
  { max_size := 2, items := [(3, [⟨103.0, 1.0⟩]), (2, [⟨102.0, 1.0⟩])] }

/-- The cache of capacity `2` after `get_spectrum` was called for the indices
`1, 2, 3, 1` of `store_of_four`. -/
def cache_after_1_2_3_1 : LruCache (PeakSpectrum ℚ) :=
  { max_size := 2, items := [(1, [⟨101.0, 1.0⟩]), (3, [⟨103.0, 1.0⟩])] }

/-! ## The body of the worker loop (`Scorer::score_worker`, score.cpp 156-166) -/

section engine

variable {α : Type}

/-- The OpenMS method `Peak1D::setIntensity`. -/
def Peak1D.setIntensity (peak : Peak1D α) (intensity : Dbl α) : Peak1D α :=
  { peak with intensity := intensity }

/-- The read `score[index]` (score.cpp 162).  `operator[]` of `std::vector`
does not check bounds; the value found past the end is the parameter
`junk_score`. -/
def score_at (score : List (Dbl α)) (junk_score : Dbl α) (index : Nat) : Dbl α :=
  score.getD index junk_score

/-- The loop `for (int index = 0; index < input_spectrum->size(); index++)` of
score.cpp 160-164, with `size` for `input_spectrum->size()`: each pass runs
`output_spectrum[index].setIntensity(score[index])`. -/
def set_intensities (score : List (Dbl α)) (junk_score : Dbl α) (size : Nat)
    (output_spectrum : PeakSpectrum α) : PeakSpectrum α :=
  (List.range size).foldl
    (fun out index =>
      match out[index]? with
      | some peak => out.set index (peak.setIntensity (score_at score junk_score index))
      | none => out)
    output_spectrum

/-- The body of the `while` loop of `score_worker` from score.cpp 157 on, with
`score` the vector that the local variable holds after score.cpp 156:
`get_spectrum`, the copy `MSSpectrum<Peak1D>(*input_spectrum)`, and the loop
over the peaks.  The result is the pair of arguments of the `put_spectrum`
call of score.cpp 166, and the input cache as the body leaves it. -/
def score_worker_body (input_map : List (PeakSpectrum α))
    (input_spectrum_cache : LruCache (PeakSpectrum α)) (this_spectrum_id : Int)
    (score : List (Dbl α)) (junk_score : Dbl α) :
    Except Fault ((Int × PeakSpectrum α) × LruCache (PeakSpectrum α)) :=
  match get_spectrum input_map input_spectrum_cache this_spectrum_id with
  | Except.error e => Except.error e
  | Except.ok (input_spectrum, cache) =>
      let output_spectrum := input_spectrum
      Except.ok
        ((this_spectrum_id,
          set_intensities score junk_score input_spectrum.length output_spectrum), cache)

end engine

section engine

variable {α : Type} [LinearOrderedField α]

/-- The count-weighted mean of two regions pooled together: the sum of all
samples over their number.  The specification names it as what the combined
mean is not. -/
def pooled_mean (region_a region_b : List (Dbl α)) : Dbl α :=
  (region_a ++ region_b).foldl (· + ·) 0 / Dbl.ofNat (region_a ++ region_b).length

end engine
/-! ## The window of the constructor (`Scorer::Scorer`, score.cpp 49)

The constructor computes `rt_sigma * rt_width / std_dev_in_fwhm` in `double`
and stores the `ceil` of it in the integer member `half_window`.  Here the
two operations round their exact result to the binary64 format, and the
conversion to the integer type has no value outside its range. -/

section engine

variable {α : Type} [LinearOrderedField α] [FloorRing α]

/-- The integer nearest to `m`, the even one of the two when `m` lies half-way
between two integers. -/
def round_half_even (m : α) : Int :=
  let fl := ⌊m⌋
  let frac := m - fl
  if frac < 1 / 2 then fl
  else if 1 / 2 < frac then fl + 1
  else if fl % 2 = 0 then fl else fl + 1

/-- The binary64 value nearest to the number `x` (IEEE 754, round to nearest,
ties to even): 53 significant bits, exponents from `-1022` to `1023`, a fixed
spacing `2^-1074` below `2^-1022` (so that a number below `2^-1075` becomes
`0`), and an infinity from `2^1024` on. -/
def round_binary64 (x : α) : Dbl α :=
  if x = 0 then Dbl.fin 0
  else
    let e := max (Int.log 2 |x|) (-1022)
    let ulp : α := 2 ^ (e - 52)
    let r : α := (round_half_even (|x| / ulp) : α) * ulp
    if (2 : α) ^ (1024 : Int) ≤ r then (if 0 < x then Dbl.pinf else Dbl.ninf)
    else Dbl.fin (if 0 < x then r else -r)

/-- The result of a `double` operation whose exact result is `x`: a number is
rounded to binary64. -/
def Dbl.round64 : Dbl α → Dbl α
  | Dbl.fin x => round_binary64 x
  | x => x

/-- The function `ceil` of `<cmath>`. -/
def Dbl.ceil : Dbl α → Dbl α
  | Dbl.fin x => Dbl.fin ((⌈x⌉ : Int) : α)
  | x => x

/-- The conversion of a `double` to `int`: the value truncated towards zero
when that is an `int` (32 bits); there is no value otherwise, nor for an
infinity or for not-a-number (undefined behaviour).  The member
`half_window` is declared in `score.h`, which is not among the sources;
score.cpp 197, 205 and 268 use it in `int` arithmetic. -/
def Dbl.toInt : Dbl α → Option Int
  | Dbl.fin x =>
      let t : Int := if 0 ≤ x then ⌊x⌋ else ⌈x⌉
      if -2 ^ 31 ≤ t ∧ t < 2 ^ 31 then some t else none
  | _ => none

/-- The argument of `ceil` at score.cpp 49, `rt_sigma * rt_width /
std_dev_in_fwhm`: the product rounded, then the quotient rounded. -/
def half_window_quotient (L : Libm α) (rt_sigma rt_width : Dbl α) : Dbl α :=
  Dbl.round64 (Dbl.round64 (rt_sigma * rt_width) / Dbl.fin L.std_dev_in_fwhm)

/-- The assignment `half_window = ceil(rt_sigma * rt_width / std_dev_in_fwhm)`
of the constructor (score.cpp 49). -/
def half_window_of (L : Libm α) (rt_sigma rt_width : Dbl α) : Option Int :=
  Dbl.toInt (Dbl.ceil (half_window_quotient L rt_sigma rt_width))

end engine

/-- The binary64 value nearest to `2.355`, `0x1.2d70a3d70a3d7p+1`. -/
def double_2_355 : ℚ := 5302988561228759 / 2251799813685248

/-- The binary64 value nearest to `1.57`, `0x1.91eb851eb851fp+0`. -/
def double_1_57 : ℚ := 7070651414971679 / 4503599627370496

/-- The rational stand-in for `<cmath>` with the constant `std_dev_in_fwhm` of
`constants.h` as a `double`: the binary64 value nearest to `2.355`. -/
def libm_binary64 : Libm ℚ := { libm_q with std_dev_in_fwhm := double_2_355 }

section engine

variable {α : Type} [LinearOrderedField α]

/-- The retention-time kernel as the specification states it, for the
refinement claim about `rt_shape`: entry `i` is
`exp(-0.5 * ((i - half_window) / s)^2) / (s * sqrt(2 * pi))`, with the constant
`root2pi` for `sqrt(2 * pi)`. -/
def rt_shape_spec (L : Libm α) (s : Dbl α) (half_window : Int) (i : Nat) : Dbl α :=
  Dbl.exp L
      (-0.5 * ((Dbl.ofInt ((i : Int) - half_window) / s)
        * (Dbl.ofInt ((i : Int) - half_window) / s)))
    / (s * Dbl.fin L.root2pi)

end engine

section engine

variable {α : Type} [LinearOrderedField α]

/-- The m/z Gaussian weight as the specification states it, for the
refinement claim about the weights: `exp(-0.5 * ((m - centre) / sigma)^2) /
(sigma * sqrt(2 * pi))`, with the constant `root2pi` for `sqrt(2 * pi)`. -/
def mz_weight_spec (L : Libm α) (centre sigma m : Dbl α) : Dbl α :=
  Dbl.exp L (-0.5 * (((m - centre) / sigma) * ((m - centre) / sigma)))
    / (sigma * Dbl.fin L.root2pi)

end engine

/-- A store of two spectra, each with a peak at m/z `100` and a far peak at
m/z `1000`. -/
def store_two_rows : List (PeakSpectrum ℚ) :=
  [[⟨100.0, 1.0⟩, ⟨1000.0, 1.0⟩], [⟨100.0, 1.0⟩, ⟨1000.0, 1.0⟩]]

section engine

variable {α : Type} [LinearOrderedField α]

/-- The peaks of a region as the specification states them, for the refinement
claim about the matching loops: "the peaks whose m/z lies in the closed
interval" from `lower_bound` to `upper_bound`, in storage order. -/
def region_spec (rowi_spectrum : PeakSpectrum α) (lower_bound upper_bound : Dbl α) :
    List (Peak1D α) :=
  rowi_spectrum.filter (fun p => decide (lower_bound ≤ p.mz ∧ p.mz ≤ upper_bound))

end engine

/-- A store of one spectrum with one peak. -/
def store_one_peak : List (PeakSpectrum ℚ) := [[⟨100.0, 1.0⟩]]

/-- A store of one spectrum: a peak at m/z `100`, two peaks whose m/z is the
upper bound of the natural region of that peak, `100 * upper_tol`, and a far
peak. -/
def store_two_at_the_bound : List (PeakSpectrum ℚ) :=
  [[⟨100.0, 1.0⟩, ⟨Dbl.fin (100 + 3 / 314), 2.0⟩, ⟨Dbl.fin (100 + 3 / 314), 3.0⟩,
    ⟨1000.0, 1.0⟩]]

section engine

variable {α : Type} [LinearOrderedField α]

/-- The indices at which a matching loop appends a sample: the indices it
visits whose peak passes the test `mz < lower_bound || mz > upper_bound`
(score.cpp 313, 349) without `continue`. -/
def matched_indices (rowi_spectrum : PeakSpectrum α) (junk : Peak1D α)
    (lower_bound upper_bound : Dbl α) : List Nat :=
  (match_indices (MZBegin rowi_spectrum lower_bound) (MZBegin rowi_spectrum upper_bound)).filter
    (fun index => decide (¬ ((peak_at rowi_spectrum junk index).mz < lower_bound ∨
      (peak_at rowi_spectrum junk index).mz > upper_bound)))

end engine

section engine

variable {α : Type} [LinearOrderedField α]

/-- Steiger's statistic as the specification states it, for the refinement
claim about `zABA0` and `zAB0B`: with `rm2 = (rAB^2 + rA0^2) / 2`,
`f = (1 - rA0) / (2 * (1 - rm2))` and `h = (1 - f * rm2) / (1 - rm2)`, it is
`(atanh(rAB) - atanh(rA0)) * sqrt(n - 3) / (2 * (1 - rYY) * h)`. -/
def steiger_z (L : Libm α) (rAB rA0 rYY n : Dbl α) : Dbl α :=
  let rm2 := (rAB * rAB + rA0 * rA0) / 2
  let f := (1 - rA0) / (2 * (1 - rm2))
  let h := (1 - f * rm2) / (1 - rm2)
  (Dbl.atanh L rAB - Dbl.atanh L rA0) * Dbl.sqrt L (n - 3) / (2 * (1 - rYY) * h)

end engine

/-! ## Sample lists of numbers

For the claims about the statistics "over the reals": sample lists whose
entries are numbers, and the sums that the means of `vector.h` compute on
them. -/

section engine

variable {α : Type} [LinearOrderedField α]

/-- The sample lists whose entries are the numbers of four lists: the
intensities and the shapes of the natural region, `xa` and `ya`, and of the
isotope region, `xb` and `yb`. -/
def Samples.ofNumbers (xa xb ya yb : List α) : Samples α :=
  { data_nat := xa.map Dbl.fin, data_iso := xb.map Dbl.fin,
    shape_nat := ya.map Dbl.fin, shape_iso := yb.map Dbl.fin }

/-- The arithmetic mean of a list of numbers. -/
def rmean (l : List α) : α := l.sum / l.length

/-- A list of numbers centred on `c`. -/
def centred (l : List α) (c : α) : List α := l.map (fun x => x - c)

/-- The mean of the two regional means of the products of `ua` with `va` and
of `ub` with `vb`: the hierarchical covariance of centred samples. -/
def hier (ua va ub vb : List α) : α :=
  (rmean (List.zipWith (· * ·) ua va) + rmean (List.zipWith (· * ·) ub vb)) / 2

end engine

/-! ## The covariance between two models, as its declarations describe it

The comments on the declarations of `ECYbCYbEa_` and `ECYaCYaE_b`
(score.cpp 693 and 730) give the term of the region that a model sets to
zero as the mean of the centred shape samples of that region times the
expected value of the model, negated. -/

section engine

variable {α : Type} [LinearOrderedField α] (V : VectorLib α) (s : Samples α)

/-- The isotope-region term of the covariance between the shapes of AB and
A0 as declared: `-E(Ya_)*E(Yb - E(Yab))`. -/
def ECYbCYbEa_spec : Dbl α := -(V.mult_scalars (V.mean_vector (CYb V s)) (EYa_ V s))

/-- The covariance between the shapes of AB and A0 as declared: the mean of
`E((Ya - E(Yab))(Ya - E(Ya_)))` and `-E(Ya_)*E(Yb - E(Yab))`. -/
def cov_YabYa_spec : Dbl α := V.mean_scalars (ECYaCYaEa_ V s) (ECYbCYbEa_spec V s)

/-- The natural-region term of the covariance between the shapes of AB and
0B as declared: `-E(Y_b)*E(Ya - E(Yab))`. -/
def ECYaCYaE_b_spec : Dbl α := -(V.mult_scalars (V.mean_vector (CYa V s)) (EY_b V s))

/-- The covariance between the shapes of AB and 0B as declared: the mean of
`-E(Y_b)*E(Ya - E(Yab))` and `E((Yb - E(Yab))(Yb - E(Y_b)))`. -/
def cov_YabY_b_spec : Dbl α := V.mean_scalars (ECYaCYaE_b_spec V s) (ECYbCYbE_b V s)

end engine

/-! ## `hitime.cpp`: `centre_vector`, `apply_vect_func` and the body of `main`

Everything else in `main` is commented out (hitime.cpp 92-289): it builds
five copies of a vector `x`, applies `centre_vector` to each of them through
`apply_vect_func`, and prints the result. -/

section engine

variable {α : Type} [LinearOrderedField α]

/-- The call `std::accumulate(vect.begin(), vect.end(), 0.0)` of
`centre_vector` (hitime.cpp 352). -/
def accumulate (vect : List (Dbl α)) : Dbl α := vect.foldl (· + ·) 0.0

/-- The function `centre_vector` (hitime.cpp 350-361): `mean` is the sum
divided by the size, and the loop pushes `v - mean` for each element `v` in
turn. -/
def centre_vector (vect : List (Dbl α)) : List (Dbl α) :=
  let sum := accumulate vect
  let mean := sum / Dbl.ofNat vect.length
  vect.foldl (fun centered v => centered ++ [v - mean]) []

end engine

/-- The function template `apply_vect_func` (hitime.cpp 363-373): the loop
pushes `func(v)` for each element `v` in turn. -/
def apply_vect_func {T : Type} (vect : List T) (func : T → T) : List T :=
  vect.foldl (fun applied v => applied ++ [func v]) []

section engine

variable {α : Type} [LinearOrderedField α]

/-- The local `x` of `main` (hitime.cpp 290). -/
def main_x : List (Dbl α) := [1, 5, 2, 5, 2, 3, 2, 5]

/-- The local `xx` of `main` after the loop that pushes `x` five times
(hitime.cpp 293-295). -/
def main_xx_copies : List (List (Dbl α)) :=
  (List.range 5).foldl (fun xx _ => xx ++ [main_x]) []

/-- The local `xx` of `main` after `xx = apply_vect_func(xx, centre_vector)`
(hitime.cpp 297). -/
def main_xx : List (List (Dbl α)) := apply_vect_func main_xx_copies centre_vector

end engine

/-! ## Reads past the end as undefined behaviour

`peak_at` gives a read past the end of a row spectrum the value `junk`.  In
C++ that read has undefined behaviour, so a call of `score_spectra` has an
outcome only as long as the matching loops that run stay inside the row
spectra.  Whether they do depends on the store and on the centre peaks only,
not on the samples collected. -/

section engine

variable {α : Type} [LinearOrderedField α]

end engine

section engine

variable {α : Type} [LinearOrderedField α] (L : Libm α) (V : VectorLib α) (s : Samples α)

/-- The clamped correlation between the shapes of AB and A0, from the
covariance as declared. -/
def correl_YabYa_spec : Dbl α :=
  clamp_correl (cov_YabYa_spec V s / Dbl.sqrt L (var_Yab V s * var_Ya_ V s))

/-- The clamped correlation between the shapes of AB and 0B, from the
covariance as declared. -/
def correl_YabY_b_spec : Dbl α :=
  clamp_correl (cov_YabY_b_spec V s / Dbl.sqrt L (var_Yab V s * var_Y_b V s))

/-- Steiger's statistic of the specification for AB against A0, with the
correlation between the shapes of AB and A0 as `rYY`. -/
def zABA0_spec (nAB : Dbl α) : Dbl α :=
  steiger_z L (correl_XabYab L V s) (correl_XabYa_ L V s) (correl_YabYa_spec L V s) nAB

/-- Steiger's statistic of the specification for AB against 0B, with the
correlation between the shapes of AB and 0B as `rYY`. -/
def zAB0B_spec (nAB : Dbl α) : Dbl α :=
  steiger_z L (correl_XabYab L V s) (correl_XabY_b L V s) (correl_YabY_b_spec L V s) nAB

end engine

/-- Sample lists of a pass with two natural samples, (intensity, shape)
`(1, 1)` and `(2, 3)`, and two isotope samples, `(1, 4)` and `(4, 4)`. -/
def samples_two_rows {α : Type} [LinearOrderedField α] : Samples α :=
  Samples.ofNumbers [1, 2] [1, 4] [1, 3] [4, 4]

end HiTIME

namespace HiTIME

/-! ## Theorems: output sequencer -/

theorem first_indices_succ (n : Nat) :
    first_indices (n + 1) = first_indices n ++ [(n : Int)] := by
  simp [first_indices, List.range_succ]

theorem mem_first_indices {n : Nat} {k : Int} :
    k ∈ first_indices n ↔ 0 ≤ k ∧ k < n := by
  constructor
  · intro h
    obtain ⟨a, ha, rfl⟩ := List.mem_map.1 h
    have := List.mem_range.1 ha
    exact ⟨Int.ofNat_nonneg a, by exact_mod_cast this⟩
  · rintro ⟨h0, h1⟩
    refine List.mem_map.2 ⟨k.toNat, List.mem_range.2 ?_, ?_⟩
    · omega
    · simp [Int.toNat_of_nonneg h0]

theorem length_first_indices (n : Nat) : (first_indices n).length = n := by
  simp [first_indices]

theorem push_perm {S : Type} (q : List (IndexSpectrum S)) (e : IndexSpectrum S) :
    (IndexSpectrumQueue.push q e).Perm (e :: q) := by
  induction q with
  | nil => simp [IndexSpectrumQueue.push]
  | cons x q ih =>
    unfold IndexSpectrumQueue.push
    split
    · exact List.Perm.refl _
    · exact (List.Perm.cons x ih).trans (List.Perm.swap e x q)

theorem mem_keys_push {S : Type} (q : List (IndexSpectrum S)) (e : IndexSpectrum S) (k : Int) :
    k ∈ (IndexSpectrumQueue.push q e).map Prod.fst ↔ k = e.1 ∨ k ∈ q.map Prod.fst := by
  have h := (push_perm q e).map Prod.fst
  rw [h.mem_iff]
  simp

theorem push_sorted {S : Type} (q : List (IndexSpectrum S)) (e : IndexSpectrum S)
    (hs : (q.map Prod.fst).Pairwise (· < ·)) (hne : e.1 ∉ q.map Prod.fst) :
    ((IndexSpectrumQueue.push q e).map Prod.fst).Pairwise (· < ·) := by
  induction q with
  | nil => simp [IndexSpectrumQueue.push]
  | cons x q ih =>
    simp only [List.map_cons, List.pairwise_cons, List.mem_cons, not_or] at hs hne
    unfold IndexSpectrumQueue.push
    split
    · rename_i hle
      have hlt : e.1 < x.1 := lt_of_le_of_ne hle hne.1
      simp only [List.map_cons, List.pairwise_cons, List.mem_cons]
      refine ⟨?_, hs.1, hs.2⟩
      rintro k (rfl | hk)
      · exact hlt
      · exact lt_trans hlt (hs.1 k hk)
    · rename_i hle
      have hlt : x.1 < e.1 := lt_of_not_le hle
      simp only [List.map_cons, List.pairwise_cons]
      refine ⟨?_, ih hs.2 hne.2⟩
      intro k hk
      rcases (mem_keys_push q e k).1 hk with rfl | hk
      · exact hlt
      · exact hs.1 k hk

/-- The flush loop only moves entries from the head of the queue to the end of
the log. -/
theorem flush_queue_append {S : Type} (q : List (IndexSpectrum S)) :
    ∀ (n : Int) (w : List (IndexSpectrum S)),
      (flush_queue n q w).written ++ (flush_queue n q w).output_spectrum_queue = w ++ q := by
  induction q with
  | nil => intro n w; simp [flush_queue]
  | cons e rest ih =>
    intro n w
    unfold flush_queue
    split
    · rw [ih]; simp
    · rfl

/-- What one run of the flush loop hands to the writer: a run of entries whose
indices count up from the cursor, one for each step of the cursor. -/
theorem flush_queue_delivers {S : Type} (q : List (IndexSpectrum S)) :
    ∀ (n : Int) (w : List (IndexSpectrum S)),
      ∃ d : List (IndexSpectrum S),
        (flush_queue n q w).written = w ++ d ∧
        (flush_queue n q w).next_output_spectrum_id = n + d.length ∧
        d.map Prod.fst = (List.range d.length).map (fun (j : Nat) => n + (j : Int)) := by
  induction q with
  | nil => intro n w; exact ⟨[], by simp [flush_queue]⟩
  | cons e rest ih =>
    intro n w
    unfold flush_queue
    split
    · rename_i he
      obtain ⟨d, h1, h2, h3⟩ := ih (n + 1) (w ++ [e])
      refine ⟨e :: d, by simp [h1], ?_, ?_⟩
      · rw [h2]; simp; ring
      · rw [List.length_cons, List.range_succ_eq_map, List.map_cons, List.map_cons, h3, he,
          List.map_map]
        refine congrArg₂ List.cons (by simp) (List.map_congr_left ?_)
        intro j _
        simp only [Function.comp, Nat.cast_succ]
        ring
    · exact ⟨[], by simp⟩

theorem first_indices_add (n m : Nat) :
    first_indices (n + m)
      = first_indices n ++ (List.range m).map (fun (j : Nat) => (n : Int) + (j : Int)) := by
  simp [first_indices, List.range_add, List.map_map, Function.comp]

/-- One call of `put_spectrum`, from any state: the log grows by a run of
entries whose indices count up from the cursor, the cursor advances by the
length of that run, and log and queue together gain exactly the submitted
entry. -/
theorem put_spectrum_delivers {S : Type} (st : Sequencer S) (i : Int) (s : S) :
    ∃ d : List (IndexSpectrum S),
      (put_spectrum st i s).written = st.written ++ d ∧
      (put_spectrum st i s).next_output_spectrum_id
        = st.next_output_spectrum_id + d.length ∧
      d.map Prod.fst
        = (List.range d.length).map (fun (j : Nat) => st.next_output_spectrum_id + (j : Int)) := by
  unfold put_spectrum
  split
  · rename_i h
    obtain ⟨d, h1, h2, h3⟩ :=
      flush_queue_delivers st.output_spectrum_queue (st.next_output_spectrum_id + 1)
        (st.written ++ [(i, s)])
    refine ⟨(i, s) :: d, by simp [h1], ?_, ?_⟩
    · rw [h2]; simp; ring
    · rw [List.length_cons, List.range_succ_eq_map, List.map_cons, List.map_cons, h3,
        List.map_map]
      refine congrArg₂ List.cons (by simp [h]) (List.map_congr_left ?_)
      intro j _
      simp only [Function.comp, Nat.cast_succ]
      ring
  · exact ⟨[], by simp⟩

theorem put_spectrum_perm {S : Type} (st : Sequencer S) (i : Int) (s : S) :
    ((put_spectrum st i s).written ++ (put_spectrum st i s).output_spectrum_queue).Perm
      ((st.written ++ st.output_spectrum_queue) ++ [(i, s)]) := by
  unfold put_spectrum
  split
  · rw [flush_queue_append]
    simp only [List.append_assoc]
    refine List.Perm.append_left _ ?_
    have hc : ([(i, s)] ++ st.output_spectrum_queue).Perm (st.output_spectrum_queue ++ [(i, s)]) :=
      List.perm_append_comm
    simpa using hc
  · simp only [List.append_assoc]
    refine List.Perm.append_left _ ?_
    have hc : ([(i, s)] ++ st.output_spectrum_queue).Perm (st.output_spectrum_queue ++ [(i, s)]) :=
      List.perm_append_comm
    exact (push_perm _ _).trans (by simpa using hc)

theorem delivered_put_spectrum {S : Type} (st : Sequencer S) (i : Int) (s : S)
    (h : Delivered st) : Delivered (put_spectrum st i s) := by
  obtain ⟨n, hn, hw⟩ := h
  obtain ⟨d, h1, h2, h3⟩ := put_spectrum_delivers st i s
  refine ⟨n + d.length, by rw [h2, hn]; push_cast; ring, ?_⟩
  rw [h1, List.map_append, hw, h3, first_indices_add, hn]

theorem delivered_put_all {S : Type} (calls : List (IndexSpectrum S)) :
    ∀ st : Sequencer S, Delivered st → Delivered (put_all st calls) := by
  induction calls with
  | nil => intro st h; exact h
  | cons c calls ih =>
    intro st h
    exact ih _ (delivered_put_spectrum st c.1 c.2 h)

/-- Claim C2. For every sequence of `put_spectrum` calls whatsoever, started from
the constructor's state, the indices handed to the writer so far are exactly
`0, 1, ..., next_output_spectrum_id - 1` in that order; and one call, from any
state, hands over only entries whose index equals the cursor at the moment of
the hand-over (the `j`-th entry of the call has index `cursor + j`, and the
cursor advances by one per entry). -/
theorem put_spectrum_never_out_of_order {S : Type} :
    (∀ calls : List (IndexSpectrum S), ∃ n : Nat,
        (put_all (Sequencer.init S) calls).next_output_spectrum_id = n ∧
        (put_all (Sequencer.init S) calls).written.map Prod.fst = first_indices n) ∧
    (∀ (st : Sequencer S) (i : Int) (s : S), ∃ d : List (IndexSpectrum S),
        (put_spectrum st i s).written = st.written ++ d ∧
        (put_spectrum st i s).next_output_spectrum_id
          = st.next_output_spectrum_id + d.length ∧
        d.map Prod.fst
          = (List.range d.length).map
              (fun (j : Nat) => st.next_output_spectrum_id + (j : Int))) :=
  ⟨fun calls => delivered_put_all calls _ ⟨0, rfl, rfl⟩, put_spectrum_delivers⟩

theorem pending_flush_queue {S : Type} (q : List (IndexSpectrum S)) :
    ∀ (n : Int) (w : List (IndexSpectrum S)),
      (q.map Prod.fst).Pairwise (· < ·) → (∀ k ∈ q.map Prod.fst, n ≤ k) →
      Pending (flush_queue n q w) := by
  induction q with
  | nil => intro n w _ _; simp [flush_queue, Pending]
  | cons e rest ih =>
    intro n w hs hge
    simp only [List.map_cons, List.pairwise_cons, List.mem_cons] at hs hge
    unfold flush_queue
    split
    · rename_i he
      refine ih (n + 1) _ hs.2 ?_
      intro k hk
      have := hs.1 k hk
      omega
    · rename_i he
      have h1 : n < e.1 := lt_of_le_of_ne (hge e.1 (Or.inl rfl)) (Ne.symm he)
      refine ⟨by simpa using hs, ?_⟩
      intro k hk
      simp only [List.map_cons, List.mem_cons] at hk
      rcases hk with rfl | hk
      · exact h1
      · exact lt_trans h1 (hs.1 k hk)

/-- A call that submits an index at or beyond the cursor which is not already
pending keeps the queue well-formed: nothing deliverable stays behind. -/
theorem pending_put_spectrum {S : Type} (st : Sequencer S) (i : Int) (s : S)
    (h : Pending st) (hge : st.next_output_spectrum_id ≤ i)
    (hnew : i ∉ st.output_spectrum_queue.map Prod.fst) :
    Pending (put_spectrum st i s) := by
  unfold put_spectrum
  split
  · refine pending_flush_queue _ _ _ h.1 ?_
    intro k hk
    have := h.2 k hk
    omega
  · rename_i hne
    refine ⟨push_sorted _ _ h.1 hnew, ?_⟩
    intro k hk
    rcases (mem_keys_push _ _ k).1 hk with rfl | hk
    · exact lt_of_le_of_ne hge (Ne.symm hne)
    · exact h.2 k hk

theorem put_all_invariant {S : Type} (calls : List (IndexSpectrum S)) :
    ∀ (st : Sequencer S) (done : List (IndexSpectrum S)),
      Delivered st → Pending st →
      (st.written ++ st.output_spectrum_queue).Perm done →
      ((done ++ calls).map Prod.fst).Nodup →
      (∀ k ∈ calls.map Prod.fst, (0 : Int) ≤ k) →
      Delivered (put_all st calls) ∧ Pending (put_all st calls) ∧
      ((put_all st calls).written ++ (put_all st calls).output_spectrum_queue).Perm
        (done ++ calls) := by
  induction calls with
  | nil => intro st done hd hp hperm _ _; exact ⟨hd, hp, by simpa using hperm⟩
  | cons c calls ih =>
    intro st done hd hp hperm hnd hnn
    have hc : c.1 ∉ done.map Prod.fst := by
      intro hmem
      rw [List.map_append, List.map_cons] at hnd
      exact (List.nodup_append.1 hnd).2.2 hmem (List.mem_cons_self _ _)
    have hkeys : ∀ k, k ∈ (st.written ++ st.output_spectrum_queue).map Prod.fst ↔
        k ∈ done.map Prod.fst := fun k => (hperm.map Prod.fst).mem_iff
    have hnq : c.1 ∉ st.output_spectrum_queue.map Prod.fst := by
      intro hmem
      exact hc ((hkeys c.1).1 (by rw [List.map_append]; exact List.mem_append_right _ hmem))
    have hge : st.next_output_spectrum_id ≤ c.1 := by
      obtain ⟨n, hn, hw⟩ := hd
      by_contra hlt
      have hmem : c.1 ∈ st.written.map Prod.fst := by
        rw [hw]
        exact mem_first_indices.2 ⟨hnn c.1 (by simp), by omega⟩
      exact hc ((hkeys c.1).1 (by rw [List.map_append]; exact List.mem_append_left _ hmem))
    have hstep := ih (put_spectrum st c.1 c.2) (done ++ [c])
      (delivered_put_spectrum st c.1 c.2 hd) (pending_put_spectrum st c.1 c.2 hp hge hnq)
      ((put_spectrum_perm st c.1 c.2).trans (List.Perm.append_right _ hperm))
      (by simpa using hnd)
      (fun k hk => hnn k (by simp only [List.map_cons, List.mem_cons]; exact Or.inr hk))
    simpa [put_all] using hstep

/-- Claim C1. Completeness and order of the output sequencer: for every `N` and
every order `order` that is a permutation of `0 .. N-1`, calling
`put_spectrum` once per index in that order, from the constructor's state
(cursor `0`, empty queue), hands to the writer exactly the spectra of the
indices `0, 1, ..., N-1` in ascending order, each once, and leaves
`next_output_spectrum_id = N` and an empty queue. -/
theorem put_spectrum_complete_in_order {S : Type} (spectrum_of : Int → S) (N : Nat)
    (order : List Nat) (h : order.Perm (List.range N)) :
    put_all (Sequencer.init S) (calls_in_order spectrum_of order) =
      { next_output_spectrum_id := (N : Int),
        output_spectrum_queue := [],
        written := calls_in_order spectrum_of (List.range N) } := by
  have hkeys : (calls_in_order spectrum_of order).map Prod.fst
      = order.map (fun (i : Nat) => (i : Int)) := by
    simp [calls_in_order, List.map_map, Function.comp]
  have hnd : (([] ++ calls_in_order spectrum_of order).map Prod.fst).Nodup := by
    rw [List.nil_append, hkeys]
    exact (h.nodup_iff.2 (List.nodup_range N)).map (fun a b hab => by exact_mod_cast hab)
  have hnn : ∀ k ∈ (calls_in_order spectrum_of order).map Prod.fst, (0 : Int) ≤ k := by
    intro k hk
    rw [hkeys] at hk
    obtain ⟨a, _, rfl⟩ := List.mem_map.1 hk
    exact Int.ofNat_nonneg a
  obtain ⟨⟨n, hn, hw⟩, hp, hperm⟩ :=
    put_all_invariant (calls_in_order spectrum_of order) (Sequencer.init S) []
      ⟨0, rfl, rfl⟩ ⟨by simp [Sequencer.init], by simp [Sequencer.init]⟩
      (by simp [Sequencer.init]) hnd hnn
  generalize put_all (Sequencer.init S) (calls_in_order spectrum_of order) = st at *
  rw [List.nil_append] at hperm
  -- the keys of log and queue together are `0 .. N-1`
  have hall : ∀ k : Int, (k ∈ st.written.map Prod.fst ∨ k ∈ st.output_spectrum_queue.map Prod.fst)
      ↔ k ∈ first_indices N := by
    intro k
    have h1 := (hperm.map Prod.fst).mem_iff (a := k)
    rw [List.map_append, List.mem_append, hkeys] at h1
    rw [h1]
    exact (h.map (fun (i : Nat) => (i : Int))).mem_iff
  have hle : n ≤ N := by
    by_contra hlt
    have : (N : Int) ∈ first_indices N :=
      (hall N).1 (Or.inl (by rw [hw]; exact mem_first_indices.2 ⟨Int.ofNat_nonneg N, by omega⟩))
    have := (mem_first_indices.1 this).2
    omega
  have hge : N ≤ n := by
    by_contra hlt
    have hmem : (n : Int) ∈ first_indices N :=
      mem_first_indices.2 ⟨Int.ofNat_nonneg n, by omega⟩
    rcases (hall n).2 hmem with h1 | h1
    · rw [hw] at h1
      have := (mem_first_indices.1 h1).2
      omega
    · have := hp.2 _ h1
      omega
  have hnN : n = N := le_antisymm hle hge
  subst hnN
  have hlen : st.written.length + st.output_spectrum_queue.length = n := by
    have := hperm.length_eq
    rw [List.length_append] at this
    rw [this, calls_in_order, List.length_map, h.length_eq, List.length_range]
  have hwl : st.written.length = n := by
    have := congrArg List.length hw
    simpa [length_first_indices] using this
  have hq : st.output_spectrum_queue = [] := List.length_eq_zero.1 (by omega)
  have hval : ∀ e ∈ st.written, e = (e.1, spectrum_of e.1) := by
    intro e he
    have : e ∈ calls_in_order spectrum_of order :=
      hperm.mem_iff.1 (List.mem_append_left _ he)
    obtain ⟨a, _, rfl⟩ := List.mem_map.1 this
    rfl
  have hwr : st.written = calls_in_order spectrum_of (List.range n) := by
    have h1 : st.written = st.written.map (fun e => (e.1, spectrum_of e.1)) := by
      conv_lhs => rw [← List.map_id st.written]
      exact List.map_congr_left (fun e he => by simpa using hval e he)
    have h2 : st.written.map (fun e => (e.1, spectrum_of e.1))
        = (st.written.map Prod.fst).map (fun k => (k, spectrum_of k)) := by
      rw [List.map_map]; rfl
    rw [h1, h2, hw]
    simp [first_indices, calls_in_order, List.map_map, Function.comp]
  cases st
  simp_all

/-- Witness for C1: three spectra submitted in the order `2, 0, 1`. -/
theorem put_spectrum_complete_in_order_witness :
    [2, 0, 1].Perm (List.range 3) ∧
    put_all (Sequencer.init String)
        (calls_in_order (fun i => if i = 0 then "a" else if i = 1 then "b" else "c") [2, 0, 1]) =
      { next_output_spectrum_id := ((3 : Nat) : Int),
        output_spectrum_queue := [],
        written :=
          calls_in_order (fun i => if i = 0 then "a" else if i = 1 then "b" else "c")
            (List.range 3) } :=
  ⟨by decide, put_spectrum_complete_in_order _ 3 [2, 0, 1] (by decide)⟩

/-! ## Theorems: work distributor and worker loop -/

theorem in_flight_set (ws : List WorkerPc) :
    ∀ (t : Nat) (pc old : WorkerPc), ws[t]? = some old →
      (in_flight (ws.set t pc) ++ old.holding).Perm (in_flight ws ++ pc.holding) := by
  induction ws with
  | nil => intro t pc old h; simp at h
  | cons w ws ih =>
    intro t pc old h
    cases t with
    | zero =>
      simp only [List.getElem?_cons_zero, Option.some.injEq] at h
      subst h
      simp only [in_flight, List.set_cons_zero, List.map_cons, List.flatten_cons]
      rw [List.append_assoc, List.append_assoc]
      exact List.perm_append_comm.trans
        ((List.Perm.append_right _ List.perm_append_comm).trans
          (by rw [List.append_assoc]))
    | succ t =>
      simp only [List.getElem?_cons_succ] at h
      have := ih t pc old h
      simp only [in_flight, List.set_cons_succ, List.map_cons, List.flatten_cons,
        List.append_assoc] at this ⊢
      exact List.Perm.append_left _ this

theorem poolInv_step (N : Nat) (st : Pool) (t : Nat) (h : PoolInv N st) :
    PoolInv N (score_worker_step (N : Int) st t) := by
  obtain ⟨c, hc, hperm, hfin⟩ := h
  unfold score_worker_step
  split
  · exact ⟨c, hc, hperm, hfin⟩
  · exact ⟨c, hc, hperm, hfin⟩
  · rename_i hw
    have hset := in_flight_set st.workers t
      (fetch_next (N : Int) st.current_spectrum_id).1 WorkerPc.fetch hw
    simp only [WorkerPc.holding, List.append_nil] at hset
    by_cases hlt : c < N
    · have hpc : (fetch_next (N : Int) st.current_spectrum_id).1 = WorkerPc.body (c : Int) := by
        simp [fetch_next, get_next_spectrum_todo, hc, hlt]
      refine ⟨c + 1, by simp [fetch_next, get_next_spectrum_todo, hc], ?_, ?_⟩
      · rw [hpc] at hset
        simp only [WorkerPc.holding] at hset
        have h1 : min (c + 1) N = min c N + 1 := by omega
        have h2 : min c N = c := by omega
        rw [h1, first_indices_succ, h2]
        rw [h2] at hperm
        simp only [hpc]
        refine (List.Perm.append_left _ hset).trans ?_
        rw [← List.append_assoc]
        exact List.Perm.append_right _ hperm
      · intro hmem
        exfalso
        simp only at hmem
        rcases List.mem_or_eq_of_mem_set hmem with h1 | h1
        · have := hfin h1
          omega
        · rw [hpc] at h1
          cases h1
    · have hpc : (fetch_next (N : Int) st.current_spectrum_id).1 = WorkerPc.finished := by
        simp [fetch_next, get_next_spectrum_todo, hc, hlt]
      refine ⟨c + 1, by simp [fetch_next, get_next_spectrum_todo, hc], ?_, ?_⟩
      · rw [hpc] at hset
        simp only [WorkerPc.holding, List.append_nil] at hset
        have h1 : min (c + 1) N = min c N := by omega
        rw [h1]
        simp only [hpc]
        exact (List.Perm.append_left _ hset).trans hperm
      · intro _
        omega
  · rename_i i hw
    have hset := in_flight_set st.workers t WorkerPc.fetch (WorkerPc.body i) hw
    simp only [WorkerPc.holding, List.append_nil] at hset
    refine ⟨c, hc, ?_, ?_⟩
    · simp only [List.map_append, List.map_cons, List.map_nil, List.append_assoc]
      refine (List.Perm.append_left _ ?_).trans hperm
      exact List.perm_append_comm.trans hset
    · intro hmem
      simp only at hmem
      rcases List.mem_or_eq_of_mem_set hmem with h1 | h1
      · exact hfin h1
      · cases h1

theorem poolInv_run (N : Nat) (schedule : List Nat) :
    ∀ st : Pool, PoolInv N st → PoolInv N (run_pool (N : Int) st schedule) := by
  induction schedule with
  | nil => intro st h; exact h
  | cons t schedule ih => intro st h; exact ih _ (poolInv_step N st t h)

theorem in_flight_replicate_fetch (T : Nat) :
    in_flight (List.replicate T WorkerPc.fetch) = [] := by
  induction T with
  | zero => rfl
  | succ T ih =>
    rw [List.replicate_succ]
    simp only [in_flight, List.map_cons, List.flatten_cons, WorkerPc.holding, List.nil_append]
    exact ih

theorem poolInv_init (N T : Nat) : PoolInv N (Pool.init T) := by
  refine ⟨0, rfl, ?_, ?_⟩
  · simp [Pool.init, in_flight_replicate_fetch, first_indices]
  · intro h
    simp only [Pool.init] at h
    have := List.eq_of_mem_replicate h
    cases this

theorem in_flight_all_finished (ws : List WorkerPc)
    (h : ∀ pc ∈ ws, pc = WorkerPc.finished) : in_flight ws = [] := by
  induction ws with
  | nil => rfl
  | cons w ws ih =>
    have hw := h w (List.mem_cons_self _ _)
    subst hw
    simpa [in_flight, WorkerPc.holding] using ih (fun pc hpc => h pc (List.mem_cons_of_mem _ hpc))

theorem length_workers_step (n : Int) (st : Pool) (t : Nat) :
    (score_worker_step n st t).workers.length = st.workers.length := by
  unfold score_worker_step
  split <;> simp

theorem length_workers_run (n : Int) (schedule : List Nat) :
    ∀ st : Pool, (run_pool n st schedule).workers.length = st.workers.length := by
  induction schedule with
  | nil => intro st; rfl
  | cons t schedule ih =>
    intro st
    exact (ih _).trans (length_workers_step n st t)

theorem weight_sum_set (ws : List WorkerPc) :
    ∀ (t : Nat) (pc old : WorkerPc), ws[t]? = some old →
      ((ws.set t pc).map WorkerPc.weight).sum + old.weight
        = (ws.map WorkerPc.weight).sum + pc.weight := by
  induction ws with
  | nil => intro t pc old h; simp at h
  | cons w ws ih =>
    intro t pc old h
    cases t with
    | zero =>
      simp only [List.getElem?_cons_zero, Option.some.injEq] at h
      subst h
      simp only [List.set_cons_zero, List.map_cons, List.sum_cons]
      omega
    | succ t =>
      simp only [List.getElem?_cons_succ] at h
      have := ih t pc old h
      simp only [List.set_cons_succ, List.map_cons, List.sum_cons]
      omega

/-- A step of a thread that has not left its loop lowers the measure. -/
theorem pool_measure_step (n : Int) (st : Pool) (t : Nat) (pc : WorkerPc)
    (h : st.workers[t]? = some pc) (hpc : pc ≠ WorkerPc.finished) :
    pool_measure n (score_worker_step n st t) < pool_measure n st := by
  unfold score_worker_step
  split
  · rename_i h1; rw [h] at h1; cases h1
  · rename_i h1; rw [h] at h1; cases h1; exact absurd rfl hpc
  · rename_i h1
    have hs := weight_sum_set st.workers t (fetch_next n st.current_spectrum_id).1
      WorkerPc.fetch h1
    have hf : WorkerPc.fetch.weight = 2 := rfl
    rw [hf] at hs
    simp only [pool_measure]
    by_cases hlt : st.current_spectrum_id < n
    · have hw : (fetch_next n st.current_spectrum_id).1.weight = 3 := by
        simp [fetch_next, get_next_spectrum_todo, hlt, WorkerPc.weight]
      have h2 : (fetch_next n st.current_spectrum_id).2 = st.current_spectrum_id + 1 := rfl
      rw [hw] at hs
      rw [h2]
      omega
    · have hw : (fetch_next n st.current_spectrum_id).1.weight = 0 := by
        simp [fetch_next, get_next_spectrum_todo, hlt, WorkerPc.weight]
      have h2 : (fetch_next n st.current_spectrum_id).2 = st.current_spectrum_id + 1 := rfl
      rw [hw] at hs
      rw [h2]
      omega
  · rename_i i h1
    have hs := weight_sum_set st.workers t WorkerPc.fetch (WorkerPc.body i) h1
    have hf : WorkerPc.fetch.weight = 2 := rfl
    have hb : (WorkerPc.body i).weight = 3 := rfl
    rw [hf, hb] at hs
    simp only [pool_measure]
    omega

/-- From every state of the pool some interleaving lets every thread leave its
loop. -/
theorem pool_terminates (n : Int) :
    ∀ (m : Nat) (st : Pool), pool_measure n st ≤ m →
      ∃ schedule : List Nat, (run_pool n st schedule).all_finished := by
  intro m
  induction m with
  | zero =>
    intro st hm
    by_cases hall : st.all_finished
    · exact ⟨[], hall⟩
    · exfalso
      simp only [Pool.all_finished, not_forall] at hall
      obtain ⟨pc, hmem, hne⟩ := hall
      obtain ⟨t, ht⟩ := List.getElem?_of_mem hmem
      have := pool_measure_step n st t pc ht hne
      omega
  | succ m ih =>
    intro st hm
    by_cases hall : st.all_finished
    · exact ⟨[], hall⟩
    · simp only [Pool.all_finished, not_forall] at hall
      obtain ⟨pc, hmem, hne⟩ := hall
      obtain ⟨t, ht⟩ := List.getElem?_of_mem hmem
      have hlt := pool_measure_step n st t pc ht hne
      obtain ⟨schedule, hs⟩ := ih (score_worker_step n st t) (by omega)
      exact ⟨t :: schedule, hs⟩

/-- Claim C3. Every index is processed exactly once.  For `num_spectra = N`, any
number `T ≥ 1` of worker threads and any interleaving of their steps (the
atomic `get_next_spectrum_todo` calls and the loop bodies), counter starting
at `0`: once all `score_worker` loops have terminated, the indices for which
a loop body ran (`score_spectra` and `put_spectrum`) are a rearrangement of
`0, ..., N-1` without repetition, so each index was processed by one thread,
once.  Some interleaving does let all loops terminate. -/
theorem every_index_processed_once (N T : Nat) (hT : 1 ≤ T) :
    (∀ schedule : List Nat,
      (run_pool (N : Int) (Pool.init T) schedule).all_finished →
        ((run_pool (N : Int) (Pool.init T) schedule).processed.map Prod.snd).Perm
            (first_indices N) ∧
        ((run_pool (N : Int) (Pool.init T) schedule).processed.map Prod.snd).Nodup) ∧
    (∃ schedule : List Nat, (run_pool (N : Int) (Pool.init T) schedule).all_finished) := by
  refine ⟨?_, pool_terminates (N : Int) _ (Pool.init T) le_rfl⟩
  intro schedule hfin
  obtain ⟨c, _, hperm, hc⟩ := poolInv_run N schedule (Pool.init T) (poolInv_init N T)
  have hlen : (run_pool (N : Int) (Pool.init T) schedule).workers.length = T := by
    rw [length_workers_run]; simp [Pool.init]
  have hmem : WorkerPc.finished ∈ (run_pool (N : Int) (Pool.init T) schedule).workers := by
    cases hws : (run_pool (N : Int) (Pool.init T) schedule).workers with
    | nil => rw [hws] at hlen; simp at hlen; omega
    | cons w ws =>
      have := hfin w (by rw [hws]; exact List.mem_cons_self _ _)
      rw [this]
      exact List.mem_cons_self _ _
  have hN : min c N = N := by have := hc hmem; omega
  rw [in_flight_all_finished _ hfin, List.append_nil, hN] at hperm
  refine ⟨hperm, hperm.nodup_iff.2 ?_⟩
  exact (List.nodup_range N).map (fun a b hab => by exact_mod_cast hab)

/-- Witness for C3: three spectra, two threads, thread 1 overtaking thread 0. -/
theorem every_index_processed_once_witness :
    (1 ≤ 2) ∧
    (run_pool ((3 : Nat) : Int) (Pool.init 2) [0, 1, 1, 1, 1, 0, 1, 0]).all_finished ∧
    ((run_pool ((3 : Nat) : Int) (Pool.init 2) [0, 1, 1, 1, 1, 0, 1, 0]).processed.map
        Prod.snd).Perm (first_indices 3) :=
  ⟨by decide, by decide,
    ((every_index_processed_once 3 2 (by decide)).1 [0, 1, 1, 1, 1, 0, 1, 0] (by decide)).1⟩

theorem get_next_calls_eq (k : Nat) :
    ∀ c : Int, get_next_calls k c
      = ((List.range k).map (fun (j : Nat) => c + (j : Int)), c + (k : Int)) := by
  induction k with
  | zero => intro c; simp [get_next_calls]
  | succ k ih =>
    intro c
    simp only [get_next_calls, get_next_spectrum_todo, ih, List.range_succ_eq_map,
      List.map_cons, List.map_map, Nat.cast_zero, add_zero, Nat.cast_succ]
    refine Prod.ext (congrArg₂ List.cons rfl (List.map_congr_left ?_)) ?_
    · intro j _
      simp only [Function.comp, Nat.cast_succ]
      ring
    · simp only
      ring

theorem first_indices_pairwise (k : Nat) : (first_indices k).Pairwise (· < ·) := by
  have h : (List.range k).Pairwise (· < ·) := List.pairwise_lt_range k
  exact List.Pairwise.map _ (fun a b hab => by exact_mod_cast hab) h

/-- Claim C4. Work distributor.  `get_next_spectrum_todo` returns the value
`current_spectrum_id` had before the call and leaves the counter one higher.
Hence, starting from `0`, the first `k` calls return `0, 1, ..., k-1` in
that order (the `k`-th call returns `k-1`) and leave the counter at `k`; the
returned values are strictly increasing and pairwise different.  The caller
`score_worker` enters its loop body with the returned value exactly when that
value is `< num_spectra`, and leaves the loop otherwise. -/
theorem get_next_spectrum_todo_hands_out_each_index_once :
    (∀ c : Int, get_next_spectrum_todo c = (c, c + 1)) ∧
    (∀ k : Nat, get_next_calls k 0 = (first_indices k, (k : Int))) ∧
    (∀ k : Nat, (get_next_calls (k + 1) 0).1[k]? = some (k : Int)) ∧
    (∀ k : Nat, (get_next_calls k 0).1.Pairwise (· < ·)) ∧
    (∀ k : Nat, (get_next_calls k 0).1.Nodup) ∧
    (∀ num_spectra c : Int,
      fetch_next num_spectra c
        = (if c < num_spectra then WorkerPc.body c else WorkerPc.finished, c + 1)) := by
  have hk : ∀ k : Nat, get_next_calls k 0 = (first_indices k, (k : Int)) := by
    intro k
    rw [get_next_calls_eq]
    simp [first_indices]
  refine ⟨fun c => rfl, hk, ?_, ?_, ?_, fun n c => rfl⟩
  · intro k
    rw [hk, first_indices_succ]
    simp [length_first_indices]
  · intro k
    rw [hk]
    exact first_indices_pairwise k
  · intro k
    rw [hk]
    exact (first_indices_pairwise k).imp (fun h => ne_of_lt h)

/-! ## Theorems: arithmetic on `double` -/

namespace Dbl

variable {α : Type} [LinearOrderedField α]

@[simp] theorem fin_add (x y : α) : (fin x + fin y : Dbl α) = fin (x + y) := rfl
@[simp] theorem fin_neg (x : α) : (-(fin x) : Dbl α) = fin (-x) := rfl
@[simp] theorem fin_sub (x y : α) : (fin x - fin y : Dbl α) = fin (x - y) := by
  show add (fin x) (neg (fin y)) = fin (x - y)
  simp [add, neg, sub_eq_add_neg]
@[simp] theorem fin_mul (x y : α) : (fin x * fin y : Dbl α) = fin (x * y) := rfl
theorem fin_div (x y : α) (hy : y ≠ 0) : (fin x / fin y : Dbl α) = fin (x / y) := by
  show div (fin x) (fin y) = fin (x / y)
  simp [div, hy]
theorem fin_div_eq (x y : α) :
    (fin x / fin y : Dbl α)
      = if y = 0 then (if x = 0 then nan else if 0 < x then pinf else ninf) else fin (x / y) :=
  rfl
@[simp] theorem pinf_sub_fin (x : α) : (pinf - fin x : Dbl α) = pinf := rfl
@[simp] theorem pinf_sub_pinf : (pinf - pinf : Dbl α) = nan := rfl
theorem pinf_mul_fin (x : α) :
    (pinf * fin x : Dbl α) = if x = 0 then nan else if 0 < x then pinf else ninf := by
  show inf_of_sign true x = _
  unfold inf_of_sign
  simp
theorem pinf_div_fin (x : α) : (pinf / fin x : Dbl α) = if x < 0 then ninf else pinf := rfl
@[simp] theorem fin_lt (x y : α) : (fin x < fin y) ↔ x < y := by
  show lt (fin x) (fin y) = true ↔ x < y
  simp [lt]
@[simp] theorem fin_le (x y : α) : (fin x ≤ fin y) ↔ x ≤ y := by
  show le (fin x) (fin y) = true ↔ x ≤ y
  simp [le]

@[simp] theorem lit_ofNat (n : Nat) [n.AtLeastTwo] :
    (OfNat.ofNat n : Dbl α) = fin (OfNat.ofNat n) := by
  show fin ((n : Nat) : α) = fin (OfNat.ofNat n)
  rfl
@[simp] theorem lit_zero : (0 : Dbl α) = fin 0 := by
  show fin ((0 : Nat) : α) = fin 0
  simp
@[simp] theorem lit_one : (1 : Dbl α) = fin 1 := by
  show fin ((1 : Nat) : α) = fin 1
  simp
theorem lit_scientific (m : Nat) (s : Bool) (e : Nat) :
    (OfScientific.ofScientific m s e : Dbl α) = fin (OfScientific.ofScientific m s e) := rfl
@[simp] theorem lit_0_0 : (0.0 : Dbl α) = fin 0 := by
  rw [lit_scientific]; norm_num
@[simp] theorem lit_1_0 : (1.0 : Dbl α) = fin 1 := by
  rw [lit_scientific]; norm_num
@[simp] theorem lit_2_0 : (2.0 : Dbl α) = fin 2 := by
  rw [lit_scientific]; norm_num
@[simp] theorem lit_3_0 : (3.0 : Dbl α) = fin 3 := by
  rw [lit_scientific]; norm_num
@[simp] theorem lit_0_5 : (0.5 : Dbl α) = fin (1 / 2) := by
  rw [lit_scientific]; norm_num
@[simp] theorem lit_1e6 : (1e6 : Dbl α) = fin 1000000 := by
  rw [lit_scientific]; norm_num
theorem lt_def (x y : Dbl α) : (x < y) = (lt x y = true) := rfl
theorem le_def (x y : Dbl α) : (x ≤ y) = (le x y = true) := rfl
theorem gt_def (x y : Dbl α) : (x > y) = (lt y x = true) := rfl
@[simp] theorem ofNat_eq (n : Nat) : (Dbl.ofNat n : Dbl α) = fin (n : α) := rfl
@[simp] theorem ofInt_eq (n : Int) : (Dbl.ofInt n : Dbl α) = fin (n : α) := rfl

@[simp] theorem nan_add (x : Dbl α) : nan + x = nan := by cases x <;> rfl
@[simp] theorem add_nan (x : Dbl α) : x + nan = nan := by cases x <;> rfl
@[simp] theorem neg_nan : (-(nan) : Dbl α) = nan := rfl
@[simp] theorem nan_sub (x : Dbl α) : nan - x = nan := by
  show add nan (neg x) = nan
  cases x <;> rfl
@[simp] theorem sub_nan (x : Dbl α) : x - nan = nan := by
  show add x (neg nan) = nan
  cases x <;> rfl
@[simp] theorem nan_mul (x : Dbl α) : nan * x = nan := by cases x <;> rfl
@[simp] theorem mul_nan (x : Dbl α) : x * nan = nan := by cases x <;> rfl
@[simp] theorem nan_div (x : Dbl α) : nan / x = nan := by cases x <;> rfl
@[simp] theorem div_nan (x : Dbl α) : x / nan = nan := by cases x <;> rfl
@[simp] theorem not_nan_lt (x : Dbl α) : ¬ (nan < x) := by
  show ¬ (lt nan x = true)
  cases x <;> simp [lt]
@[simp] theorem not_lt_nan (x : Dbl α) : ¬ (x < nan) := by
  show ¬ (lt x nan = true)
  cases x <;> simp [lt]
@[simp] theorem not_nan_le (x : Dbl α) : ¬ (nan ≤ x) := by
  show ¬ (le nan x = true)
  cases x <;> simp [le]
@[simp] theorem not_le_nan (x : Dbl α) : ¬ (x ≤ nan) := by
  show ¬ (le x nan = true)
  cases x <;> simp [le]

end Dbl

section final_step

variable {α : Type} [LinearOrderedField α]

theorem std_min_pair (a b : Dbl α) : std_min [a, b] = if b < a then b else a := rfl

theorem std_max_pair (a b : Dbl α) : std_max [a, b] = if a < b then b else a := rfl

end final_step

section final_step

variable {α : Type} [LinearOrderedField α]

/-- The last statement of a pass, `std::max({0.0, std::min({z1, z2})})`, for
arbitrary values of the two z-statistics: the result is at least `0` (so it
is a number), it is not greater than any of the three magnitudes, and it is
at most each of them unless a z-statistic is not a number. -/
theorem floor_of_score (z1 z2 : Dbl α) :
    (0 : Dbl α) ≤ std_max [0.0, std_min [z1, z2]] ∧
    ¬ (std_max [0.0, std_min [z1, z2]] > Dbl.fabs (std_min [z1, z2])) ∧
    ¬ (std_max [0.0, std_min [z1, z2]] > Dbl.fabs z1) ∧
    ¬ (std_max [0.0, std_min [z1, z2]] > Dbl.fabs z2) ∧
    (z1 = Dbl.nan ∨ z2 = Dbl.nan ∨
      (std_max [0.0, std_min [z1, z2]] ≤ Dbl.fabs (std_min [z1, z2]) ∧
       std_max [0.0, std_min [z1, z2]] ≤ Dbl.fabs z1 ∧
       std_max [0.0, std_min [z1, z2]] ≤ Dbl.fabs z2)) := by
  rw [std_max_pair, std_min_pair]
  rcases z1 with _ | _ | _ | x <;> rcases z2 with _ | _ | _ | y <;>
    simp only [Dbl.lt_def, Dbl.le_def, Dbl.gt_def, Dbl.lt, Dbl.le, Dbl.fabs, Dbl.lit_0_0,
      Dbl.lit_zero, if_true, if_false, decide_eq_true_eq, Bool.false_eq_true] <;>
    (try split_ifs) <;>
    simp_all [Dbl.lt, Dbl.le, Dbl.fabs, abs_nonneg, le_abs_self] <;>
    first
      | linarith
      | (constructor <;> linarith [le_abs_self x, le_abs_self y])

/-- The last statement of a pass as a maximum of a minimum: unless a
z-statistic is not a number, `std::min` picks a least one of the two and
`std::max` a greatest one of `0` and that minimum.  A positive result needs
a positive first z-statistic, and a second one that is positive or not a
number. -/
theorem max_min_of_score (z1 z2 : Dbl α) :
    (z1 = Dbl.nan ∨ z2 = Dbl.nan ∨
      (std_min [z1, z2] ≤ z1 ∧ std_min [z1, z2] ≤ z2 ∧
        (std_min [z1, z2] = z1 ∨ std_min [z1, z2] = z2) ∧
       (0 : Dbl α) ≤ std_max [0.0, std_min [z1, z2]] ∧
       std_min [z1, z2] ≤ std_max [0.0, std_min [z1, z2]] ∧
        (std_max [0.0, std_min [z1, z2]] = 0 ∨
          std_max [0.0, std_min [z1, z2]] = std_min [z1, z2]))) ∧
    ((0 : Dbl α) < std_max [0.0, std_min [z1, z2]] →
      (0 : Dbl α) < z1 ∧ ((0 : Dbl α) < z2 ∨ z2 = Dbl.nan)) := by
  rw [std_max_pair, std_min_pair]
  rcases z1 with _ | _ | _ | x <;> rcases z2 with _ | _ | _ | y <;>
    simp only [Dbl.lt_def, Dbl.le_def, Dbl.gt_def, Dbl.lt, Dbl.le, Dbl.fabs, Dbl.lit_0_0,
      Dbl.lit_zero, if_true, if_false, decide_eq_true_eq, Bool.false_eq_true] <;>
    (try split_ifs) <;>
    simp_all [Dbl.lt, Dbl.le] <;>
    first
      | linarith
      | (constructor <;> linarith)
      | (refine ⟨?_, ?_⟩ <;> first | linarith | (constructor <;> linarith))

end final_step

/-! ## Theorems: `score_spectra` -/

section engine

variable {α : Type} [LinearOrderedField α]

theorem sqrt_nAB_zero (L : Libm α) : sqrt_nAB L (0 : Dbl α) = Dbl.nan := by
  simp [sqrt_nAB, Dbl.sqrt]

theorem zABA0_of_nAB_zero (L : Libm α) (V : VectorLib α) (s : Samples α) :
    zABA0 L V s 0 = Dbl.nan := by
  unfold zABA0
  rw [sqrt_nAB_zero]
  simp

theorem zAB0B_of_nAB_zero (L : Libm α) (V : VectorLib α) (s : Samples α) :
    zAB0B L V s 0 = Dbl.nan := by
  unfold zAB0B
  rw [sqrt_nAB_zero]
  simp

/-- When the test on the sample counts has set `nAB = 0`, both z-statistics
are not numbers (`sqrt(0 - 3)`), and `std::max` leaves `min_score` at `0.0`:
for every `<cmath>` and every `vector.h`. -/
theorem min_score_of_nAB_zero (L : Libm α) (V : VectorLib α) (s : Samples α) :
    min_score L V s 0 = 0 := by
  unfold min_score
  rw [zABA0_of_nAB_zero, zAB0B_of_nAB_zero, std_max_pair, std_min_pair]
  simp

/-- The test on the sample counts: with a list shorter than `min_sample` it
sets `nAB = 0`. -/
theorem apply_min_sample_of_short (min_sample_opt : Dbl α) (s : Samples α)
    (h : Dbl.ofNat s.data_nat.length < min_sample_opt ∨
      Dbl.ofNat s.data_iso.length < min_sample_opt) :
    (apply_min_sample min_sample_opt s).2 = 0 := by
  unfold apply_min_sample
  rw [if_pos h]

theorem length_score_points (L : Libm α) (sc : Scorer α) (junk : Peak1D α) (centre_idx : Int)
    (peaks : List (Peak1D α)) :
    ∀ (acc : Samples α) (points : List (PointRun α)),
      score_points L sc junk centre_idx acc peaks = Except.ok points →
      points.length = peaks.length := by
  induction peaks with
  | nil =>
    intro acc points h
    simp only [score_points, Except.ok.injEq] at h
    subst h
    rfl
  | cons it rest ih =>
    intro acc points h
    unfold score_points at h
    split at h
    · cases h
    · rename_i p _
      split at h
      · cases h
      · rename_i ps hps
        simp only [Except.ok.injEq] at h
        subst h
        simp [ih _ _ hps]

/-- Claim C5. Whenever `score_spectra` completes, it has run one pass per peak of
the centre spectrum, each computing its local `min_score`, but it has handed
back no vector: the function has no `return` statement, so there is no
`score[index]` for `score_worker` to read. -/
theorem score_spectra_returns_no_vector (L : Libm α) (sc : Scorer α) (junk : Peak1D α)
    (centre_idx : Int) (run : ScoreRun α)
    (h : score_spectra L sc junk centre_idx = Except.ok run) :
    run.returned = none ∧
    ∃ centre_row_points, getSpectrum sc.input_map centre_idx = Except.ok centre_row_points ∧
      run.points.length = centre_row_points.length := by
  unfold score_spectra at h
  split at h
  · cases h
  · rename_i crp hcrp
    split at h
    · cases h
    · rename_i points hpoints
      simp only [Except.ok.injEq] at h
      subst h
      exact ⟨rfl, crp, hcrp, length_score_points L sc junk centre_idx crp _ _ hpoints⟩

end engine

theorem getSpectrum_of_some {α : Type} (input_map : List (PeakSpectrum α)) (rowi : Int)
    (spectrum : PeakSpectrum α) (h0 : 0 ≤ rowi) (h : input_map[rowi.toNat]? = some spectrum) :
    getSpectrum input_map rowi = Except.ok spectrum := by
  unfold getSpectrum
  rw [if_pos h0, h]

theorem getSpectrum_in_range {α : Type} (input_map : List (PeakSpectrum α)) (rowi : Int)
    (h : 0 ≤ rowi ∧ rowi < (input_map.length : Int)) :
    ∃ spectrum, input_map[rowi.toNat]? = some spectrum ∧
      getSpectrum input_map rowi = Except.ok spectrum := by
  have hlt : rowi.toNat < input_map.length := by omega
  exact ⟨input_map[rowi.toNat], List.getElem?_eq_getElem hlt,
    getSpectrum_of_some _ _ _ h.1 (List.getElem?_eq_getElem hlt)⟩

section engine

variable {α : Type} [LinearOrderedField α]

/-- A row that fails `isSorted` makes the body of the row loop throw. -/
theorem scan_row_of_unsorted (L : Libm α) (sc : Scorer α) (junk : Peak1D α) (centre_idx : Int)
    (centre0 : Dbl α) (st : RowState α) (rowi : Int) (h : row_unsorted sc rowi) :
    scan_row L sc junk centre_idx centre0 st rowi
      = Except.error (Fault.runtime_error "Spectrum not sorted") := by
  obtain ⟨h0, spectrum, hsp, hns⟩ := h
  have hlt : rowi.toNat < sc.input_map.length := by
    by_contra hge
    rw [List.getElem?_eq_none (by omega)] at hsp
    cases hsp
  have hin : 0 ≤ rowi ∧ rowi < (sc.input_map.length : Int) := ⟨h0, by omega⟩
  unfold scan_row
  simp only [if_pos hin, getSpectrum_of_some _ _ _ h0 hsp, hns, Bool.not_false, if_true]

/-- Any other row lets the body of the row loop run to its end. -/
theorem scan_row_of_not_unsorted (L : Libm α) (sc : Scorer α) (junk : Peak1D α)
    (centre_idx : Int) (centre0 : Dbl α) (st : RowState α) (rowi : Int)
    (h : ¬ row_unsorted sc rowi) :
    ∃ st1, scan_row L sc junk centre_idx centre0 st rowi = Except.ok st1 := by
  unfold scan_row
  by_cases hin : 0 ≤ rowi ∧ rowi < (sc.input_map.length : Int)
  · obtain ⟨spectrum, hsp, hget⟩ := getSpectrum_in_range sc.input_map rowi hin
    have hs : isSorted spectrum = true := by
      by_contra hns
      exact h ⟨hin.1, spectrum, hsp, by simpa using hns⟩
    simp only [if_pos hin, hget, hs, Bool.not_true, Bool.false_eq_true, if_false]
    exact ⟨_, rfl⟩
  · simp only [if_neg hin]
    exact ⟨_, rfl⟩

theorem scan_rows_of_sorted (L : Libm α) (sc : Scorer α) (junk : Peak1D α) (centre_idx : Int)
    (centre0 : Dbl α) (rows : List Int) :
    ∀ st : RowState α, (∀ rowi ∈ rows, ¬ row_unsorted sc rowi) →
      ∃ st1, scan_rows L sc junk centre_idx centre0 st rows = Except.ok st1 := by
  induction rows with
  | nil => intro st _; exact ⟨st, rfl⟩
  | cons r0 rows ih =>
    intro st h
    unfold scan_rows
    obtain ⟨st1, hst1⟩ := scan_row_of_not_unsorted L sc junk centre_idx centre0 st r0
      (h r0 (List.mem_cons_self _ _))
    rw [hst1]
    exact ih st1 (fun r hr => h r (List.mem_cons_of_mem _ hr))

theorem score_points_of_sorted (L : Libm α) (sc : Scorer α) (junk : Peak1D α) (centre_idx : Int)
    (h : ∀ rowi ∈ window_rows sc centre_idx, ¬ row_unsorted sc rowi)
    (peaks : List (Peak1D α)) :
    ∀ acc : Samples α, ∃ points, score_points L sc junk centre_idx acc peaks = Except.ok points := by
  induction peaks with
  | nil => intro acc; exact ⟨[], rfl⟩
  | cons it rest ih =>
    intro acc
    obtain ⟨st1, hst1⟩ := scan_rows_of_sorted L sc junk centre_idx it.mz
      (window_rows sc centre_idx)
      { centre := it.mz, sigma := it.mz * mz_ppm_sigma L sc, samples := acc } h
    unfold score_points score_point
    simp only [hst1]
    obtain ⟨ps, hps⟩ := ih (apply_min_sample sc.min_sample st1.samples).1
    rw [hps]
    exact ⟨_, rfl⟩

end engine

/-! ## Theorems: reads past the end of a row spectrum -/

section engine

variable {α : Type} [LinearOrderedField α]

theorem collect_peaks_of_in_bounds (L : Libm α) (rowi_spectrum : PeakSpectrum α)
    (junk junk1 : Peak1D α) (lower_bound upper_bound centre sigma rt_shape_row : Dbl α)
    (indices : List Nat) :
    ∀ lists : List (Dbl α) × List (Dbl α),
      (∀ index ∈ indices, index < rowi_spectrum.length) →
      indices.foldl
          (collect_peak L rowi_spectrum junk lower_bound upper_bound centre sigma rt_shape_row)
          lists
        = indices.foldl
          (collect_peak L rowi_spectrum junk1 lower_bound upper_bound centre sigma rt_shape_row)
          lists := by
  induction indices with
  | nil => intro lists _; rfl
  | cons i indices ih =>
    intro lists h
    have hi : i < rowi_spectrum.length := h i (List.mem_cons_self _ _)
    have hp : peak_at rowi_spectrum junk i = peak_at rowi_spectrum junk1 i := by
      simp [peak_at, List.getD, List.getElem?_eq_getElem hi]
    have hstep :
        collect_peak L rowi_spectrum junk lower_bound upper_bound centre sigma rt_shape_row lists i
          = collect_peak L rowi_spectrum junk1 lower_bound upper_bound centre sigma rt_shape_row
              lists i := by
      simp only [collect_peak, hp]
    rw [List.foldl_cons, List.foldl_cons, hstep]
    exact ih _ (fun j hj => h j (List.mem_cons_of_mem _ hj))

/-- A matching loop that stays inside the row spectrum does not depend on what
lies past its end. -/
theorem collect_region_of_in_bounds (L : Libm α) (rowi_spectrum : PeakSpectrum α)
    (junk junk1 : Peak1D α) (lower_bound upper_bound centre sigma rt_shape_row : Dbl α)
    (lists : List (Dbl α) × List (Dbl α))
    (h : region_in_bounds rowi_spectrum lower_bound upper_bound = true) :
    collect_region L rowi_spectrum junk lower_bound upper_bound centre sigma rt_shape_row lists
      = collect_region L rowi_spectrum junk1 lower_bound upper_bound centre sigma rt_shape_row
          lists := by
  unfold collect_region
  apply collect_peaks_of_in_bounds
  intro index hindex
  have := List.all_eq_true.1 h index hindex
  simpa using this

theorem scan_row_of_in_bounds (L : Libm α) (sc : Scorer α) (junk junk1 : Peak1D α)
    (centre_idx : Int) (centre0 : Dbl α) (st : RowState α) (rowi : Int)
    (h : row_in_bounds L sc centre0 rowi = true) :
    scan_row L sc junk centre_idx centre0 st rowi
      = scan_row L sc junk1 centre_idx centre0 st rowi := by
  unfold scan_row
  unfold row_in_bounds at h
  split
  · cases hget : getSpectrum sc.input_map rowi with
    | error e => rfl
    | ok rowi_spectrum =>
      rw [hget] at h
      simp only [Bool.and_eq_true] at h
      simp only [collect_region_of_in_bounds L rowi_spectrum junk junk1 _ _ _ _ _ _ h.1,
        collect_region_of_in_bounds L rowi_spectrum junk junk1 _ _ _ _ _ _ h.2]
  · rfl

theorem scan_rows_of_in_bounds (L : Libm α) (sc : Scorer α) (junk junk1 : Peak1D α)
    (centre_idx : Int) (centre0 : Dbl α) (rows : List Int) :
    ∀ st : RowState α, rows.all (row_in_bounds L sc centre0) = true →
      scan_rows L sc junk centre_idx centre0 st rows
        = scan_rows L sc junk1 centre_idx centre0 st rows := by
  induction rows with
  | nil => intro st _; rfl
  | cons r rows ih =>
    intro st h
    simp only [List.all_cons, Bool.and_eq_true] at h
    unfold scan_rows
    rw [scan_row_of_in_bounds L sc junk junk1 centre_idx centre0 st r h.1]
    cases scan_row L sc junk1 centre_idx centre0 st r with
    | error e => rfl
    | ok st1 => exact ih st1 h.2

/-- A pass that reads no peak past the end of a row spectrum does not depend
on what lies there. -/
theorem score_point_of_in_bounds (L : Libm α) (sc : Scorer α) (junk junk1 : Peak1D α)
    (centre_idx : Int) (acc : Samples α) (it : Peak1D α)
    (h : pass_in_bounds L sc centre_idx it.mz = true) :
    score_point L sc junk centre_idx acc it = score_point L sc junk1 centre_idx acc it := by
  unfold score_point
  simp only [scan_rows_of_in_bounds L sc junk junk1 centre_idx it.mz (window_rows sc centre_idx)
    _ h]

theorem collected_for_of_in_bounds (L : Libm α) (sc : Scorer α) (junk junk1 : Peak1D α)
    (centre_idx : Int) (it : Peak1D α) (h : pass_in_bounds L sc centre_idx it.mz = true) :
    collected_for L sc junk centre_idx it = collected_for L sc junk1 centre_idx it := by
  unfold collected_for
  rw [scan_rows_of_in_bounds L sc junk junk1 centre_idx it.mz (window_rows sc centre_idx) _ h]

end engine

/-! ## Theorems: the runs on the example stores -/

/-- A store whose spectra are all sorted has no unsorted row. -/
theorem not_row_unsorted_of_sorted {α : Type} [LinearOrderedField α] (sc : Scorer α)
    (h : ∀ spectrum ∈ sc.input_map, isSorted spectrum = true) (rowi : Int) :
    ¬ row_unsorted sc rowi := by
  rintro ⟨_, spectrum, hsp, hns⟩
  obtain ⟨hlt, hget⟩ := List.getElem?_eq_some.1 hsp
  rw [h spectrum (hget ▸ List.getElem_mem hlt)] at hns
  cases hns

/-- The passes for the peaks at m/z `100` and `106.0201` of `store_two_and_one`
read nothing past the end of the spectrum: whatever lies there, they end
with the same sample lists. -/
theorem passes_two_and_one (junk : Peak1D ℚ) :
    score_point libm_q (scorer_on store_two_and_one) junk 0 (Samples.empty ℚ) ⟨100.0, 1.0⟩
      = Except.ok pass_under_sampled ∧
    score_point libm_q (scorer_on store_two_and_one) junk 0 pass_under_sampled.samples
        ⟨100.0, 1.0⟩
      = Except.ok pass_with_stale_samples ∧
    score_point libm_q (scorer_on store_two_and_one) junk 0 pass_with_stale_samples.samples
        ⟨106.0201, 2.0⟩
      = Except.ok pass_third ∧
    collected_for libm_q (scorer_on store_two_and_one) junk 0 ⟨100.0, 1.0⟩
      = Except.ok collected_alone := by
  refine ⟨?_, ?_, ?_, ?_⟩
  · rw [score_point_of_in_bounds libm_q _ junk junk_zero 0 _ _ (by decide!)]
    decide!
  · rw [score_point_of_in_bounds libm_q _ junk junk_zero 0 _ _ (by decide!)]
    decide!
  · rw [score_point_of_in_bounds libm_q _ junk junk_zero 0 _ _ (by decide!)]
    decide!
  · rw [collected_for_of_in_bounds libm_q _ junk junk_zero 0 _ (by decide!)]
    decide!

/-- The run of `score_spectra` on `store_two_and_one`, whatever lies past the
end of the spectrum: four passes, the first three as named. -/
theorem score_spectra_two_and_one_any (junk : Peak1D ℚ) :
    ∃ last, score_spectra libm_q (scorer_on store_two_and_one) junk 0
      = Except.ok
          { returned := none,
            points := [pass_under_sampled, pass_with_stale_samples, pass_third, last] } := by
  obtain ⟨h1, h2, h3, _⟩ := passes_two_and_one junk
  have hsorted : ∀ rowi ∈ window_rows (scorer_on store_two_and_one) 0,
      ¬ row_unsorted (scorer_on store_two_and_one) rowi :=
    fun rowi _ => not_row_unsorted_of_sorted _ (by decide!) rowi
  obtain ⟨points, hpoints⟩ := score_points_of_sorted libm_q (scorer_on store_two_and_one) junk 0
    hsorted [⟨1000.0, 1.0⟩] pass_third.samples
  have hlen := length_score_points libm_q _ junk 0 _ _ _ hpoints
  obtain ⟨last, rfl⟩ : ∃ last, points = [last] := by
    match points, hlen with
    | [last], _ => exact ⟨last, rfl⟩
  have hget : getSpectrum (scorer_on store_two_and_one).input_map 0
      = Except.ok [⟨100.0, 1.0⟩, ⟨100.0, 1.0⟩, ⟨106.0201, 2.0⟩, ⟨1000.0, 1.0⟩] := rfl
  refine ⟨last, ?_⟩
  unfold score_spectra
  simp only [hget]
  rw [score_points, h1]
  simp only []
  rw [score_points, h2]
  simp only []
  rw [score_points, h3]
  simp only [hpoints]

/-- The pass for the first peak of `store_two_and_two` reads nothing past the
end of the spectrum: whatever lies there, it collects two natural and two
isotope samples. -/
theorem first_pass_two_and_two (junk : Peak1D ℚ) :
    score_point libm_q (scorer_on store_two_and_two) junk 0 (Samples.empty ℚ) ⟨100.0, 1.0⟩
      = Except.ok { samples := two_and_two 1 2 shape_100 shape_106, nAB := 4 } ∧
    collected_for libm_q (scorer_on store_two_and_two) junk 0 ⟨100.0, 1.0⟩
      = Except.ok (two_and_two 1 2 shape_100 shape_106) := by
  refine ⟨?_, ?_⟩
  · rw [score_point_of_in_bounds libm_q _ junk junk_zero 0 _ _ (by decide!)]
    decide!
  · rw [collected_for_of_in_bounds libm_q _ junk junk_zero 0 _ (by decide!)]
    decide!

/-- The run of `score_spectra` on `store_two_and_two`, whatever lies past the
end of the spectrum: it completes, and its first pass is as named. -/
theorem score_spectra_two_and_two_any (junk : Peak1D ℚ) :
    ∃ rest, score_spectra libm_q (scorer_on store_two_and_two) junk 0
      = Except.ok
          { returned := none,
            points := { samples := two_and_two 1 2 shape_100 shape_106, nAB := 4 } :: rest } := by
  obtain ⟨h1, _⟩ := first_pass_two_and_two junk
  have hsorted : ∀ rowi ∈ window_rows (scorer_on store_two_and_two) 0,
      ¬ row_unsorted (scorer_on store_two_and_two) rowi :=
    fun rowi _ => not_row_unsorted_of_sorted _ (by decide!) rowi
  obtain ⟨points, hpoints⟩ := score_points_of_sorted libm_q (scorer_on store_two_and_two) junk 0
    hsorted [⟨100.0, 1.0⟩, ⟨106.0201, 2.0⟩, ⟨106.0201, 2.0⟩, ⟨1000.0, 1.0⟩]
    (two_and_two 1 2 shape_100 shape_106)
  have hget : getSpectrum (scorer_on store_two_and_two).input_map 0
      = Except.ok [⟨100.0, 1.0⟩, ⟨100.0, 1.0⟩, ⟨106.0201, 2.0⟩, ⟨106.0201, 2.0⟩,
          ⟨1000.0, 1.0⟩] := rfl
  refine ⟨points, ?_⟩
  unfold score_spectra
  simp only [hget]
  rw [score_points, h1]
  simp only [hpoints]

/-- The run of `score_spectra` on `store_two_and_one`. -/
theorem score_spectra_two_and_one :
    score_spectra libm_q (scorer_on store_two_and_one) junk_zero 0
      = Except.ok run_two_and_one := by
  decide!

/-- Witness for C5: on `store_two_and_one` the call completes after four
passes, one per peak, and returns nothing. -/
theorem score_spectra_returns_no_vector_witness :
    score_spectra libm_q (scorer_on store_two_and_one) junk_zero 0
      = Except.ok run_two_and_one ∧
    run_two_and_one.returned = none ∧
    ∃ centre_row_points,
      getSpectrum (scorer_on store_two_and_one).input_map 0 = Except.ok centre_row_points ∧
      run_two_and_one.points.length = centre_row_points.length :=
  ⟨score_spectra_two_and_one,
    score_spectra_returns_no_vector libm_q (scorer_on store_two_and_one) junk_zero 0
      run_two_and_one score_spectra_two_and_one⟩

/-- Claim C9, as amended. Score floor, for any sample lists and any `nAB`: the
local `min_score` is at least `0`, so never negative and always a number; it
is not greater than `|min(zABA0, zAB0B)|`, `|zABA0|` or `|zAB0B|`; and it is at
most each of these three unless a z-statistic is not a number. -/
theorem min_score_floor {α : Type} [LinearOrderedField α] (L : Libm α) (V : VectorLib α)
    (s : Samples α) (nAB : Dbl α) :
    (0 : Dbl α) ≤ min_score L V s nAB ∧
    ¬ (min_score L V s nAB > Dbl.fabs (std_min [zABA0 L V s nAB, zAB0B L V s nAB])) ∧
    ¬ (min_score L V s nAB > Dbl.fabs (zABA0 L V s nAB)) ∧
    ¬ (min_score L V s nAB > Dbl.fabs (zAB0B L V s nAB)) ∧
    (zABA0 L V s nAB = Dbl.nan ∨ zAB0B L V s nAB = Dbl.nan ∨
      (min_score L V s nAB ≤ Dbl.fabs (std_min [zABA0 L V s nAB, zAB0B L V s nAB]) ∧
       min_score L V s nAB ≤ Dbl.fabs (zABA0 L V s nAB) ∧
       min_score L V s nAB ≤ Dbl.fabs (zAB0B L V s nAB))) :=
  floor_of_score (zABA0 L V s nAB) (zAB0B L V s nAB)

/-- Counterexample to C9 as stated: the first peak of `store_two_and_one`
collects one isotope sample, fewer than `min_sample = 2`.  The pass sets
`nAB = 0`, both z-statistics are `sqrt(-3)`-tainted and not numbers,
`min_score` is `0`, and `min_score <= |zABA0|`, `min_score <= |zAB0B|` and
`min_score <= |min(zABA0, zAB0B)|` are all false. -/
theorem min_score_floor_fails_without_samples :
    (∀ junk : Peak1D ℚ, ∃ last,
      score_spectra libm_q (scorer_on store_two_and_one) junk 0
        = Except.ok
            { returned := none,
              points := [pass_under_sampled, pass_with_stale_samples, pass_third, last] }) ∧
    pass_under_sampled.min_score libm_q vector_h = 0 ∧
    zABA0 libm_q vector_h pass_under_sampled.samples pass_under_sampled.nAB = Dbl.nan ∧
    zAB0B libm_q vector_h pass_under_sampled.samples pass_under_sampled.nAB = Dbl.nan ∧
    ¬ (pass_under_sampled.min_score libm_q vector_h
        ≤ Dbl.fabs (zABA0 libm_q vector_h pass_under_sampled.samples pass_under_sampled.nAB)) ∧
    ¬ (pass_under_sampled.min_score libm_q vector_h
        ≤ Dbl.fabs (zAB0B libm_q vector_h pass_under_sampled.samples pass_under_sampled.nAB)) ∧
    ¬ (pass_under_sampled.min_score libm_q vector_h
        ≤ Dbl.fabs (std_min
            [zABA0 libm_q vector_h pass_under_sampled.samples pass_under_sampled.nAB,
             zAB0B libm_q vector_h pass_under_sampled.samples pass_under_sampled.nAB])) := by
  have hA := zABA0_of_nAB_zero libm_q vector_h pass_under_sampled.samples
  have hB := zAB0B_of_nAB_zero libm_q vector_h pass_under_sampled.samples
  have hm := min_score_of_nAB_zero libm_q vector_h pass_under_sampled.samples
  refine ⟨score_spectra_two_and_one_any, hm, hA, hB, ?_, ?_, ?_⟩
  · show ¬ (min_score libm_q vector_h pass_under_sampled.samples 0
        ≤ Dbl.fabs (zABA0 libm_q vector_h pass_under_sampled.samples 0))
    rw [hA]
    exact Dbl.not_le_nan _
  · show ¬ (min_score libm_q vector_h pass_under_sampled.samples 0
        ≤ Dbl.fabs (zAB0B libm_q vector_h pass_under_sampled.samples 0))
    rw [hB]
    exact Dbl.not_le_nan _
  · show ¬ (min_score libm_q vector_h pass_under_sampled.samples 0
        ≤ Dbl.fabs (std_min [zABA0 libm_q vector_h pass_under_sampled.samples 0,
            zAB0B libm_q vector_h pass_under_sampled.samples 0]))
    rw [hA, hB]
    exact Dbl.not_le_nan _

section two_and_two

variable {α : Type} [LinearOrderedField α]

theorem mean_vector_pair (x y : α) :
    (vector_h : VectorLib α).mean_vector [Dbl.fin x, Dbl.fin y] = Dbl.fin ((x + y) / 2) := by
  simp [vector_h, Dbl.fin_div]

theorem mean_scalars_fin (x y : α) :
    (vector_h : VectorLib α).mean_scalars (Dbl.fin x) (Dbl.fin y) = Dbl.fin ((x + y) / 2) := by
  simp [vector_h, Dbl.fin_div]

theorem shift_vector_pair (x y c : α) :
    (vector_h : VectorLib α).shift_vector [Dbl.fin x, Dbl.fin y] (Dbl.fin c)
      = [Dbl.fin (x - c), Dbl.fin (y - c)] := by
  simp [vector_h]

theorem square_vector_pair (x y : α) :
    (vector_h : VectorLib α).square_vector [Dbl.fin x, Dbl.fin y]
      = [Dbl.fin (x * x), Dbl.fin (y * y)] := by
  simp [vector_h]

theorem mult_vectors_pair (x y u v : α) :
    (vector_h : VectorLib α).mult_vectors [Dbl.fin x, Dbl.fin y] [Dbl.fin u, Dbl.fin v]
      = [Dbl.fin (x * u), Dbl.fin (y * v)] := by
  simp [vector_h]

theorem mult_scalars_fin (x y : α) :
    (vector_h : VectorLib α).mult_scalars (Dbl.fin x) (Dbl.fin y) = Dbl.fin (x * y) := by
  simp [vector_h]

theorem sqrt_fin_sq (L : Libm α) (hsq : ∀ x : α, 0 ≤ x → L.sqrt (x * x) = x) (q : α)
    (hq : 0 ≤ q) : Dbl.sqrt L (Dbl.fin (q * q)) = Dbl.fin q := by
  have h : ¬ (q * q < 0) := not_lt.2 (mul_nonneg hq hq)
  simp only [Dbl.sqrt, if_neg h, hsq q hq]

/-- A clamped correlation `cov / sqrt(var1 * var2)` whose two variances
multiply to the square of `q > 0`. -/
theorem clamp_correl_of_square (L : Libm α) (hsq : ∀ x : α, 0 ≤ x → L.sqrt (x * x) = x)
    (c v1 v2 q : α) (hq : 0 < q) (hv : v1 * v2 = q * q) :
    clamp_correl (Dbl.fin c / Dbl.sqrt L (Dbl.fin v1 * Dbl.fin v2))
      = if 0 < c then Dbl.fin (c / q) else Dbl.fin 0 := by
  rw [Dbl.fin_mul, hv, sqrt_fin_sq L hsq q hq.le, Dbl.fin_div _ _ hq.ne']
  unfold clamp_correl
  simp only [Dbl.lit_0_0, gt_iff_lt, Dbl.fin_lt, div_pos_iff_of_pos_right hq]

/-- The statistics of a pass whose natural region holds two equal samples and
whose isotope region holds two equal samples, the isotope samples being the
larger ones in intensity and in shape, for every `<cmath>` whose square root
is exact on squares: `zABA0` is `+∞`, `zAB0B` is not a number, and `min_score`
is `+∞`. -/
theorem statistics_of_two_and_two (L : Libm α) (hsq : ∀ x : α, 0 ≤ x → L.sqrt (x * x) = x)
    (xa xb a b : α) (hx : xa < xb) (ha : 0 < a) (hab : a < b) :
    zABA0 L vector_h (two_and_two xa xb a b) 4
      = Dbl.pinf ∧
    zAB0B L vector_h (two_and_two xa xb a b) 4
      = Dbl.nan ∧
    min_score L vector_h (two_and_two xa xb a b) 4
      = Dbl.pinf := by
  have hdx : 0 < (xb - xa) / 2 := by linarith
  have hdy : 0 < (b - a) / 2 := by linarith
  have hb : 0 < b := lt_trans ha hab
  have hcov : cov_Xab vector_h (two_and_two xa xb a b) = Dbl.fin ((xb - xa) / 2 * ((b - a) / 2)) := by
    simp only [two_and_two, cov_Xab, ECXaCYa, ECXbCYb, CXaCYa, CXbCYb, CXa, CXb, CYa, CYb, EXab, EYab, EXa,
      EXb, EYa, EYb, mean_vector_pair, mean_scalars_fin, shift_vector_pair, mult_vectors_pair]
    congr 1
    ring
  have hvX : var_Xab vector_h (two_and_two xa xb a b) = Dbl.fin ((xb - xa) / 2 * ((xb - xa) / 2)) := by
    simp only [two_and_two, var_Xab, ECXa2, ECXb2, CXa2, CXb2, CXa, CXb, EXab, EXa, EXb, mean_vector_pair,
      mean_scalars_fin, shift_vector_pair, square_vector_pair]
    congr 1
    ring
  have hvY : var_Yab vector_h (two_and_two xa xb a b) = Dbl.fin ((b - a) / 2 * ((b - a) / 2)) := by
    simp only [two_and_two, var_Yab, ECYa2, ECYb2, CYa2, CYb2, CYa, CYb, EYab, EYa, EYb, mean_vector_pair,
      mean_scalars_fin, shift_vector_pair, square_vector_pair]
    congr 1
    ring
  have hcovA : cov_Xa_ vector_h (two_and_two xa xb a b) = Dbl.fin (-((xb - xa) / 2 * (a / 2))) := by
    simp only [two_and_two, cov_Xa_, ECXaCYaEa_, ECXbCYbEa_, CXaCYa_, CYa_, EYa_, CXa, CXb, EXab, EXa, EXb, EYa,
      mean_vector_pair, mean_scalars_fin, shift_vector_pair, mult_vectors_pair, mult_scalars_fin,
      Dbl.lit_0_5, Dbl.fin_mul, Dbl.fin_neg]
    congr 1
    ring
  have hvA : var_Ya_ vector_h (two_and_two xa xb a b) = Dbl.fin (a / 2 * (a / 2)) := by
    simp only [two_and_two, var_Ya_, ECYaEa_2, ECYbEa_2, CYa_2, CYa_, EYa_, EYa, mean_vector_pair,
      mean_scalars_fin, shift_vector_pair, square_vector_pair, mult_scalars_fin, Dbl.lit_0_5,
      Dbl.fin_mul]
    congr 1
    ring
  have hcovB : cov_X_b vector_h (two_and_two xa xb a b) = Dbl.fin ((xb - xa) / 2 * (b / 2)) := by
    simp only [two_and_two, cov_X_b, ECXaCYaE_b, ECXbCYbE_b, CXbCY_b, CY_b, EY_b, CXa, CXb, EXab, EXa, EXb, EYb,
      mean_vector_pair, mean_scalars_fin, shift_vector_pair, mult_vectors_pair, mult_scalars_fin,
      Dbl.lit_0_5, Dbl.fin_mul, Dbl.fin_neg]
    congr 1
    ring
  have hvB : var_Y_b vector_h (two_and_two xa xb a b) = Dbl.fin (b / 2 * (b / 2)) := by
    simp only [two_and_two, var_Y_b, ECYaE_b2, ECYbE_b2, CY_b2, CY_b, EY_b, EYb, mean_vector_pair,
      mean_scalars_fin, shift_vector_pair, square_vector_pair, mult_scalars_fin, Dbl.lit_0_5,
      Dbl.fin_mul]
    congr 1
    ring
  have hcovYA : cov_YabYa_ vector_h (two_and_two xa xb a b) = Dbl.fin 0 := by
    simp only [two_and_two, cov_YabYa_, ECYaCYaEa_, ECYbCYbEa_, CYaCYa_, CYa_, EYa_, CYa, EYab, EYa, EYb,
      mean_vector_pair, mean_scalars_fin, shift_vector_pair, mult_vectors_pair, mult_scalars_fin,
      Dbl.lit_0_5, Dbl.fin_mul, Dbl.fin_neg]
    congr 1
    ring
  have hcovYB : cov_YabY_b vector_h (two_and_two xa xb a b) = Dbl.fin 0 := by
    simp only [two_and_two, cov_YabY_b, ECYaCYaE_b, ECYbCYbE_b, CYbCY_b, CY_b, EY_b, CYb, EYab, EYa, EYb,
      mean_vector_pair, mean_scalars_fin, shift_vector_pair, mult_vectors_pair, mult_scalars_fin,
      Dbl.lit_0_5, Dbl.fin_mul, Dbl.fin_neg]
    congr 1
    ring
  have hrAB : correl_XabYab L vector_h (two_and_two xa xb a b) = Dbl.fin 1 := by
    unfold correl_XabYab
    rw [hcov, hvX, hvY, clamp_correl_of_square L hsq _ _ _ ((xb - xa) / 2 * ((b - a) / 2))
      (mul_pos hdx hdy) (by ring), if_pos (mul_pos hdx hdy), div_self (mul_pos hdx hdy).ne']
  have hrA0 : correl_XabYa_ L vector_h (two_and_two xa xb a b) = Dbl.fin 0 := by
    unfold correl_XabYa_
    rw [hcovA, hvX, hvA, clamp_correl_of_square L hsq _ _ _ ((xb - xa) / 2 * (a / 2))
      (mul_pos hdx (by linarith)) (by ring),
      if_neg (not_lt.2 (neg_nonpos.2 (mul_pos hdx (by linarith)).le))]
  have hr0B : correl_XabY_b L vector_h (two_and_two xa xb a b) = Dbl.fin 1 := by
    unfold correl_XabY_b
    rw [hcovB, hvX, hvB, clamp_correl_of_square L hsq _ _ _ ((xb - xa) / 2 * (b / 2))
      (mul_pos hdx (by linarith)) (by ring), if_pos (mul_pos hdx (by linarith)),
      div_self (mul_pos hdx (by linarith)).ne']
  have hrYA : correl_YabYa_ L vector_h (two_and_two xa xb a b) = Dbl.fin 0 := by
    unfold correl_YabYa_
    rw [hcovYA, hvY, hvA, clamp_correl_of_square L hsq _ _ _ ((b - a) / 2 * (a / 2))
      (mul_pos hdy (by linarith)) (by ring), if_neg (lt_irrefl 0)]
  have hrYB : correl_YabY_b L vector_h (two_and_two xa xb a b) = Dbl.fin 0 := by
    unfold correl_YabY_b
    rw [hcovYB, hvY, hvB, clamp_correl_of_square L hsq _ _ _ ((b - a) / 2 * (b / 2))
      (mul_pos hdy (by linarith)) (by ring), if_neg (lt_irrefl 0)]
  have hsqrt1 : L.sqrt 1 = 1 := by simpa using hsq 1 zero_le_one
  have hn : sqrt_nAB L (4 : Dbl α) = Dbl.fin 1 := by
    have h43 : (4 : α) - 3 = 1 := by norm_num
    have h1 : ¬ ((1 : α) < 0) := by norm_num
    simp only [sqrt_nAB, Dbl.lit_ofNat, Dbl.lit_3_0, Dbl.fin_sub, h43, Dbl.sqrt, if_neg h1, hsqrt1]
  have hzA : zABA0 L vector_h (two_and_two xa xb a b) 4 = Dbl.pinf := by
    have hat1 : Dbl.atanh L (Dbl.fin (1 : α)) = Dbl.pinf := by
      simp [Dbl.atanh]
    have hat0 : Dbl.atanh L (Dbl.fin (0 : α)) = Dbl.fin (L.atanh 0) := by
      simp [Dbl.atanh]
    have hrm : rm2ABA0 L vector_h (two_and_two xa xb a b) = Dbl.fin (1 / 2) := by
      simp only [rm2ABA0, hrAB, hrA0, Dbl.lit_0_5, Dbl.fin_mul, Dbl.fin_add]
      norm_num
    have hf : fABA0 L vector_h (two_and_two xa xb a b) = Dbl.fin 1 := by
      simp only [fABA0, hrm, hrA0, Dbl.lit_1_0, Dbl.lit_2_0, Dbl.fin_mul, Dbl.fin_sub,
        Dbl.fin_div_eq]
      norm_num
    have hh : hABA0 L vector_h (two_and_two xa xb a b) = Dbl.fin 1 := by
      simp only [hABA0, hrm, hf, Dbl.lit_1_0, Dbl.fin_mul, Dbl.fin_sub, Dbl.fin_div_eq]
      norm_num
    simp only [zABA0, hh, hrAB, hrA0, hrYA, hn, hat1, hat0, Dbl.lit_1_0, Dbl.lit_2_0,
      Dbl.fin_mul, Dbl.fin_sub, Dbl.pinf_sub_fin, Dbl.pinf_mul_fin, Dbl.pinf_div_fin]
    norm_num
    rw [Dbl.pinf_div_fin]
    norm_num
  have hzB : zAB0B L vector_h (two_and_two xa xb a b) 4 = Dbl.nan := by
    have hat1 : Dbl.atanh L (Dbl.fin (1 : α)) = Dbl.pinf := by
      simp [Dbl.atanh]
    simp only [zAB0B, hr0B, hrAB, hat1, Dbl.pinf_sub_pinf, Dbl.nan_mul, Dbl.nan_div]
  refine ⟨hzA, hzB, ?_⟩
  unfold min_score
  rw [hzA, hzB]
  rfl

end two_and_two

/-! ## Theorems: the concrete runs -/

/-- The square root of `libm_q` is exact on squares. -/
theorem libm_q_sqrt_sq (x : ℚ) (hx : 0 ≤ x) : libm_q.sqrt (x * x) = x := by
  show Rat.sqrt (x * x) = x
  rw [Rat.sqrt_eq, abs_of_nonneg hx]

theorem shape_100_pos : 0 < shape_100 := by
  norm_num [shape_100]

theorem shape_100_lt_shape_106 : shape_100 < shape_106 := by
  norm_num [shape_100, shape_106]

/-- The run of `score_spectra` on `store_two_and_two`. -/
theorem score_spectra_two_and_two :
    score_spectra libm_q (scorer_on store_two_and_two) junk_zero 0
      = Except.ok run_two_and_two := by
  decide!

theorem pass_with_stale_samples_eq :
    pass_with_stale_samples = { samples := two_and_two 1 2 shape_100 shape_106, nAB := 4 } := by
  decide!

/-- The statistics of two natural samples `(1, shape_100)` and two isotope
samples `(2, shape_106)`. -/
theorem statistics_of_the_doublet :
    zABA0 libm_q vector_h (two_and_two 1 2 shape_100 shape_106) 4 = Dbl.pinf ∧
    zAB0B libm_q vector_h (two_and_two 1 2 shape_100 shape_106) 4 = Dbl.nan ∧
    min_score libm_q vector_h (two_and_two 1 2 shape_100 shape_106) 4 = Dbl.pinf :=
  statistics_of_two_and_two libm_q libm_q_sqrt_sq 1 2 shape_100 shape_106 (by norm_num)
    shape_100_pos shape_100_lt_shape_106

/-- Claim C6, which fails on the code. On `store_two_and_one` the centre spectrum has
two equal peaks at m/z `100`.  Alone, such a peak collects two natural
samples and one isotope sample.  The pass for the first one ends with one
isotope sample left in `data_iso`/`shape_iso`; the pass for the second one is
entered with those lists, not with empty ones, and ends with two isotope
samples.  The first peak scores `0`, the second, with the same m/z and the
same neighbourhood, scores `+∞`.  These passes read nothing past the end of
the spectrum, so this holds whatever peak `junk` stands there. -/
theorem samples_are_carried_over_between_peaks :
    (∀ junk : Peak1D ℚ, ∃ last,
      score_spectra libm_q (scorer_on store_two_and_one) junk 0
        = Except.ok
            { returned := none,
              points := [pass_under_sampled, pass_with_stale_samples, pass_third, last] }) ∧
    (∀ junk : Peak1D ℚ,
      collected_for libm_q (scorer_on store_two_and_one) junk 0 ⟨100.0, 1.0⟩
        = Except.ok collected_alone) ∧
    (∀ junk : Peak1D ℚ,
      score_point libm_q (scorer_on store_two_and_one) junk 0 pass_under_sampled.samples
          ⟨100.0, 1.0⟩
        = Except.ok pass_with_stale_samples) ∧
    pass_under_sampled.samples ≠ Samples.empty ℚ ∧
    pass_with_stale_samples.samples.data_iso = pass_under_sampled.samples.data_iso ++ [2] ∧
    pass_under_sampled.min_score libm_q vector_h = 0 ∧
    pass_with_stale_samples.min_score libm_q vector_h = Dbl.pinf := by
  refine ⟨score_spectra_two_and_one_any, fun junk => (passes_two_and_one junk).2.2.2,
    fun junk => (passes_two_and_one junk).2.1, by decide!, by decide!,
    min_score_of_nAB_zero libm_q vector_h pass_under_sampled.samples, ?_⟩
  rw [pass_with_stale_samples_eq]
  exact statistics_of_the_doublet.2.2

/-- Claim C7, which fails on the code. On `store_two_and_one` with `min_sample = 2`,
the second peak collects one isotope sample of its own, fewer than
`min_sample`; the test on the sample counts sees the two samples left in
`data_iso` and lets the pass through with `nAB = 4`, and `min_score` is `+∞`,
not `0`, whatever peak `junk` stands past the end of the spectrum. -/
theorem min_score_not_zero_with_too_few_samples :
    (∀ junk : Peak1D ℚ, ∃ last,
      score_spectra libm_q (scorer_on store_two_and_one) junk 0
        = Except.ok
            { returned := none,
              points := [pass_under_sampled, pass_with_stale_samples, pass_third, last] }) ∧
    (∀ junk : Peak1D ℚ,
      collected_for libm_q (scorer_on store_two_and_one) junk 0 ⟨100.0, 1.0⟩
        = Except.ok collected_alone) ∧
    collected_alone.data_iso.length = 1 ∧
    (Dbl.ofNat collected_alone.data_iso.length : Dbl ℚ)
      < (scorer_on store_two_and_one).min_sample ∧
    pass_with_stale_samples.nAB = 4 ∧
    pass_with_stale_samples.min_score libm_q vector_h = Dbl.pinf ∧
    pass_with_stale_samples.min_score libm_q vector_h ≠ 0 := by
  have hscore : pass_with_stale_samples.min_score libm_q vector_h = Dbl.pinf := by
    rw [pass_with_stale_samples_eq]
    exact statistics_of_the_doublet.2.2
  refine ⟨score_spectra_two_and_one_any, fun junk => (passes_two_and_one junk).2.2.2, rfl,
    by decide!, rfl, hscore, ?_⟩
  rw [hscore]
  decide

/-- Claim C8, as amended. For every pass, whatever its sample counts, the local
`min_score` is `std::max({0.0, std::min({zABA0, zAB0B})})`.  Unless a
z-statistic is not a number this is the maximum of `0` and the minimum of
the two: the minimum is below both and equal to one of them, `min_score` is
above `0` and above the minimum and equal to one of them.  A positive
`min_score` needs `zABA0 > 0`, and `zAB0B` positive or not a number. -/
theorem min_score_is_max_of_min {α : Type} [LinearOrderedField α] (L : Libm α)
    (V : VectorLib α) (s : Samples α) (nAB : Dbl α) :
    min_score L V s nAB = std_max [0.0, std_min [zABA0 L V s nAB, zAB0B L V s nAB]] ∧
    (zABA0 L V s nAB = Dbl.nan ∨ zAB0B L V s nAB = Dbl.nan ∨
      (std_min [zABA0 L V s nAB, zAB0B L V s nAB] ≤ zABA0 L V s nAB ∧
       std_min [zABA0 L V s nAB, zAB0B L V s nAB] ≤ zAB0B L V s nAB ∧
        (std_min [zABA0 L V s nAB, zAB0B L V s nAB] = zABA0 L V s nAB ∨
         std_min [zABA0 L V s nAB, zAB0B L V s nAB] = zAB0B L V s nAB) ∧
       (0 : Dbl α) ≤ min_score L V s nAB ∧
       std_min [zABA0 L V s nAB, zAB0B L V s nAB] ≤ min_score L V s nAB ∧
        (min_score L V s nAB = 0 ∨
         min_score L V s nAB = std_min [zABA0 L V s nAB, zAB0B L V s nAB]))) ∧
    ((0 : Dbl α) < min_score L V s nAB →
      (0 : Dbl α) < zABA0 L V s nAB ∧
        ((0 : Dbl α) < zAB0B L V s nAB ∨ zAB0B L V s nAB = Dbl.nan)) :=
  ⟨rfl, max_min_of_score (zABA0 L V s nAB) (zAB0B L V s nAB)⟩

/-- Witness for C8: the first pass on `store_two_and_two` has a positive
`min_score`; its `zABA0` is positive and its `zAB0B` is not a number. -/
theorem min_score_is_max_of_min_witness :
    (0 : Dbl ℚ) < min_score libm_q vector_h (two_and_two 1 2 shape_100 shape_106) 4 ∧
    (0 : Dbl ℚ) < zABA0 libm_q vector_h (two_and_two 1 2 shape_100 shape_106) 4 ∧
    ((0 : Dbl ℚ) < zAB0B libm_q vector_h (two_and_two 1 2 shape_100 shape_106) 4 ∨
      zAB0B libm_q vector_h (two_and_two 1 2 shape_100 shape_106) 4 = Dbl.nan) := by
  have hpos : (0 : Dbl ℚ) < min_score libm_q vector_h (two_and_two 1 2 shape_100 shape_106) 4 := by
    rw [statistics_of_the_doublet.2.2]
    decide
  exact ⟨hpos,
    (min_score_is_max_of_min libm_q vector_h (two_and_two 1 2 shape_100 shape_106) 4).2.2 hpos⟩

/-- Counterexample to C8 as stated: the first peak of `store_two_and_two`
collects two natural and two isotope samples, as many as `min_sample = 2`.
Its `min_score` is `+∞`, which is positive, while `zAB0B` is not a number,
so not positive. -/
theorem positive_score_with_nan_statistic :
    (∀ junk : Peak1D ℚ, ∃ rest,
      score_spectra libm_q (scorer_on store_two_and_two) junk 0
        = Except.ok
            { returned := none,
              points := { samples := two_and_two 1 2 shape_100 shape_106, nAB := 4 } :: rest }) ∧
    (∀ junk : Peak1D ℚ,
      collected_for libm_q (scorer_on store_two_and_two) junk 0 ⟨100.0, 1.0⟩
        = Except.ok (two_and_two 1 2 shape_100 shape_106)) ∧
    ¬ ((Dbl.ofNat (two_and_two (1 : ℚ) 2 shape_100 shape_106).data_nat.length : Dbl ℚ)
        < (scorer_on store_two_and_two).min_sample) ∧
    ¬ ((Dbl.ofNat (two_and_two (1 : ℚ) 2 shape_100 shape_106).data_iso.length : Dbl ℚ)
        < (scorer_on store_two_and_two).min_sample) ∧
    min_score libm_q vector_h (two_and_two 1 2 shape_100 shape_106) 4 = Dbl.pinf ∧
    (0 : Dbl ℚ) < min_score libm_q vector_h (two_and_two 1 2 shape_100 shape_106) 4 ∧
    zAB0B libm_q vector_h (two_and_two 1 2 shape_100 shape_106) 4 = Dbl.nan ∧
    ¬ ((0 : Dbl ℚ) < zAB0B libm_q vector_h (two_and_two 1 2 shape_100 shape_106) 4) := by
  refine ⟨score_spectra_two_and_two_any, fun junk => (first_pass_two_and_two junk).2,
    by decide!, by decide!, statistics_of_the_doublet.2.2, ?_, statistics_of_the_doublet.2.1, ?_⟩
  · rw [statistics_of_the_doublet.2.2]
    decide
  · rw [statistics_of_the_doublet.2.1]
    exact Dbl.not_lt_nan _

/-! ## Theorems: the input cache -/

theorem erase_take_of_mem (k : Int) :
    ∀ (n : Nat) (r : List Int), k ∈ r.take n → (r.take n).erase k = (r.erase k).take (n - 1)
  | 0, r, h => by simp at h
  | n + 1, [], h => by simp at h
  | n + 1, a :: r, h => by
    by_cases hak : a = k
    · subst hak
      simp
    · have hmem : k ∈ r.take n := by
        rw [List.take_succ_cons, List.mem_cons] at h
        rcases h with h | h
        · exact absurd h.symm hak
        · exact h
      have hn : n ≠ 0 := by
        rintro rfl
        simp at hmem
      obtain ⟨m, rfl⟩ := Nat.exists_eq_succ_of_ne_zero hn
      have ih := erase_take_of_mem k (m + 1) r hmem
      have hne : (a == k) = false := by simpa using hak
      rw [List.take_succ_cons, List.erase_cons, hne, List.erase_cons, hne]
      simp only [Nat.add_sub_cancel] at ih ⊢
      simp only [Bool.false_eq_true, if_false, List.take_succ_cons, ih]

theorem take_erase_of_not_mem (k : Int) :
    ∀ (n : Nat) (r : List Int), k ∉ r.take n → (r.erase k).take n = r.take n
  | 0, r, _ => by simp
  | n + 1, [], _ => by simp
  | n + 1, a :: r, h => by
    rw [List.take_succ_cons, List.mem_cons, not_or] at h
    have hne : (a == k) = false := by simpa using (fun e => h.1 e.symm)
    rw [List.erase_cons, hne]
    simp only [Bool.false_eq_true, if_false, List.take_succ_cons,
      take_erase_of_not_mem k n r h.2]

theorem recency_snoc (accesses : List Int) (key : Int) :
    recency (accesses ++ [key]) = key :: (recency accesses).erase key := by
  unfold recency
  rw [List.foldl_append]
  rfl

theorem recency_nodup (accesses : List Int) : (recency accesses).Nodup := by
  induction accesses using List.reverseRecOn with
  | nil => exact List.nodup_nil
  | append_singleton l k ih =>
    rw [recency_snoc]
    exact List.nodup_cons.2 ⟨fun h => (List.Nodup.mem_erase_iff ih).1 h |>.1 rfl, ih.erase k⟩

theorem LruCache.exists_iff {V : Type} (c : LruCache V) (key : Int) :
    c.exists key = true ↔ key ∈ c.keys := by
  unfold LruCache.exists LruCache.keys
  simp only [List.any_eq_true, decide_eq_true_eq, List.mem_map]

theorem keys_filter_ne {V : Type} (key : Int) :
    ∀ items : List (Int × V),
      (items.filter (fun x => !decide (x.1 = key))).map Prod.fst
        = (items.map Prod.fst).filter (fun k => !decide (k = key))
  | [] => rfl
  | e :: items => by
    by_cases h : e.1 = key
    · simp [List.filter_cons, h, keys_filter_ne key items]
    · simp [List.filter_cons, h, keys_filter_ne key items]

theorem filter_ne_eq_erase (key : Int) (keys : List Int) (hnd : keys.Nodup) :
    keys.filter (fun k => !decide (k = key)) = keys.erase key := by
  rw [List.Nodup.erase_eq_filter hnd]
  congr 1

/-- A hit: `get_spectrum` hands back the spectrum of the entry found, which
moves to the front; the other entries keep their order. -/
theorem get_spectrum_of_hit {α : Type}
    (input_map : List (PeakSpectrum α)) (c : LruCache (PeakSpectrum α)) (spectrum_id : Int)
    (h : c.exists spectrum_id = true) :
    ∃ e ∈ c.items, e.1 = spectrum_id ∧
      get_spectrum input_map c spectrum_id
        = Except.ok (e.2,
            { c with items := e :: c.items.filter (fun x => !decide (x.1 = spectrum_id)) }) := by
  unfold LruCache.exists at h
  rw [List.any_eq_true] at h
  cases hf : c.items.find? (fun e => decide (e.1 = spectrum_id)) with
  | none =>
    obtain ⟨e, he, hk⟩ := h
    exact absurd hk (List.find?_eq_none.1 hf e he)
  | some e =>
    have hmem : e ∈ c.items := List.mem_of_find?_eq_some hf
    have hkey : e.1 = spectrum_id := by simpa using List.find?_some hf
    refine ⟨e, hmem, hkey, ?_⟩
    have hex : c.exists spectrum_id = true := by
      unfold LruCache.exists
      rw [List.any_eq_true]
      exact h
    unfold get_spectrum
    rw [if_pos hex]
    unfold LruCache.get
    simp only [hf]

/-- A miss: `get_spectrum` loads the spectrum from the store and puts it into
the cache. -/
theorem get_spectrum_of_miss {α : Type}
    (input_map : List (PeakSpectrum α)) (c : LruCache (PeakSpectrum α)) (spectrum_id : Int)
    (h : c.exists spectrum_id = false) (spectrum : PeakSpectrum α)
    (hs : getSpectrum input_map spectrum_id = Except.ok spectrum) :
    get_spectrum input_map c spectrum_id
      = Except.ok (spectrum, c.put spectrum_id spectrum) := by
  unfold get_spectrum
  simp only [h, Bool.false_eq_true, if_false, hs]

theorem keys_put {V : Type} (c : LruCache V) (key : Int) (value : V) :
    (c.put key value).keys
      = if c.max_size ≤ c.keys.length then key :: c.keys.dropLast else key :: c.keys := by
  unfold LruCache.put LruCache.keys
  rw [List.length_map]
  split
  · simp [List.map_dropLast]
  · rfl

section engine

variable {α : Type}

theorem cacheInv_empty (input_map : List (PeakSpectrum α)) (max_size : Nat) :
    CacheInv input_map max_size [] (LruCache.empty (PeakSpectrum α) max_size) := by
  refine ⟨rfl, by simp [LruCache.keys, LruCache.empty], ?_⟩
  intro e he
  simp [LruCache.empty] at he

/-- One `get_spectrum` call keeps the invariant, with the index asked for moved
to the front of the order of recency, and hands back the spectrum of the
store. -/
theorem cacheInv_step (input_map : List (PeakSpectrum α)) (max_size : Nat) (hcap : 1 ≤ max_size)
    (order : List Int) (hnd : order.Nodup) (c : LruCache (PeakSpectrum α))
    (hinv : CacheInv input_map max_size order c) (spectrum_id : Int)
    (r : PeakSpectrum α × LruCache (PeakSpectrum α))
    (h : get_spectrum input_map c spectrum_id = Except.ok r) :
    getSpectrum input_map spectrum_id = Except.ok r.1 ∧
      CacheInv input_map max_size (spectrum_id :: order.erase spectrum_id) r.2 := by
  obtain ⟨hmax, hkeys, hcons⟩ := hinv
  have hknd : c.keys.Nodup := by
    rw [hkeys]
    exact hnd.sublist (List.take_sublist _ _)
  obtain ⟨m, rfl⟩ : ∃ m, max_size = m + 1 := ⟨max_size - 1, by omega⟩
  cases hex : c.exists spectrum_id with
  | true =>
    obtain ⟨e, he, hk, hget⟩ := get_spectrum_of_hit input_map c spectrum_id hex
    rw [hget] at h
    cases h
    have hmem : spectrum_id ∈ order.take (m + 1) := by
      rw [← hkeys]
      exact (c.exists_iff spectrum_id).1 hex
    refine ⟨by rw [← hk]; exact hcons e he, hmax, ?_, ?_⟩
    · show (e :: c.items.filter (fun x => !decide (x.1 = spectrum_id))).map Prod.fst = _
      rw [List.map_cons, keys_filter_ne, hk]
      have hfe := filter_ne_eq_erase spectrum_id c.keys hknd
      unfold LruCache.keys at hfe hkeys
      rw [hfe, hkeys, erase_take_of_mem spectrum_id (m + 1) order hmem]
      simp
    · intro x hx
      rcases List.mem_cons.1 hx with rfl | hx
      · exact hcons _ he
      · exact hcons x (List.mem_of_mem_filter hx)
  | false =>
    have hnot : spectrum_id ∉ order.take (m + 1) := by
      rw [← hkeys]
      intro hin
      rw [(c.exists_iff spectrum_id).2 hin] at hex
      cases hex
    cases hs : getSpectrum input_map spectrum_id with
    | error e =>
      unfold get_spectrum at h
      simp only [hex, Bool.false_eq_true, if_false, hs] at h
      cases h
    | ok spectrum =>
      rw [get_spectrum_of_miss input_map c spectrum_id hex spectrum hs] at h
      cases h
      refine ⟨rfl, ?_, ?_, ?_⟩
      · show (c.put spectrum_id spectrum).max_size = m + 1
        unfold LruCache.put
        split <;> exact hmax
      · show (c.put spectrum_id spectrum).keys = _
        rw [keys_put, hmax, hkeys, List.take_succ_cons]
        have htake : (order.erase spectrum_id).take m = order.take m := by
          have h1 := take_erase_of_not_mem spectrum_id (m + 1) order hnot
          have h2 := congrArg (List.take m) h1
          rwa [List.take_take, List.take_take, Nat.min_eq_left (Nat.le_succ m)] at h2
        rw [htake]
        split
        · rename_i hfull
          rw [List.dropLast_eq_take, List.take_take]
          congr 2
          rw [List.length_take] at hfull ⊢
          omega
        · rename_i hsmall
          rw [List.length_take] at hsmall
          rw [List.take_of_length_le (by omega), List.take_of_length_le (by omega)]
      · intro x hx
        have hsub : ∀ y ∈ c.items.dropLast, y ∈ c.items :=
          fun y hy => (List.dropLast_sublist c.items).subset hy
        unfold LruCache.put at hx
        split at hx
        · rcases List.mem_cons.1 hx with rfl | hx
          · exact hs
          · exact hcons x (hsub x hx)
        · rcases List.mem_cons.1 hx with rfl | hx
          · exact hs
          · exact hcons x hx

/-- A sequence of `get_spectrum` calls keeps the invariant, the order of
recency being extended by the indices asked for. -/
theorem cacheInv_calls (input_map : List (PeakSpectrum α)) (max_size : Nat) (hcap : 1 ≤ max_size)
    (ids : List Int) :
    ∀ (accesses : List Int) (c c1 : LruCache (PeakSpectrum α)),
      CacheInv input_map max_size (recency accesses) c →
      get_spectrum_calls input_map c ids = Except.ok c1 →
      CacheInv input_map max_size (recency (accesses ++ ids)) c1 := by
  induction ids with
  | nil =>
    intro accesses c c1 hinv h
    simp only [get_spectrum_calls, Except.ok.injEq] at h
    subst h
    simpa using hinv
  | cons spectrum_id rest ih =>
    intro accesses c c1 hinv h
    unfold get_spectrum_calls at h
    split at h
    · cases h
    · rename_i r hr
      have hstep := (cacheInv_step input_map max_size hcap (recency accesses)
        (recency_nodup accesses) c hinv spectrum_id r hr).2
      rw [← recency_snoc] at hstep
      have := ih (accesses ++ [spectrum_id]) r.2 c1 hstep h
      simpa using this

end engine

section engine

variable {α : Type}

theorem evicted_by_eq {V : Type} (before after : LruCache V) :
    evicted_by before after = before.keys.filter (fun k => decide (k ∉ after.keys)) := by
  unfold evicted_by
  congr 1
  funext k
  by_cases h : k ∈ after.keys
  · simp [h, (after.exists_iff k).2 h]
  · have : after.exists k = false := by
      cases hx : after.exists k with
      | false => rfl
      | true => exact absurd ((after.exists_iff k).1 hx) h
    simp [h, this]

theorem evicted_by_of_subset {V : Type} (before after : LruCache V)
    (h : ∀ k ∈ before.keys, k ∈ after.keys) : evicted_by before after = [] := by
  rw [evicted_by_eq, List.filter_eq_nil_iff]
  intro k hk
  simpa using h k hk

/-- What one `get_spectrum` call evicts: nothing on a hit, nothing on a miss
while the cache holds fewer entries than its capacity, and the last entry in
the order of recency on a miss with the cache at capacity. -/
theorem evicted_by_get_spectrum (input_map : List (PeakSpectrum α)) (max_size : Nat)
    (hcap : 1 ≤ max_size) (order : List Int) (hnd : order.Nodup) (c : LruCache (PeakSpectrum α))
    (hinv : CacheInv input_map max_size order c) (spectrum_id : Int)
    (r : PeakSpectrum α × LruCache (PeakSpectrum α))
    (h : get_spectrum input_map c spectrum_id = Except.ok r) :
    (c.exists spectrum_id = true → evicted_by c r.2 = []) ∧
    (c.keys.length < max_size → evicted_by c r.2 = []) ∧
    (c.exists spectrum_id = false → c.keys.length = max_size →
      evicted_by c r.2 = c.keys.getLast?.toList ∧
      c.keys.getLast? = order[max_size - 1]?) := by
  obtain ⟨_, hmax1, hkeys1, _⟩ :=
    cacheInv_step input_map max_size hcap order hnd c hinv spectrum_id r h
  obtain ⟨hmax, hkeys, _⟩ := hinv
  have hknd : c.keys.Nodup := by
    rw [hkeys]
    exact hnd.sublist (List.take_sublist _ _)
  obtain ⟨m, rfl⟩ : ∃ m, max_size = m + 1 := ⟨max_size - 1, by omega⟩
  rw [List.take_succ_cons] at hkeys1
  have hhit : c.exists spectrum_id = true → evicted_by c r.2 = [] := by
    intro hex
    have hmem : spectrum_id ∈ order.take (m + 1) := by
      rw [← hkeys]
      exact (c.exists_iff spectrum_id).1 hex
    apply evicted_by_of_subset
    intro k hk
    have herase := erase_take_of_mem spectrum_id (m + 1) order hmem
    rw [Nat.add_sub_cancel] at herase
    rw [hkeys1, ← herase, ← hkeys]
    by_cases hks : k = spectrum_id
    · exact hks ▸ List.mem_cons_self _ _
    · exact List.mem_cons_of_mem _ ((List.mem_erase_of_ne hks).2 hk)
  have htake : c.exists spectrum_id = false →
      (order.erase spectrum_id).take m = order.take m := by
    intro hex
    have hnot : spectrum_id ∉ order.take (m + 1) := by
      rw [← hkeys]
      intro hin
      rw [(c.exists_iff spectrum_id).2 hin] at hex
      cases hex
    have h1 := take_erase_of_not_mem spectrum_id (m + 1) order hnot
    have h2 := congrArg (List.take m) h1
    rwa [List.take_take, List.take_take, Nat.min_eq_left (Nat.le_succ m)] at h2
  refine ⟨hhit, ?_, ?_⟩
  · intro hlen
    cases hex : c.exists spectrum_id with
    | true => exact hhit hex
    | false =>
      apply evicted_by_of_subset
      intro k hk
      rw [hkeys1, htake hex]
      rw [hkeys, List.length_take] at hlen
      rw [hkeys, List.take_of_length_le (by omega)] at hk
      rw [List.take_of_length_le (by omega)]
      exact List.mem_cons_of_mem _ hk
  · intro hex hlen
    rw [hkeys, List.length_take] at hlen
    have hlen2 : m + 1 ≤ order.length := by omega
    have hsplit : order.take (m + 1) = order.take m ++ [order[m]] := by
      rw [List.take_succ, List.getElem?_eq_getElem (by omega)]
      rfl
    have hlast : c.keys.getLast? = some order[m] := by
      rw [hkeys, hsplit, List.getLast?_append]
      rfl
    refine ⟨?_, ?_⟩
    · rw [hlast, evicted_by_eq, hkeys1, htake hex, hkeys, hsplit, List.filter_append]
      have hnd2 : (order.take m ++ [order[m]]).Nodup := by
        rw [← hsplit]
        exact hnd.sublist (List.take_sublist _ _)
      have hnotin : order[m] ∉ order.take m := by
        intro hin
        exact (List.nodup_append.1 hnd2).2.2 hin (List.mem_singleton_self _)
      have hne : order[m] ≠ spectrum_id := by
        intro heq
        have : spectrum_id ∈ c.keys := by
          rw [hkeys, hsplit, ← heq]
          exact List.mem_append_right _ (List.mem_singleton_self _)
        rw [(c.exists_iff spectrum_id).2 this] at hex
        cases hex
      have h1 : (order.take m).filter (fun k => decide (k ∉ spectrum_id :: order.take m)) = [] := by
        rw [List.filter_eq_nil_iff]
        intro k hk
        simp [hk]
      have h2 : [order[m]].filter (fun k => decide (k ∉ spectrum_id :: order.take m))
          = [order[m]] := by
        simp [hne, hnotin]
      rw [h1, h2]
      rfl
    · rw [hlast, Nat.add_sub_cancel, List.getElem?_eq_getElem (by omega)]

end engine

/-- Claim C14, as amended. For any sequence of `get_spectrum` calls from the
empty cache (of capacity `max_size >= 1`; `CACHE_SIZE` is `30`) the cache holds
the `max_size` most recently used indices, in the order of recency.  A call
evicts an entry only when it inserts a missing index into a cache that holds
`max_size` entries, and it then evicts exactly the least recently used one.
With capacity `2` the access sequence `1, 2, 3, 1` evicts `1` when `3` is
inserted and `2` when `1` is inserted again, and leaves `1` and `3` cached. -/
theorem get_spectrum_evicts_least_recently_used {α : Type} (input_map : List (PeakSpectrum α))
    (max_size : Nat) (hcap : 1 ≤ max_size) (ids : List Int) (cache : LruCache (PeakSpectrum α))
    (hreach : get_spectrum_calls input_map (LruCache.empty (PeakSpectrum α) max_size) ids
      = Except.ok cache)
    (spectrum_id : Int) (r : PeakSpectrum α × LruCache (PeakSpectrum α))
    (hcall : get_spectrum input_map cache spectrum_id = Except.ok r) :
    CACHE_SIZE = 30 ∧
    cache.keys = (recency ids).take max_size ∧
    r.2.keys = (recency (ids ++ [spectrum_id])).take max_size ∧
    (evicted_by cache r.2 ≠ [] →
      cache.exists spectrum_id = false ∧ cache.keys.length = max_size) ∧
    (cache.exists spectrum_id = false → cache.keys.length = max_size →
      evicted_by cache r.2 = cache.keys.getLast?.toList ∧
      cache.keys.getLast? = (recency ids)[max_size - 1]?) ∧
    evictions store_of_four (LruCache.empty (PeakSpectrum ℚ) 2) [1, 2, 3, 1] = [1, 2] ∧
    get_spectrum_calls store_of_four (LruCache.empty (PeakSpectrum ℚ) 2) [1, 2, 3, 1]
      = Except.ok cache_after_1_2_3_1 := by
  have hinv : CacheInv input_map max_size (recency ids) cache := by
    have := cacheInv_calls input_map max_size hcap ids [] _ cache
      (cacheInv_empty input_map max_size) hreach
    simpa using this
  have hstep := cacheInv_step input_map max_size hcap (recency ids) (recency_nodup ids) cache
    hinv spectrum_id r hcall
  obtain ⟨hhit, hsmall, hfull⟩ := evicted_by_get_spectrum input_map max_size hcap (recency ids)
    (recency_nodup ids) cache hinv spectrum_id r hcall
  have hle : cache.keys.length ≤ max_size := by
    rw [hinv.2.1, List.length_take]
    exact Nat.min_le_left _ _
  refine ⟨rfl, hinv.2.1, ?_, ?_, hfull, by decide, rfl⟩
  · rw [recency_snoc]
    exact hstep.2.2.1
  · intro hne
    constructor
    · cases hex : cache.exists spectrum_id with
      | false => rfl
      | true => exact absurd (hhit hex) hne
    · by_contra hlen
      exact hne (hsmall (by omega))

/-- Witness for C14: the fourth call of the sequence `1, 2, 3, 1` at capacity
`2`. -/
theorem get_spectrum_evicts_least_recently_used_witness :
    evicted_by cache_after_1_2_3 cache_after_1_2_3_1 = [2] ∧
    cache_after_1_2_3_1.keys = [1, 3] :=
  have h := get_spectrum_evicts_least_recently_used store_of_four 2 (by decide) [1, 2, 3]
    cache_after_1_2_3 rfl 1 ([⟨101.0, 1.0⟩], cache_after_1_2_3_1) rfl
  ⟨(h.2.2.2.2.1 (by decide) (by decide)).1, by decide⟩

/-- Counterexample to C14 as stated: at capacity `2`, the third call of the
access sequence `1, 2, 3, 1` evicts index `1`. -/
theorem access_1_2_3_1_evicts_1 :
    get_spectrum_calls store_of_four (LruCache.empty (PeakSpectrum ℚ) 2) [1, 2]
      = Except.ok { max_size := 2, items := [(2, [⟨102.0, 1.0⟩]), (1, [⟨101.0, 1.0⟩])] } ∧
    get_spectrum store_of_four
        { max_size := 2, items := [(2, [⟨102.0, 1.0⟩]), (1, [⟨101.0, 1.0⟩])] } 3
      = Except.ok ([⟨103.0, 1.0⟩], cache_after_1_2_3) ∧
    evicted_by { max_size := 2, items := [(2, ([⟨102.0, 1.0⟩] : PeakSpectrum ℚ)),
        (1, [⟨101.0, 1.0⟩])] } cache_after_1_2_3 = [1] ∧
    1 ∈ evictions store_of_four (LruCache.empty (PeakSpectrum ℚ) 2) [1, 2, 3, 1] :=
  ⟨rfl, rfl, by decide, by decide⟩

/-- Claim C15. In every cache state reached from the empty cache by
`get_spectrum` calls, every entry holds the spectrum the store has for its
index, and for every index `i` in `[0, N)` the call `get_spectrum(i)` hands
back the store's spectrum `i`, on a hit as on a miss. -/
theorem get_spectrum_is_transparent {α : Type} (input_map : List (PeakSpectrum α))
    (max_size : Nat) (hcap : 1 ≤ max_size) (ids : List Int) (cache : LruCache (PeakSpectrum α))
    (hreach : get_spectrum_calls input_map (LruCache.empty (PeakSpectrum α) max_size) ids
      = Except.ok cache) :
    (∀ e ∈ cache.items, getSpectrum input_map e.1 = Except.ok e.2) ∧
    ∀ i : Int, 0 ≤ i → i < (input_map.length : Int) →
      ∃ spectrum after, input_map[i.toNat]? = some spectrum ∧
        getSpectrum input_map i = Except.ok spectrum ∧
        get_spectrum input_map cache i = Except.ok (spectrum, after) ∧
        (cache.exists i = true → (i, spectrum) ∈ cache.items) := by
  have hinv : CacheInv input_map max_size (recency ids) cache := by
    have := cacheInv_calls input_map max_size hcap ids [] _ cache
      (cacheInv_empty input_map max_size) hreach
    simpa using this
  refine ⟨hinv.2.2, ?_⟩
  intro i h0 hN
  obtain ⟨spectrum, hsp, hget⟩ := getSpectrum_in_range input_map i ⟨h0, hN⟩
  cases hex : cache.exists i with
  | true =>
    obtain ⟨e, he, hk, hcall⟩ := get_spectrum_of_hit input_map cache i hex
    have hes : e.2 = spectrum := by
      have h1 := hinv.2.2 e he
      rw [hk, hget] at h1
      cases h1
      rfl
    subst hes
    refine ⟨e.2, _, hsp, hget, hcall, ?_⟩
    intro _
    have : e = (i, e.2) := Prod.ext hk rfl
    rw [← this]
    exact he
  | false =>
    refine ⟨spectrum, _, hsp, hget, get_spectrum_of_miss input_map cache i hex spectrum hget, ?_⟩
    intro h
    cases h

/-- Witness for C15: the cache of capacity `2` after the calls `1, 2, 3, 1` on
`store_of_four`; `get_spectrum(3)` is a hit and `get_spectrum(0)` a miss. -/
theorem get_spectrum_is_transparent_witness :
    get_spectrum_calls store_of_four (LruCache.empty (PeakSpectrum ℚ) 2) [1, 2, 3, 1]
      = Except.ok cache_after_1_2_3_1 ∧
    cache_after_1_2_3_1.exists 3 = true ∧ cache_after_1_2_3_1.exists 0 = false ∧
    (∃ after, get_spectrum store_of_four cache_after_1_2_3_1 3
      = Except.ok ([⟨103.0, 1.0⟩], after)) ∧
    ∃ after, get_spectrum store_of_four cache_after_1_2_3_1 0
      = Except.ok ([⟨100.0, 1.0⟩], after) := by
  have h := (get_spectrum_is_transparent store_of_four 2 (by decide) [1, 2, 3, 1]
    cache_after_1_2_3_1 rfl).2
  refine ⟨rfl, by decide, by decide, ?_, ?_⟩
  · obtain ⟨spectrum, after, hsp, _, hcall, _⟩ := h 3 (by decide) (by decide)
    have : spectrum = [⟨103.0, 1.0⟩] := by
      have h2 : store_of_four[(3 : Int).toNat]? = some [⟨103.0, 1.0⟩] := rfl
      rw [h2] at hsp
      cases hsp
      rfl
    exact ⟨after, this ▸ hcall⟩
  · obtain ⟨spectrum, after, hsp, _, hcall, _⟩ := h 0 (by decide) (by decide)
    have : spectrum = [⟨100.0, 1.0⟩] := by
      have h2 : store_of_four[(0 : Int).toNat]? = some [⟨100.0, 1.0⟩] := rfl
      rw [h2] at hsp
      cases hsp
      rfl
    exact ⟨after, this ▸ hcall⟩

/-! ## Theorems: the body of the worker loop -/

section engine

variable {α : Type}

/-- The peaks after the first `size` passes of the loop at score.cpp 160-164:
peak `i` has the intensity `score[i]` when `i < size`, and is untouched
otherwise. -/
theorem getElem?_set_intensities (score : List (Dbl α)) (junk_score : Dbl α)
    (output_spectrum : PeakSpectrum α) (size : Nat) :
    ∀ i : Nat, (set_intensities score junk_score size output_spectrum)[i]?
      = (output_spectrum[i]?).map (fun peak =>
          if i < size then peak.setIntensity (score_at score junk_score i) else peak) := by
  induction size with
  | zero =>
    intro i
    simp [set_intensities]
  | succ n ih =>
    intro i
    have hstep : set_intensities score junk_score (n + 1) output_spectrum
        = match (set_intensities score junk_score n output_spectrum)[n]? with
          | some peak => (set_intensities score junk_score n output_spectrum).set n
              (peak.setIntensity (score_at score junk_score n))
          | none => set_intensities score junk_score n output_spectrum := by
      unfold set_intensities
      rw [List.range_succ, List.foldl_append]
      rfl
    rw [hstep]
    have ihn := ih n
    cases hn : output_spectrum[n]? with
    | none =>
      rw [hn] at ihn
      simp only [Option.map_none'] at ihn
      simp only [ihn, ih i]
      by_cases hi : i = n
      · subst hi
        simp [hn]
      · have hlt : (i < n + 1) = (i < n) := by
          apply propext
          omega
        simp only [hlt]
    | some peak =>
      rw [hn] at ihn
      simp only [Option.map_some', lt_self_iff_false, if_false] at ihn
      simp only [ihn]
      by_cases hi : i = n
      · subst hi
        have hlen : i < (set_intensities score junk_score i output_spectrum).length := by
          by_contra hge
          rw [List.getElem?_eq_none (by omega)] at ihn
          cases ihn
        rw [List.getElem?_set_self hlen]
        simp [hn]
      · rw [List.getElem?_set_ne (fun h => hi h.symm), ih i]
        have hlt : (i < n + 1) = (i < n) := by
          apply propext
          omega
        simp only [hlt]

theorem isSorted_of_mz_eq [LinearOrderedField α] :
    ∀ (s t : PeakSpectrum α), s.map Peak1D.mz = t.map Peak1D.mz → isSorted s = isSorted t
  | [], [], _ => rfl
  | [], _ :: _, h => by simp at h
  | _ :: _, [], h => by simp at h
  | [_], [_], _ => rfl
  | [_], _ :: _ :: _, h => by simp at h
  | _ :: _ :: _, [_], h => by simp at h
  | p :: q :: s, p1 :: q1 :: t, h => by
    simp only [List.map_cons, List.cons.injEq] at h
    have ih := isSorted_of_mz_eq (q :: s) (q1 :: t) (by simp [h.2.1, h.2.2])
    simp only [isSorted, h.1, h.2.1, ih]

end engine

section engine

variable {α : Type}

/-- With the cache invariant, `get_spectrum` answers every index in `[0, N)`
with the spectrum of the store. -/
theorem get_spectrum_of_inv (input_map : List (PeakSpectrum α)) (max_size : Nat)
    (order : List Int) (c : LruCache (PeakSpectrum α))
    (hinv : CacheInv input_map max_size order c) (i : Int)
    (hi : 0 ≤ i ∧ i < (input_map.length : Int)) :
    ∃ spectrum after, input_map[i.toNat]? = some spectrum ∧
      getSpectrum input_map i = Except.ok spectrum ∧
      get_spectrum input_map c i = Except.ok (spectrum, after) := by
  obtain ⟨spectrum, hsp, hget⟩ := getSpectrum_in_range input_map i hi
  cases hex : c.exists i with
  | true =>
    obtain ⟨e, he, hk, hcall⟩ := get_spectrum_of_hit input_map c i hex
    have hes : e.2 = spectrum := by
      have h1 := hinv.2.2 e he
      rw [hk, hget] at h1
      cases h1
      rfl
    subst hes
    exact ⟨e.2, _, hsp, hget, hcall⟩
  | false =>
    exact ⟨spectrum, _, hsp, hget, get_spectrum_of_miss input_map c i hex spectrum hget⟩

/-- Claim C11. For every index in `[0, N)` and every state of the input cache
reached by `get_spectrum` calls, the spectrum that the body of the worker
loop passes to `put_spectrum` has as many peaks as the input spectrum of
that index, the same m/z at every position (so it is sorted when the input
is), and the intensity `score[i]` at position `i`; the cache entry of the
index still holds the input spectrum, as every entry holds the spectrum of
the store. -/
theorem scored_copy_preserves_mz [LinearOrderedField α] (input_map : List (PeakSpectrum α))
    (max_size : Nat) (hcap : 1 ≤ max_size) (ids : List Int) (cache : LruCache (PeakSpectrum α))
    (hreach : get_spectrum_calls input_map (LruCache.empty (PeakSpectrum α) max_size) ids
      = Except.ok cache)
    (this_spectrum_id : Int)
    (hid : 0 ≤ this_spectrum_id ∧ this_spectrum_id < (input_map.length : Int))
    (score : List (Dbl α)) (junk_score : Dbl α) :
    ∃ input_spectrum output_spectrum cache1,
      input_map[this_spectrum_id.toNat]? = some input_spectrum ∧
      score_worker_body input_map cache this_spectrum_id score junk_score
        = Except.ok ((this_spectrum_id, output_spectrum), cache1) ∧
      output_spectrum.length = input_spectrum.length ∧
      (∀ i : Nat, (output_spectrum[i]?).map Peak1D.mz = (input_spectrum[i]?).map Peak1D.mz) ∧
      isSorted output_spectrum = isSorted input_spectrum ∧
      (∀ i : Nat, i < input_spectrum.length →
        (output_spectrum[i]?).map Peak1D.intensity = some (score_at score junk_score i)) ∧
      (∀ i : Nat, i < score.length → score[i]? = some (score_at score junk_score i)) ∧
      (this_spectrum_id, input_spectrum) ∈ cache1.items ∧
      ∀ e ∈ cache1.items, getSpectrum input_map e.1 = Except.ok e.2 := by
  have hinv : CacheInv input_map max_size (recency ids) cache := by
    have := cacheInv_calls input_map max_size hcap ids [] _ cache
      (cacheInv_empty input_map max_size) hreach
    simpa using this
  obtain ⟨input_spectrum, cache1, hsp, hget, hcall⟩ :=
    get_spectrum_of_inv input_map max_size (recency ids) cache hinv this_spectrum_id hid
  obtain ⟨_, _, hkeys1, hcons1⟩ := cacheInv_step input_map max_size hcap (recency ids)
    (recency_nodup ids) cache hinv this_spectrum_id _ hcall
  have hout := getElem?_set_intensities score junk_score input_spectrum input_spectrum.length
  have hlen : (set_intensities score junk_score input_spectrum.length input_spectrum).length
      = input_spectrum.length := by
    apply le_antisymm
    · by_contra hgt
      have h1 := hout input_spectrum.length
      rw [List.getElem?_eq_none (le_refl _), Option.map_none'] at h1
      rw [List.getElem?_eq_none_iff] at h1
      omega
    · by_contra hlt
      obtain ⟨n, hn⟩ : ∃ n, n = (set_intensities score junk_score input_spectrum.length
          input_spectrum).length := ⟨_, rfl⟩
      have h1 := hout n
      rw [List.getElem?_eq_none (by omega), List.getElem?_eq_getElem (by omega)] at h1
      cases h1
  have hmz : ∀ i : Nat,
      ((set_intensities score junk_score input_spectrum.length input_spectrum)[i]?).map Peak1D.mz
        = (input_spectrum[i]?).map Peak1D.mz := by
    intro i
    rw [hout i]
    cases input_spectrum[i]? with
    | none => rfl
    | some peak =>
      simp only [Option.map_some']
      split <;> rfl
  refine ⟨input_spectrum, set_intensities score junk_score input_spectrum.length input_spectrum,
    cache1, hsp, ?_, hlen, hmz, ?_, ?_, ?_, ?_, hcons1⟩
  · unfold score_worker_body
    simp only [hcall]
  · apply isSorted_of_mz_eq
    apply List.ext_getElem?
    intro i
    rw [List.getElem?_map, List.getElem?_map]
    exact hmz i
  · intro i hi
    rw [hout i, List.getElem?_eq_getElem hi]
    simp [hi, Peak1D.setIntensity]
  · intro i hi
    rw [List.getElem?_eq_getElem hi]
    simp [score_at, List.getD, List.getElem?_eq_getElem hi]
  · have hmem : this_spectrum_id ∈ cache1.keys := by
      rw [hkeys1]
      obtain ⟨m, rfl⟩ : ∃ m, max_size = m + 1 := ⟨max_size - 1, by omega⟩
      rw [List.take_succ_cons]
      exact List.mem_cons_self _ _
    obtain ⟨e, he, hk⟩ := List.mem_map.1 hmem
    have h1 := hcons1 e he
    rw [hk, hget] at h1
    have : e = (this_spectrum_id, input_spectrum) := by
      cases h1
      exact Prod.ext hk rfl
    rw [← this]
    exact he

end engine

/-- Witness for C11: index `3` of `store_of_four`, with the cache left by the
calls `1, 2, 3, 1` and a score vector of one entry. -/
theorem scored_copy_preserves_mz_witness :
    ((0 : Int) ≤ 3 ∧ (3 : Int) < (store_of_four.length : Int)) ∧
    ∃ input_spectrum output_spectrum cache1,
      store_of_four[(3 : Int).toNat]? = some input_spectrum ∧
      score_worker_body store_of_four cache_after_1_2_3_1 3 [5.0] 0
        = Except.ok ((3, output_spectrum), cache1) ∧
      output_spectrum.length = input_spectrum.length ∧
      (∀ i : Nat, (output_spectrum[i]?).map Peak1D.mz = (input_spectrum[i]?).map Peak1D.mz) ∧
      isSorted output_spectrum = isSorted input_spectrum ∧
      (∀ i : Nat, i < input_spectrum.length →
        (output_spectrum[i]?).map Peak1D.intensity = some (score_at [5.0] 0 i)) ∧
      (∀ i : Nat, i < [(5.0 : Dbl ℚ)].length →
        [(5.0 : Dbl ℚ)][i]? = some (score_at [5.0] 0 i)) ∧
      ((3 : Int), input_spectrum) ∈ cache1.items ∧
      ∀ e ∈ cache1.items, getSpectrum store_of_four e.1 = Except.ok e.2 :=
  ⟨by decide,
    scored_copy_preserves_mz store_of_four 2 (by decide) [1, 2, 3, 1] cache_after_1_2_3_1 rfl 3
      (by decide) [5.0] 0⟩

/-! ## Theorems: no fetch outside the store -/

section engine

variable {α : Type} [LinearOrderedField α]

/-- The body of the row loop fails only with "Spectrum not sorted". -/
theorem scan_row_error (L : Libm α) (sc : Scorer α) (junk : Peak1D α) (centre_idx : Int)
    (centre0 : Dbl α) (st : RowState α) (rowi : Int) (e : Fault)
    (h : scan_row L sc junk centre_idx centre0 st rowi = Except.error e) :
    e = Fault.runtime_error "Spectrum not sorted" := by
  by_cases hu : row_unsorted sc rowi
  · rw [scan_row_of_unsorted L sc junk centre_idx centre0 st rowi hu] at h
    cases h
    rfl
  · obtain ⟨st1, hst1⟩ := scan_row_of_not_unsorted L sc junk centre_idx centre0 st rowi hu
    rw [hst1] at h
    cases h

theorem scan_rows_error (L : Libm α) (sc : Scorer α) (junk : Peak1D α) (centre_idx : Int)
    (centre0 : Dbl α) (rows : List Int) :
    ∀ (st : RowState α) (e : Fault),
      scan_rows L sc junk centre_idx centre0 st rows = Except.error e →
      e = Fault.runtime_error "Spectrum not sorted" := by
  induction rows with
  | nil =>
    intro st e h
    simp [scan_rows] at h
  | cons r rows ih =>
    intro st e h
    unfold scan_rows at h
    split at h
    · rename_i e1 he1
      cases h
      exact scan_row_error L sc junk centre_idx centre0 st r _ he1
    · exact ih _ e h

theorem score_points_error (L : Libm α) (sc : Scorer α) (junk : Peak1D α) (centre_idx : Int)
    (peaks : List (Peak1D α)) :
    ∀ (acc : Samples α) (e : Fault),
      score_points L sc junk centre_idx acc peaks = Except.error e →
      e = Fault.runtime_error "Spectrum not sorted" := by
  induction peaks with
  | nil =>
    intro acc e h
    simp [score_points] at h
  | cons it rest ih =>
    intro acc e h
    unfold score_points at h
    split at h
    · rename_i e1 he1
      cases h
      unfold score_point at he1
      simp only [] at he1
      split at he1
      · rename_i e2 he2
        cases he1
        exact scan_rows_error L sc junk centre_idx it.mz _ _ _ he2
      · cases he1
    · split at h
      · rename_i e1 he1
        cases h
        exact ih _ _ he1
      · cases h

/-- A row outside `[0, N)` is skipped: the body of the row loop leaves the
sample lists, `centre` and `sigma` as they are. -/
theorem scan_row_of_out_of_range (L : Libm α) (sc : Scorer α) (junk : Peak1D α)
    (centre_idx : Int) (centre0 : Dbl α) (st : RowState α) (rowi : Int)
    (h : ¬ (0 ≤ rowi ∧ rowi < (sc.input_map.length : Int))) :
    scan_row L sc junk centre_idx centre0 st rowi = Except.ok st := by
  unfold scan_row
  simp only [if_neg h]

/-- Claim C13. Every index that a worker holds in its loop body, and every index
whose loop body has run, is in `[0, num_spectra)`.  For every centre index
in `[0, N)`, `score_spectra` never asks the store for a spectrum outside
`[0, N)`: the only failure it can end with is "Spectrum not sorted"; a row of
the window outside `[0, N)` is skipped and leaves the sample lists as they
are, and for a row inside `[0, N)` the store has a spectrum. -/
theorem no_out_of_range_fetch (L : Libm α) (sc : Scorer α) (junk : Peak1D α) (T : Nat)
    (schedule : List Nat) (centre_idx : Int)
    (hc : 0 ≤ centre_idx ∧ centre_idx < (sc.input_map.length : Int)) :
    (∀ entry ∈ (run_pool (sc.input_map.length : Int) (Pool.init T) schedule).processed,
      0 ≤ entry.2 ∧ entry.2 < (sc.input_map.length : Int)) ∧
    (∀ i : Int,
      WorkerPc.body i ∈ (run_pool (sc.input_map.length : Int) (Pool.init T) schedule).workers →
      0 ≤ i ∧ i < (sc.input_map.length : Int)) ∧
    (∀ e : Fault, score_spectra L sc junk centre_idx = Except.error e →
      e = Fault.runtime_error "Spectrum not sorted") ∧
    (∀ spectrum_id : Int,
      score_spectra L sc junk centre_idx ≠ Except.error (Fault.out_of_range spectrum_id)) ∧
    (∀ (centre0 : Dbl α) (st : RowState α) (rowi : Int),
      ¬ (0 ≤ rowi ∧ rowi < (sc.input_map.length : Int)) →
      scan_row L sc junk centre_idx centre0 st rowi = Except.ok st) ∧
    (∀ rowi : Int, 0 ≤ rowi ∧ rowi < (sc.input_map.length : Int) →
      ∃ spectrum, getSpectrum sc.input_map rowi = Except.ok spectrum) := by
  obtain ⟨c, _, hperm, _⟩ := poolInv_run sc.input_map.length schedule (Pool.init T)
    (poolInv_init sc.input_map.length T)
  have hrange : ∀ i ∈ (run_pool (sc.input_map.length : Int) (Pool.init T) schedule).processed.map
      Prod.snd ++ in_flight (run_pool (sc.input_map.length : Int) (Pool.init T) schedule).workers,
      0 ≤ i ∧ i < (sc.input_map.length : Int) := by
    intro i hi
    have h1 := mem_first_indices.1 (hperm.subset hi)
    have h2 : min c sc.input_map.length ≤ sc.input_map.length := Nat.min_le_right _ _
    exact ⟨h1.1, lt_of_lt_of_le h1.2 (by exact_mod_cast h2)⟩
  have herr : ∀ e : Fault, score_spectra L sc junk centre_idx = Except.error e →
      e = Fault.runtime_error "Spectrum not sorted" := by
    intro e h
    obtain ⟨crp, _, hget⟩ := getSpectrum_in_range sc.input_map centre_idx hc
    unfold score_spectra at h
    simp only [hget] at h
    split at h
    · rename_i e1 he1
      cases h
      exact score_points_error L sc junk centre_idx crp _ _ he1
    · cases h
  refine ⟨?_, ?_, herr, ?_, ?_, ?_⟩
  · intro entry hentry
    exact hrange entry.2 (List.mem_append_left _ (List.mem_map.2 ⟨entry, hentry, rfl⟩))
  · intro i hi
    apply hrange i
    apply List.mem_append_right
    unfold in_flight
    rw [List.mem_flatten]
    exact ⟨[i], List.mem_map.2 ⟨WorkerPc.body i, hi, rfl⟩, List.mem_singleton_self i⟩
  · intro spectrum_id h
    have := herr _ h
    cases this
  · intro centre0 st rowi hrow
    exact scan_row_of_out_of_range L sc junk centre_idx centre0 st rowi hrow
  · intro rowi hrow
    obtain ⟨spectrum, _, hget⟩ := getSpectrum_in_range sc.input_map rowi hrow
    exact ⟨spectrum, hget⟩

end engine

/-- Witness for C13: two workers on `store_two_and_one`, and centre index
`0`. -/
theorem no_out_of_range_fetch_witness :
    ((0 : Int) ≤ 0 ∧ (0 : Int) < ((scorer_on store_two_and_one).input_map.length : Int)) ∧
    (run_pool ((scorer_on store_two_and_one).input_map.length : Int) (Pool.init 2)
      [0, 1, 0, 1, 0]).processed = [(0, 0)] ∧
    ∀ spectrum_id : Int,
      score_spectra libm_q (scorer_on store_two_and_one) junk_zero 0
        ≠ Except.error (Fault.out_of_range spectrum_id) :=
  ⟨by decide, by decide,
    (no_out_of_range_fetch libm_q (scorer_on store_two_and_one) junk_zero 2 [0, 1, 0, 1, 0] 0
      (by decide)).2.2.2.1⟩

/-! ## Theorems: the combined means -/

section engine

variable {α : Type} [LinearOrderedField α]

theorem foldl_add_replicate (x : α) :
    ∀ (n : Nat) (a : α),
      (List.replicate n (Dbl.fin x)).foldl (· + ·) (Dbl.fin a) = Dbl.fin (a + n * x)
  | 0, a => by simp
  | n + 1, a => by
    rw [List.replicate_succ, List.foldl_cons, Dbl.fin_add, foldl_add_replicate x n (a + x)]
    congr 1
    push_cast
    ring

/-- The mean of `n > 0` equal samples is the sample. -/
theorem mean_vector_replicate (n : Nat) (hn : 0 < n) (x : α) :
    (vector_h : VectorLib α).mean_vector (List.replicate n (Dbl.fin x)) = Dbl.fin x := by
  have hne : (n : α) ≠ 0 := Nat.cast_ne_zero.2 (Nat.pos_iff_ne_zero.1 hn)
  show (List.replicate n (Dbl.fin x)).foldl (· + ·) 0 / Dbl.ofNat (List.replicate n (Dbl.fin x)).length
    = Dbl.fin x
  rw [Dbl.lit_zero, foldl_add_replicate, List.length_replicate]
  show Dbl.fin (0 + n * x) / Dbl.fin (n : α) = Dbl.fin x
  rw [Dbl.fin_div _ _ hne]
  congr 1
  field_simp

/-- Claim C12. The combined means `EXab` and `EYab` are the arithmetic mean of the
two regional means.  They do not depend on the sample counts: for `n` equal
samples `x` in the natural region and `m` equal samples `y` in the isotope
region the combined mean is `(x + y) / 2`, whatever `n` and `m`.  For the
regions `[10, 10, 10]` and `[0, 0]` the combined mean is `5`, while the pooled
mean is `6`. -/
theorem combined_mean_is_mean_of_means (s : Samples α) (n m : Nat) (hn : 0 < n) (hm : 0 < m)
    (x y : α) (shape_nat shape_iso : List (Dbl α)) :
    EXab vector_h s
      = ((vector_h : VectorLib α).mean_vector s.data_nat
          + (vector_h : VectorLib α).mean_vector s.data_iso) / 2 ∧
    EYab vector_h s
      = ((vector_h : VectorLib α).mean_vector s.shape_nat
          + (vector_h : VectorLib α).mean_vector s.shape_iso) / 2 ∧
    EXab vector_h
        { data_nat := List.replicate n (Dbl.fin x), data_iso := List.replicate m (Dbl.fin y),
          shape_nat := shape_nat, shape_iso := shape_iso }
      = Dbl.fin ((x + y) / 2) ∧
    EXab vector_h
        { data_nat := [10, 10, 10], data_iso := [0, 0],
          shape_nat := shape_nat, shape_iso := shape_iso }
      = (5 : Dbl α) ∧
    pooled_mean [10, 10, 10] [0, 0] = (6 : Dbl α) ∧
    (5 : Dbl α) ≠ 6 := by
  have h2 : (2 : α) ≠ 0 := two_ne_zero
  have hrep : EXab vector_h
        { data_nat := List.replicate n (Dbl.fin x), data_iso := List.replicate m (Dbl.fin y),
          shape_nat := shape_nat, shape_iso := shape_iso }
      = Dbl.fin ((x + y) / 2) := by
    show ((vector_h : VectorLib α).mean_vector (List.replicate n (Dbl.fin x))
      + (vector_h : VectorLib α).mean_vector (List.replicate m (Dbl.fin y))) / 2 = _
    rw [mean_vector_replicate n hn, mean_vector_replicate m hm, Dbl.fin_add, Dbl.lit_ofNat,
      Dbl.fin_div _ _ h2]
  refine ⟨rfl, rfl, hrep, ?_, ?_, ?_⟩
  · show ((vector_h : VectorLib α).mean_vector [10, 10, 10]
      + (vector_h : VectorLib α).mean_vector [0, 0]) / 2 = _
    have h10 : (vector_h : VectorLib α).mean_vector [10, 10, 10] = Dbl.fin 10 := by
      have := mean_vector_replicate 3 (by decide) (10 : α)
      simpa [List.replicate] using this
    have h0 : (vector_h : VectorLib α).mean_vector [0, 0] = Dbl.fin 0 := by
      have := mean_vector_replicate 2 (by decide) (0 : α)
      simpa [List.replicate] using this
    rw [h10, h0, Dbl.fin_add, Dbl.lit_ofNat, Dbl.lit_ofNat, Dbl.fin_div _ _ h2]
    congr 1
    norm_num
  · show ([10, 10, 10] ++ [0, 0] : List (Dbl α)).foldl (· + ·) 0
      / Dbl.ofNat ([10, 10, 10] ++ [0, 0] : List (Dbl α)).length = _
    have h5 : ((5 : Nat) : α) ≠ 0 := by norm_num
    simp only [List.cons_append, List.nil_append, List.foldl_cons, List.foldl_nil, Dbl.lit_zero,
      Dbl.lit_ofNat, Dbl.fin_add, List.length_cons, List.length_nil, Dbl.ofNat]
    rw [Dbl.fin_div _ _ (by norm_num)]
    congr 1
    norm_num
  · rw [Dbl.lit_ofNat, Dbl.lit_ofNat]
    intro h
    have : (5 : α) = 6 := Dbl.fin.inj h
    norm_num at this

/-- Witness for C12: three samples `10` against two samples `0`, and one
against one. -/
theorem combined_mean_is_mean_of_means_witness :
    EXab vector_h
        { data_nat := List.replicate 3 (Dbl.fin (10 : ℚ)),
          data_iso := List.replicate 2 (Dbl.fin (0 : ℚ)), shape_nat := [], shape_iso := [] }
      = Dbl.fin ((10 + 0) / 2) ∧
    EXab vector_h
        { data_nat := List.replicate 1 (Dbl.fin (10 : ℚ)),
          data_iso := List.replicate 1 (Dbl.fin (0 : ℚ)), shape_nat := [], shape_iso := [] }
      = Dbl.fin ((10 + 0) / 2) :=
  ⟨(combined_mean_is_mean_of_means (Samples.empty ℚ) 3 2 (by decide) (by decide) 10 0 [] []).2.2.1,
    (combined_mean_is_mean_of_means (Samples.empty ℚ) 1 1 (by decide) (by decide) 10 0 [] []).2.2.1⟩

end engine

/-! ## Theorems: the retention-time kernel -/

section engine

variable {α : Type} [LinearOrderedField α]

/-- The source squares with `pt = -0.5 * pt * pt`, the specification with
`-0.5 * pt^2`: the same double in this arithmetic. -/
theorem Dbl.neg_half_mul_mul (pt : Dbl α) : (-0.5 : Dbl α) * pt * pt = -0.5 * (pt * pt) := by
  have hlit : (-0.5 : Dbl α) = Dbl.fin (-(1 / 2)) := by
    rw [Dbl.lit_0_5, Dbl.fin_neg]
  have hne : (-(1 / 2) : α) ≠ 0 := by norm_num
  have hnp : ¬ ((0 : α) < -(1 / 2)) := by norm_num
  have h1 : Dbl.inf_of_sign true (-(1 / 2) : α) = Dbl.ninf := by
    simp only [Dbl.inf_of_sign, if_neg hne, decide_eq_false hnp, Bool.false_eq_true, if_false]
  have h2 : Dbl.inf_of_sign false (-(1 / 2) : α) = Dbl.pinf := by
    simp only [Dbl.inf_of_sign, if_neg hne, decide_eq_false hnp, if_true]
  rw [hlit]
  cases pt with
  | nan => rfl
  | ninf =>
    show Dbl.mul (Dbl.inf_of_sign false (-(1 / 2))) Dbl.ninf = Dbl.inf_of_sign true (-(1 / 2))
    rw [h1, h2]
    rfl
  | pinf =>
    show Dbl.mul (Dbl.inf_of_sign true (-(1 / 2))) Dbl.pinf = Dbl.inf_of_sign true (-(1 / 2))
    rw [h1]
    rfl
  | fin x =>
    rw [Dbl.fin_mul, Dbl.fin_mul, Dbl.fin_mul, Dbl.fin_mul, mul_assoc]

/-- Claim C20. For `half_window >= 0`, `rt_shape` has `2 * half_window + 1`
entries, and for every `i` in `[0, 2 * half_window]` entry `i` is
`exp(-0.5 * ((i - half_window) / s)^2) / (s * root2pi)` with
`s = rt_width / std_dev_in_fwhm`, the retention-time width converted to a
sigma; the member `rt_sigma` is not used. -/
theorem rt_shape_is_the_kernel (L : Libm α) (sc : Scorer α) (hh : 0 ≤ sc.half_window) :
    ((rt_shape L sc).length : Int) = 2 * sc.half_window + 1 ∧
    (∀ i : Nat, (i : Int) ≤ 2 * sc.half_window →
      (rt_shape L sc)[i]?
        = some (rt_shape_spec L (sc.rt_width / Dbl.fin L.std_dev_in_fwhm) sc.half_window i)) ∧
    ∀ rt_sigma : Dbl α, rt_shape L { sc with rt_sigma := rt_sigma } = rt_shape L sc := by
  have hlen : (rt_shape L sc).length = (2 * sc.half_window + 1).toNat := by
    unfold rt_shape
    simp
  refine ⟨?_, ?_, fun _ => rfl⟩
  · rw [hlen]
    omega
  · intro i hi
    have hlt : i < (2 * sc.half_window + 1).toNat := by omega
    unfold rt_shape rt_shape_spec
    simp only [List.getElem?_map, List.getElem?_range hlt, Option.map_some',
      Dbl.neg_half_mul_mul]

end engine

/-- Witness for C20: the kernel of `scorer_on`, whose `half_window` is `1`, has
three entries. -/
theorem rt_shape_is_the_kernel_witness :
    (0 : Int) ≤ (scorer_on []).half_window ∧
    ((rt_shape libm_q (scorer_on [])).length : Int) = 3 :=
  ⟨by decide, (rt_shape_is_the_kernel libm_q (scorer_on []) (by decide)).1⟩

/-! ## Theorems: the centre of the m/z Gaussian -/

section engine

variable {α : Type} [LinearOrderedField α]

/-- The shape sample that the body of a matching loop appends for a peak inside
the bounds: the weight that the specification states, for the values that the
variables `centre` and `sigma` hold at that moment, times the row weight. -/
theorem collect_peak_of_match (L : Libm α) (rowi_spectrum : PeakSpectrum α) (junk : Peak1D α)
    (lower_bound upper_bound centre sigma rt_shape_row : Dbl α)
    (lists : List (Dbl α) × List (Dbl α)) (index : Nat)
    (h : ¬ ((peak_at rowi_spectrum junk index).mz < lower_bound ∨
      (peak_at rowi_spectrum junk index).mz > upper_bound)) :
    collect_peak L rowi_spectrum junk lower_bound upper_bound centre sigma rt_shape_row lists index
      = (lists.1 ++ [(peak_at rowi_spectrum junk index).intensity],
         lists.2 ++ [mz_weight_spec L centre sigma (peak_at rowi_spectrum junk index).mz
           * rt_shape_row]) := by
  unfold collect_peak mz_weight_spec
  simp only [if_neg h, Dbl.neg_half_mul_mul]

/-- Every row of the window that is inside the store and sorted moves the
variable `centre` on by `mz_delta` (score.cpp 329-330), for the rows after
it. -/
theorem scan_row_centre (L : Libm α) (sc : Scorer α) (junk : Peak1D α) (centre_idx : Int)
    (centre0 : Dbl α) (st st1 : RowState α) (rowi : Int)
    (hrow : 0 ≤ rowi ∧ rowi < (sc.input_map.length : Int))
    (h : scan_row L sc junk centre_idx centre0 st rowi = Except.ok st1) :
    st1.centre = st.centre + sc.mz_delta ∧
    st1.sigma = (st.centre + sc.mz_delta) * mz_ppm_sigma L sc := by
  unfold scan_row at h
  simp only [if_pos hrow] at h
  split at h
  · cases h
  · split at h
    · cases h
    · simp only [Except.ok.injEq] at h
      subst h
      exact ⟨rfl, rfl⟩

end engine

/-- Claim C17, which fails on the code. In `store_two_rows` with centre row `0` and
a window of one row on each side, the peak at m/z `100` of the centre row
matches the peak at m/z `100` of row `0` and of row `1`.  The shape sample of
row `0` has the weight of the specification, with centre `100`; the shape
sample of row `1` is computed with centre `100 + mz_delta` and sigma
`(100 + mz_delta) * mz_ppm_sigma`, the values left in `centre` and `sigma` by
row `0`, and is a different number.  The pass reads nothing past the end of a
spectrum, so this holds whatever peak `junk` stands there. -/
theorem centre_moves_from_row_to_row :
    (∀ junk : Peak1D ℚ,
      collected_for libm_q (scorer_on store_two_rows) junk 0 ⟨100.0, 1.0⟩
        = Except.ok
            { data_nat := [1.0, 1.0], data_iso := [],
              shape_nat :=
                [mz_weight_spec libm_q 100.0 (100.0 * mz_ppm_sigma libm_q (scorer_on store_two_rows))
                    100.0
                  * (rt_shape libm_q (scorer_on store_two_rows)).getD 1 Dbl.nan,
                 mz_weight_spec libm_q (100.0 + 6.0201)
                    ((100.0 + 6.0201) * mz_ppm_sigma libm_q (scorer_on store_two_rows)) 100.0
                  * (rt_shape libm_q (scorer_on store_two_rows)).getD 2 Dbl.nan],
              shape_iso := [] }) ∧
    mz_weight_spec libm_q (100.0 + 6.0201)
        ((100.0 + 6.0201) * mz_ppm_sigma libm_q (scorer_on store_two_rows)) 100.0
      ≠ mz_weight_spec libm_q 100.0 (100.0 * mz_ppm_sigma libm_q (scorer_on store_two_rows))
          100.0 ∧
    mz_weight_spec libm_q (100.0 + 6.0201)
        ((100.0 + 6.0201) * mz_ppm_sigma libm_q (scorer_on store_two_rows)) 100.0
        * (rt_shape libm_q (scorer_on store_two_rows)).getD 2 Dbl.nan
      ≠ mz_weight_spec libm_q 100.0 (100.0 * mz_ppm_sigma libm_q (scorer_on store_two_rows))
          100.0
        * (rt_shape libm_q (scorer_on store_two_rows)).getD 2 Dbl.nan := by
  refine ⟨?_, by decide!, by decide!⟩
  intro junk
  rw [collected_for_of_in_bounds libm_q _ junk junk_zero 0 _ (by decide!)]
  decide!

/-! ## Theorems: the matching loops -/

section engine

variable {α : Type} [LinearOrderedField α]

theorem MZBegin_le_length (spectrum : PeakSpectrum α) (mz : Dbl α) :
    MZBegin spectrum mz ≤ spectrum.length := by
  unfold MZBegin
  exact (List.takeWhile_sublist _).length_le

theorem MZBegin_of_all_lt (spectrum : PeakSpectrum α) (mz : Dbl α)
    (h : ∀ p ∈ spectrum, p.mz < mz) : MZBegin spectrum mz = spectrum.length := by
  unfold MZBegin
  rw [List.takeWhile_eq_self_iff.2]
  intro p hp
  simpa using h p hp

theorem mem_match_indices (lower_index upper_index index : Nat) :
    index ∈ match_indices lower_index upper_index ↔
      lower_index ≤ index ∧ index ≤ upper_index := by
  unfold match_indices
  split
  · rw [List.mem_map]
    constructor
    · rintro ⟨j, hj, rfl⟩
      have := List.mem_range.1 hj
      omega
    · rintro ⟨h1, h2⟩
      exact ⟨index - lower_index, List.mem_range.2 (by omega), by omega⟩
  · simp only [List.not_mem_nil, false_iff]
    omega

/-- Claim C19, which fails on the code. Whenever no peak of the row spectrum has
an m/z at or above the upper limit, which includes the empty row spectrum,
the position of the upper limit is the size of the spectrum, the matching
loop runs up to that index inclusive, and `(*rowi_spectrum)[index]` is read
one past the last peak. -/
theorem matching_loop_reads_past_the_end (rowi_spectrum : PeakSpectrum α)
    (lower_bound upper_bound : Dbl α) (h : ∀ p ∈ rowi_spectrum, p.mz < upper_bound) :
    MZBegin rowi_spectrum upper_bound = rowi_spectrum.length ∧
    rowi_spectrum.length
      ∈ match_indices (MZBegin rowi_spectrum lower_bound) (MZBegin rowi_spectrum upper_bound) ∧
    ¬ (∀ index ∈ match_indices (MZBegin rowi_spectrum lower_bound)
        (MZBegin rowi_spectrum upper_bound), index < rowi_spectrum.length) ∧
    region_in_bounds rowi_spectrum lower_bound upper_bound = false ∧
    ∀ junk : Peak1D α, peak_at rowi_spectrum junk rowi_spectrum.length = junk := by
  have hup := MZBegin_of_all_lt rowi_spectrum upper_bound h
  have hmem : rowi_spectrum.length
      ∈ match_indices (MZBegin rowi_spectrum lower_bound) (MZBegin rowi_spectrum upper_bound) := by
    rw [mem_match_indices, hup]
    exact ⟨MZBegin_le_length _ _, le_refl _⟩
  refine ⟨hup, hmem, fun hall => lt_irrefl _ (hall _ hmem), ?_, ?_⟩
  · unfold region_in_bounds
    rw [Bool.eq_false_iff]
    intro hall
    have := List.all_eq_true.1 hall _ hmem
    simp at this
  · intro junk
    simp [peak_at, List.getD]

end engine

/-- Witness for C19: in `store_one_peak` the pass for the only peak reads index
`1` of a spectrum of size `1`, and the peak found there is scored as a match
when its m/z lies in the region. -/
theorem matching_loop_reads_past_the_end_witness :
    (∀ p ∈ ([⟨100.0, 1.0⟩] : PeakSpectrum ℚ),
      p.mz < 100.0 * upper_tol libm_q (scorer_on store_one_peak)) ∧
    match_indices
        (MZBegin ([⟨100.0, 1.0⟩] : PeakSpectrum ℚ)
          (100.0 * lower_tol libm_q (scorer_on store_one_peak)))
        (MZBegin ([⟨100.0, 1.0⟩] : PeakSpectrum ℚ)
          (100.0 * upper_tol libm_q (scorer_on store_one_peak)))
      = [0, 1] ∧
    (1 : Nat) ∈ match_indices
        (MZBegin ([⟨100.0, 1.0⟩] : PeakSpectrum ℚ)
          (100.0 * lower_tol libm_q (scorer_on store_one_peak)))
        (MZBegin ([⟨100.0, 1.0⟩] : PeakSpectrum ℚ)
          (100.0 * upper_tol libm_q (scorer_on store_one_peak))) ∧
    (∃ shapes, collected_for libm_q (scorer_on store_one_peak) ⟨100.0, 7.0⟩ 0 ⟨100.0, 1.0⟩
      = Except.ok { data_nat := [1.0, 7.0], data_iso := [], shape_nat := shapes,
                    shape_iso := [] }) ∧
    (∃ shapes, collected_for libm_q (scorer_on store_one_peak) ⟨0.0, 0.0⟩ 0 ⟨100.0, 1.0⟩
      = Except.ok { data_nat := [1.0], data_iso := [], shape_nat := shapes,
                    shape_iso := [] }) := by
  have hall : ∀ p ∈ ([⟨100.0, 1.0⟩] : PeakSpectrum ℚ),
      p.mz < 100.0 * upper_tol libm_q (scorer_on store_one_peak) := by decide!
  have h := matching_loop_reads_past_the_end ([⟨100.0, 1.0⟩] : PeakSpectrum ℚ)
    (100.0 * lower_tol libm_q (scorer_on store_one_peak))
    (100.0 * upper_tol libm_q (scorer_on store_one_peak)) hall
  refine ⟨hall, by decide!, h.2.1, ?_, ?_⟩
  · exact ⟨[Dbl.fin shape_100, Dbl.fin shape_100], by decide!⟩
  · exact ⟨[Dbl.fin shape_100], by decide!⟩

section engine

variable {α : Type} [LinearOrderedField α]

/-- What `MZBegin` finds: every peak before the position is below `mz`, and the
peak at the position, if there is one, is not. -/
theorem MZBegin_spec (mz : Dbl α) :
    ∀ spectrum : PeakSpectrum α,
      (∀ j : Nat, j < MZBegin spectrum mz → ∃ p, spectrum[j]? = some p ∧ p.mz < mz) ∧
      (∀ p, spectrum[MZBegin spectrum mz]? = some p → ¬ p.mz < mz)
  | [] => by
    constructor
    · intro j hj
      simp [MZBegin] at hj
    · intro p hp
      simp at hp
  | q :: spectrum => by
    obtain ⟨ih1, ih2⟩ := MZBegin_spec mz spectrum
    by_cases hq : q.mz < mz
    · have hlen : MZBegin (q :: spectrum) mz = MZBegin spectrum mz + 1 := by
        unfold MZBegin
        rw [List.takeWhile_cons_of_pos (by simpa using hq)]
        rfl
      rw [hlen]
      constructor
      · intro j hj
        cases j with
        | zero => exact ⟨q, by simp, hq⟩
        | succ j =>
          obtain ⟨p, hp, hlt⟩ := ih1 j (by omega)
          exact ⟨p, by simpa using hp, hlt⟩
      · intro p hp
        exact ih2 p (by simpa using hp)
    · have hlen : MZBegin (q :: spectrum) mz = 0 := by
        unfold MZBegin
        rw [List.takeWhile_cons_of_neg (by simpa using hq)]
        rfl
      rw [hlen]
      constructor
      · intro j hj
        omega
      · intro p hp
        simp only [List.getElem?_cons_zero, Option.some.injEq] at hp
        subst hp
        exact hq

theorem collect_peaks_data (L : Libm α) (rowi_spectrum : PeakSpectrum α) (junk : Peak1D α)
    (lower_bound upper_bound centre sigma rt_shape_row : Dbl α) (indices : List Nat) :
    ∀ lists : List (Dbl α) × List (Dbl α),
      (indices.foldl
          (collect_peak L rowi_spectrum junk lower_bound upper_bound centre sigma rt_shape_row)
          lists).1
        = lists.1 ++
          (indices.filter
            (fun index => decide (¬ ((peak_at rowi_spectrum junk index).mz < lower_bound ∨
              (peak_at rowi_spectrum junk index).mz > upper_bound)))).map
            (fun index => (peak_at rowi_spectrum junk index).intensity) := by
  induction indices with
  | nil => intro lists; simp
  | cons i indices ih =>
    intro lists
    rw [List.foldl_cons, ih]
    by_cases h : (peak_at rowi_spectrum junk i).mz < lower_bound ∨
        (peak_at rowi_spectrum junk i).mz > upper_bound
    · have hstep : collect_peak L rowi_spectrum junk lower_bound upper_bound centre sigma
          rt_shape_row lists i = lists := by
        simp only [collect_peak, if_pos h]
      rw [hstep, List.filter_cons_of_neg (by rw [decide_eq_true_eq]; exact not_not.2 h)]
    · have hstep : (collect_peak L rowi_spectrum junk lower_bound upper_bound centre sigma
          rt_shape_row lists i).1 = lists.1 ++ [(peak_at rowi_spectrum junk i).intensity] := by
        simp only [collect_peak, if_neg h]
      rw [hstep, List.filter_cons_of_pos (by rw [decide_eq_true_eq]; exact h), List.map_cons,
        List.append_assoc]
      rfl

/-- The data samples that one matching loop appends: the intensities of the
peaks at the indices visited that pass the test on the bounds, one sample for
each, in index order. -/
theorem collect_region_data (L : Libm α) (rowi_spectrum : PeakSpectrum α) (junk : Peak1D α)
    (lower_bound upper_bound centre sigma rt_shape_row : Dbl α)
    (lists : List (Dbl α) × List (Dbl α)) :
    (collect_region L rowi_spectrum junk lower_bound upper_bound centre sigma rt_shape_row
        lists).1
      = lists.1 ++
        ((match_indices (MZBegin rowi_spectrum lower_bound)
            (MZBegin rowi_spectrum upper_bound)).filter
          (fun index => decide (¬ ((peak_at rowi_spectrum junk index).mz < lower_bound ∨
            (peak_at rowi_spectrum junk index).mz > upper_bound)))).map
          (fun index => (peak_at rowi_spectrum junk index).intensity) :=
  collect_peaks_data L rowi_spectrum junk lower_bound upper_bound centre sigma rt_shape_row _ lists

theorem nodup_match_indices (lower_index upper_index : Nat) :
    (match_indices lower_index upper_index).Nodup := by
  unfold match_indices
  split
  · exact (List.nodup_range _).map (fun a b h => by simpa using h)
  · exact List.nodup_nil

/-- Which peaks of a row with numbers for m/z contribute a sample to a region
with bounds `lo` and `hi`: peak `i` does if and only if its m/z lies in the
closed interval and every peak before it is below `hi`.  In a sorted row
that is every peak with m/z in `[lo, hi)`, and of the peaks with m/z `hi` the
first one only. -/
theorem contributes_iff (rowi_spectrum : PeakSpectrum α) (junk : Peak1D α) (lo hi : α)
    (i : Nat) (x : α) (intensity : Dbl α)
    (hp : rowi_spectrum[i]? = some ⟨Dbl.fin x, intensity⟩) :
    (i ∈ match_indices (MZBegin rowi_spectrum (Dbl.fin lo)) (MZBegin rowi_spectrum (Dbl.fin hi)) ∧
      ¬ ((peak_at rowi_spectrum junk i).mz < Dbl.fin lo ∨
        (peak_at rowi_spectrum junk i).mz > Dbl.fin hi))
      ↔ (lo ≤ x ∧ x ≤ hi ∧
          ∀ j : Nat, j < i → ∃ q, rowi_spectrum[j]? = some q ∧ q.mz < Dbl.fin hi) := by
  have hpeak : (peak_at rowi_spectrum junk i).mz = Dbl.fin x := by
    simp [peak_at, List.getD, hp]
  obtain ⟨hlo1, _⟩ := MZBegin_spec (Dbl.fin lo) rowi_spectrum
  obtain ⟨hhi1, hhi2⟩ := MZBegin_spec (Dbl.fin hi) rowi_spectrum
  rw [mem_match_indices, hpeak]
  simp only [gt_iff_lt, Dbl.fin_lt, not_or, not_lt]
  constructor
  · rintro ⟨⟨_, hiu⟩, hlox, hxhi⟩
    exact ⟨hlox, hxhi, fun j hj => hhi1 j (by omega)⟩
  · rintro ⟨hlox, hxhi, hbefore⟩
    refine ⟨⟨?_, ?_⟩, hlox, hxhi⟩
    · by_contra hlt
      obtain ⟨p, hp1, hp2⟩ := hlo1 i (by omega)
      rw [hp] at hp1
      cases hp1
      exact absurd ((Dbl.fin_lt _ _).1 hp2) (not_lt.2 hlox)
    · by_contra hlt
      have hlen : MZBegin rowi_spectrum (Dbl.fin hi) < rowi_spectrum.length := by
        have : i < rowi_spectrum.length := by
          by_contra hge
          rw [List.getElem?_eq_none (by omega)] at hp
          cases hp
        omega
      obtain ⟨q, hq1, hq2⟩ := hbefore (MZBegin rowi_spectrum (Dbl.fin hi)) (by omega)
      exact hhi2 q hq1 hq2

end engine

section engine

variable {α : Type} [LinearOrderedField α]

/-- In a spectrum that passes `isSorted` and has numbers for m/z, no peak has a
larger m/z than a later one. -/
theorem pairwise_of_isSorted :
    ∀ spectrum : PeakSpectrum α, (∀ p ∈ spectrum, ∃ x, p.mz = Dbl.fin x) →
      isSorted spectrum = true → spectrum.Pairwise (fun p q => p.mz ≤ q.mz)
  | [], _, _ => List.Pairwise.nil
  | [_], _, _ => List.pairwise_singleton _ _
  | p :: q :: rest, hfin, hs => by
    simp only [isSorted, Bool.and_eq_true, Bool.not_eq_true', decide_eq_false_iff_not] at hs
    have ih := pairwise_of_isSorted (q :: rest)
      (fun r hr => hfin r (List.mem_cons_of_mem _ hr)) hs.2
    obtain ⟨x, hx⟩ := hfin p (List.mem_cons_self _ _)
    obtain ⟨y, hy⟩ := hfin q (List.mem_cons_of_mem _ (List.mem_cons_self _ _))
    have hpq : x ≤ y := by
      have h1 := hs.1
      rw [hx, hy, gt_iff_lt, Dbl.fin_lt] at h1
      exact not_lt.1 h1
    refine List.Pairwise.cons ?_ ih
    intro r hr
    rcases List.mem_cons.1 hr with rfl | hr
    · rw [hx, hy, Dbl.fin_le]
      exact hpq
    · obtain ⟨z, hz⟩ := hfin r (List.mem_cons_of_mem _ (List.mem_cons_of_mem _ hr))
      have hqr := (List.pairwise_cons.1 ih).1 r hr
      rw [hy, hz, Dbl.fin_le] at hqr
      rw [hx, hz, Dbl.fin_le]
      exact le_trans hpq hqr

/-- In a sorted row with numbers for m/z, every peak with m/z in `[lo, hi)` is
visited by the matching loop and passes the test on the bounds. -/
theorem contributes_of_sorted (rowi_spectrum : PeakSpectrum α) (junk : Peak1D α) (lo hi : α)
    (hfin : ∀ p ∈ rowi_spectrum, ∃ x, p.mz = Dbl.fin x)
    (hsorted : isSorted rowi_spectrum = true)
    (i : Nat) (x : α) (intensity : Dbl α)
    (hp : rowi_spectrum[i]? = some ⟨Dbl.fin x, intensity⟩) (hlo : lo ≤ x) (hhi : x < hi) :
    i ∈ match_indices (MZBegin rowi_spectrum (Dbl.fin lo)) (MZBegin rowi_spectrum (Dbl.fin hi)) ∧
      ¬ ((peak_at rowi_spectrum junk i).mz < Dbl.fin lo ∨
        (peak_at rowi_spectrum junk i).mz > Dbl.fin hi) := by
  rw [contributes_iff rowi_spectrum junk lo hi i x intensity hp]
  refine ⟨hlo, hhi.le, ?_⟩
  intro j hj
  have hi_lt : i < rowi_spectrum.length := by
    by_contra hge
    rw [List.getElem?_eq_none (by omega)] at hp
    cases hp
  have hpw := pairwise_of_isSorted rowi_spectrum hfin hsorted
  have hle := List.pairwise_iff_getElem.1 hpw j i (by omega) hi_lt hj
  have hpi : rowi_spectrum[i] = ⟨Dbl.fin x, intensity⟩ := by
    rw [List.getElem?_eq_getElem hi_lt] at hp
    exact Option.some.inj hp
  obtain ⟨y, hy⟩ := hfin rowi_spectrum[j] (List.getElem_mem _)
  refine ⟨rowi_spectrum[j], List.getElem?_eq_getElem (by omega), ?_⟩
  rw [hpi, hy, Dbl.fin_le] at hle
  rw [hy, Dbl.fin_lt]
  exact lt_of_le_of_lt hle hhi

end engine

/-- Claim C18, which fails on the code. In `store_two_at_the_bound` three peaks of
the row have their m/z in the closed natural region of the centre peak at
m/z `100`: the peak itself and the two peaks at the upper bound.  The
matching loop ends at the position of the first peak that is not below the
upper bound, so the second of the two is never looked at: two samples are
collected, not three.  The pass reads nothing past the end of the spectrum. -/
theorem second_peak_at_upper_bound_is_missed :
    isSorted ([⟨100.0, 1.0⟩, ⟨Dbl.fin (100 + 3 / 314), 2.0⟩, ⟨Dbl.fin (100 + 3 / 314), 3.0⟩,
      ⟨1000.0, 1.0⟩] : PeakSpectrum ℚ) = true ∧
    (100.0 : Dbl ℚ) * upper_tol libm_q (scorer_on store_two_at_the_bound)
      = Dbl.fin (100 + 3 / 314) ∧
    (region_spec
        ([⟨100.0, 1.0⟩, ⟨Dbl.fin (100 + 3 / 314), 2.0⟩, ⟨Dbl.fin (100 + 3 / 314), 3.0⟩,
          ⟨1000.0, 1.0⟩] : PeakSpectrum ℚ)
        (100.0 * lower_tol libm_q (scorer_on store_two_at_the_bound))
        (100.0 * upper_tol libm_q (scorer_on store_two_at_the_bound))).map Peak1D.intensity
      = [1.0, 2.0, 3.0] ∧
    match_indices
        (MZBegin ([⟨100.0, 1.0⟩, ⟨Dbl.fin (100 + 3 / 314), 2.0⟩,
            ⟨Dbl.fin (100 + 3 / 314), 3.0⟩, ⟨1000.0, 1.0⟩] : PeakSpectrum ℚ)
          (100.0 * lower_tol libm_q (scorer_on store_two_at_the_bound)))
        (MZBegin ([⟨100.0, 1.0⟩, ⟨Dbl.fin (100 + 3 / 314), 2.0⟩,
            ⟨Dbl.fin (100 + 3 / 314), 3.0⟩, ⟨1000.0, 1.0⟩] : PeakSpectrum ℚ)
          (100.0 * upper_tol libm_q (scorer_on store_two_at_the_bound)))
      = [0, 1] ∧
    ∀ junk : Peak1D ℚ,
      collected_for libm_q (scorer_on store_two_at_the_bound) junk 0 ⟨100.0, 1.0⟩
        = Except.ok
            { data_nat := [1.0, 2.0], data_iso := [],
              shape_nat :=
                [mz_weight_spec libm_q 100.0
                    (100.0 * mz_ppm_sigma libm_q (scorer_on store_two_at_the_bound)) 100.0
                  * (rt_shape libm_q (scorer_on store_two_at_the_bound)).getD 1 Dbl.nan,
                 mz_weight_spec libm_q 100.0
                    (100.0 * mz_ppm_sigma libm_q (scorer_on store_two_at_the_bound))
                    (Dbl.fin (100 + 3 / 314))
                  * (rt_shape libm_q (scorer_on store_two_at_the_bound)).getD 1 Dbl.nan],
              shape_iso := [] } := by
  refine ⟨by decide!, by decide!, by decide!, by decide!, ?_⟩
  intro junk
  rw [collected_for_of_in_bounds libm_q _ junk junk_zero 0 _ (by decide!)]
  decide!

/-! ## Theorems: one call of `put_spectrum` -/

/-- Claim C27. For every state of the sequencer and every index different from
`next_output_spectrum_id`, `put_spectrum(index, spectrum)` hands nothing to
the writer, leaves `next_output_spectrum_id` as it is, and leaves a queue that
holds the entries it held before, each as often as before, and the one
entry `(index, spectrum)` more. -/
theorem put_spectrum_buffers {S : Type} (st : Sequencer S) (spectrum_id : Int) (spectrum : S)
    (h : spectrum_id ≠ st.next_output_spectrum_id) :
    (put_spectrum st spectrum_id spectrum).written = st.written ∧
    (put_spectrum st spectrum_id spectrum).next_output_spectrum_id
      = st.next_output_spectrum_id ∧
    ((put_spectrum st spectrum_id spectrum).output_spectrum_queue).Perm
      ((spectrum_id, spectrum) :: st.output_spectrum_queue) ∧
    (put_spectrum st spectrum_id spectrum).output_spectrum_queue.length
      = st.output_spectrum_queue.length + 1 ∧
    ∀ e ∈ st.output_spectrum_queue,
      e ∈ (put_spectrum st spectrum_id spectrum).output_spectrum_queue := by
  have hq : (put_spectrum st spectrum_id spectrum)
      = { st with output_spectrum_queue :=
            IndexSpectrumQueue.push st.output_spectrum_queue (spectrum_id, spectrum) } := by
    unfold put_spectrum
    rw [if_neg h]
  have hperm := push_perm st.output_spectrum_queue (spectrum_id, spectrum)
  rw [hq]
  refine ⟨rfl, rfl, hperm, ?_, ?_⟩
  · simpa using hperm.length_eq
  · intro e he
    exact hperm.mem_iff.2 (List.mem_cons_of_mem _ he)

/-- Witness for C27: index `2` submitted to the constructor's state, whose
cursor is `0`. -/
theorem put_spectrum_buffers_witness :
    (2 : Int) ≠ (Sequencer.init String).next_output_spectrum_id ∧
    (put_spectrum (Sequencer.init String) 2 "two").written = [] ∧
    (put_spectrum (Sequencer.init String) 2 "two").next_output_spectrum_id = 0 ∧
    (put_spectrum (Sequencer.init String) 2 "two").output_spectrum_queue = [(2, "two")] := by
  have h := put_spectrum_buffers (Sequencer.init String) 2 "two" (by decide)
  exact ⟨by decide, h.1, h.2.1, rfl⟩

/-- Claim C28. When every `put_spectrum` call, starting from the constructor's
state, submits an index that is at least `next_output_spectrum_id` at the
time of the call and different from every index submitted before, then after
each call every key in the queue is greater than `next_output_spectrum_id`,
and the indices `0 .. next_output_spectrum_id - 1` together with the keys in
the queue are the indices submitted so far, each once. -/
theorem no_deliverable_entry_stays_pending {S : Type} (calls : List (IndexSpectrum S))
    (hnd : (calls.map Prod.fst).Nodup)
    (hge : ∀ (done : List (IndexSpectrum S)) (c : IndexSpectrum S) (rest : List (IndexSpectrum S)),
      calls = done ++ c :: rest →
      (put_all (Sequencer.init S) done).next_output_spectrum_id ≤ c.1) :
    ∀ (done rest : List (IndexSpectrum S)), calls = done ++ rest →
      (∀ k ∈ (put_all (Sequencer.init S) done).output_spectrum_queue.map Prod.fst,
        (put_all (Sequencer.init S) done).next_output_spectrum_id < k) ∧
      ∃ n : Nat, (put_all (Sequencer.init S) done).next_output_spectrum_id = n ∧
        (put_all (Sequencer.init S) done).written.map Prod.fst = first_indices n ∧
        (first_indices n
          ++ (put_all (Sequencer.init S) done).output_spectrum_queue.map Prod.fst).Perm
            (done.map Prod.fst) := by
  intro done rest hsplit
  have hnn : ∀ k ∈ done.map Prod.fst, (0 : Int) ≤ k := by
    intro k hk
    obtain ⟨c, hc, rfl⟩ := List.mem_map.1 hk
    obtain ⟨d1, d2, hd⟩ := List.append_of_mem hc
    have h1 := hge d1 c (d2 ++ rest) (by rw [hsplit, hd]; simp)
    obtain ⟨n, hn, _⟩ := delivered_put_all d1 (Sequencer.init S) ⟨0, rfl, rfl⟩
    omega
  have hnd2 : (([] ++ done).map Prod.fst).Nodup := by
    rw [hsplit, List.map_append] at hnd
    simpa using (List.nodup_append.1 hnd).1
  obtain ⟨hd, hp, hperm⟩ := put_all_invariant done (Sequencer.init S) []
    ⟨0, rfl, rfl⟩ ⟨List.Pairwise.nil, fun k hk => by simp [Sequencer.init] at hk⟩
    (by simp [Sequencer.init]) hnd2 hnn
  obtain ⟨n, hn, hw⟩ := hd
  refine ⟨hp.2, n, hn, hw, ?_⟩
  have := hperm.map Prod.fst
  rw [List.map_append, hw] at this
  simpa using this

/-- Witness for C28: the indices `1, 0, 3` submitted in that order; after the
three calls the cursor is `2` and index `3` is pending. -/
theorem no_deliverable_entry_stays_pending_witness :
    (put_all (Sequencer.init String) [(1, "b"), (0, "a"), (3, "d")]).next_output_spectrum_id = 2 ∧
    (put_all (Sequencer.init String) [(1, "b"), (0, "a"), (3, "d")]).output_spectrum_queue
      = [(3, "d")] ∧
    ∀ k ∈ (put_all (Sequencer.init String)
        [(1, "b"), (0, "a"), (3, "d")]).output_spectrum_queue.map Prod.fst,
      (put_all (Sequencer.init String) [(1, "b"), (0, "a"), (3, "d")]).next_output_spectrum_id
        < k := by
  have h := no_deliverable_entry_stays_pending [((1 : Int), "b"), (0, "a"), (3, "d")]
    (by decide)
    (by
      intro done c rest hsplit
      match done, hsplit with
      | [], hs =>
        simp only [List.nil_append, List.cons.injEq] at hs
        rw [← hs.1]
        decide
      | [_], hs =>
        simp only [List.singleton_append, List.cons.injEq] at hs
        rw [← hs.1, ← hs.2.1]
        decide
      | [_, _], hs =>
        simp only [List.cons_append, List.nil_append, List.cons.injEq] at hs
        rw [← hs.1, ← hs.2.1, ← hs.2.2.1]
        decide
      | _ :: _ :: _ :: d, hs =>
        have := congrArg List.length hs
        simp at this)
    [(1, "b"), (0, "a"), (3, "d")] [] rfl
  exact ⟨by decide, by decide, h.1⟩

/-- The flush loop pops as many entries as it hands to the writer, and leaves
the rest of the queue. -/
theorem flush_queue_pops {S : Type} (q : List (IndexSpectrum S)) :
    ∀ (n : Int) (w : List (IndexSpectrum S)),
      ∃ pops : Nat, pops ≤ q.length ∧
        (flush_queue n q w).output_spectrum_queue = q.drop pops ∧
        (flush_queue n q w).written = w ++ q.take pops ∧
        (flush_queue n q w).next_output_spectrum_id = n + pops := by
  induction q with
  | nil => intro n w; exact ⟨0, by simp [flush_queue]⟩
  | cons e rest ih =>
    intro n w
    unfold flush_queue
    split
    · obtain ⟨pops, h1, h2, h3, h4⟩ := ih (n + 1) (w ++ [e])
      refine ⟨pops + 1, by simpa using h1, by simpa using h2, by simp [h3], ?_⟩
      rw [h4]
      push_cast
      ring
    · exact ⟨0, by simp⟩

/-- Claim C29. `put_spectrum` returns from every state: it is a total function,
its flush loop going down the pending queue.  With `k` pending entries the
loop pops at most `k` of them; one pass of the loop either pops the top
entry, hands it to the writer and advances `next_output_spectrum_id` by one,
or ends the loop; and the call hands to the writer as many spectra as it
advances `next_output_spectrum_id`. -/
theorem put_spectrum_returns {S : Type} (st : Sequencer S) (spectrum_id : Int) (spectrum : S) :
    (∃ delivered : Nat,
      (put_spectrum st spectrum_id spectrum).written.length = st.written.length + delivered ∧
      (put_spectrum st spectrum_id spectrum).next_output_spectrum_id
        = st.next_output_spectrum_id + delivered) ∧
    (spectrum_id = st.next_output_spectrum_id →
      ∃ pops : Nat, pops ≤ st.output_spectrum_queue.length ∧
        (put_spectrum st spectrum_id spectrum).output_spectrum_queue
          = st.output_spectrum_queue.drop pops ∧
        (put_spectrum st spectrum_id spectrum).written
          = st.written ++ (spectrum_id, spectrum) :: st.output_spectrum_queue.take pops ∧
        (put_spectrum st spectrum_id spectrum).next_output_spectrum_id
          = st.next_output_spectrum_id + 1 + pops) ∧
    (∀ (next : Int) (written : List (IndexSpectrum S)),
      flush_queue next [] written
        = { next_output_spectrum_id := next, output_spectrum_queue := [], written := written }) ∧
    (∀ (next : Int) (index_spectrum : IndexSpectrum S) (rest written : List (IndexSpectrum S)),
      (index_spectrum.1 = next →
        flush_queue next (index_spectrum :: rest) written
          = flush_queue (next + 1) rest (written ++ [index_spectrum])) ∧
      (index_spectrum.1 ≠ next →
        flush_queue next (index_spectrum :: rest) written
          = { next_output_spectrum_id := next, output_spectrum_queue := index_spectrum :: rest,
              written := written })) := by
  refine ⟨?_, ?_, fun _ _ => rfl, ?_⟩
  · obtain ⟨d, h1, h2, _⟩ := put_spectrum_delivers st spectrum_id spectrum
    exact ⟨d.length, by rw [h1, List.length_append], h2⟩
  · intro h
    obtain ⟨pops, h1, h2, h3, h4⟩ := flush_queue_pops st.output_spectrum_queue
      (st.next_output_spectrum_id + 1) (st.written ++ [(spectrum_id, spectrum)])
    refine ⟨pops, h1, ?_, ?_, ?_⟩
    · unfold put_spectrum
      rw [if_pos h, h2]
    · unfold put_spectrum
      rw [if_pos h, h3]
      simp
    · unfold put_spectrum
      rw [if_pos h, h4]
  · intro next index_spectrum rest written
    constructor
    · intro h
      rw [flush_queue, if_pos h]
    · intro h
      rw [flush_queue, if_neg h]

/-- Witness for C29: index `0` submitted while `1` and `3` are pending: the
loop pops one of the two entries, two spectra are handed over and the cursor
goes from `0` to `2`. -/
theorem put_spectrum_returns_witness :
    put_spectrum
        { next_output_spectrum_id := 0, output_spectrum_queue := [(1, "b"), (3, "d")],
          written := [] } 0 "a"
      = { next_output_spectrum_id := 2, output_spectrum_queue := [(3, "d")],
          written := [(0, "a"), (1, "b")] } ∧
    ∃ pops : Nat, pops ≤ 2 ∧
      (put_spectrum
        { next_output_spectrum_id := 0, output_spectrum_queue := [(1, "b"), (3, "d")],
          written := [] } 0 "a").next_output_spectrum_id = 0 + 1 + pops := by
  obtain ⟨pops, h1, _, _, h4⟩ := (put_spectrum_returns
    { next_output_spectrum_id := 0, output_spectrum_queue := [((1 : Int), "b"), (3, "d")],
      written := [] } 0 "a").2.1 rfl
  exact ⟨rfl, pops, h1, h4⟩

/-! ## Theorems: the row weight -/

section engine

variable {α : Type} [LinearOrderedField α]

theorem collect_peaks_shape (L : Libm α) (rowi_spectrum : PeakSpectrum α) (junk : Peak1D α)
    (lower_bound upper_bound centre sigma rt_shape_row : Dbl α) (indices : List Nat) :
    ∀ lists : List (Dbl α) × List (Dbl α),
      (indices.foldl
          (collect_peak L rowi_spectrum junk lower_bound upper_bound centre sigma rt_shape_row)
          lists).2
        = lists.2 ++
          (indices.filter
            (fun index => decide (¬ ((peak_at rowi_spectrum junk index).mz < lower_bound ∨
              (peak_at rowi_spectrum junk index).mz > upper_bound)))).map
            (fun index =>
              mz_weight_spec L centre sigma (peak_at rowi_spectrum junk index).mz
                * rt_shape_row) := by
  induction indices with
  | nil => intro lists; simp
  | cons i indices ih =>
    intro lists
    rw [List.foldl_cons, ih]
    by_cases h : (peak_at rowi_spectrum junk i).mz < lower_bound ∨
        (peak_at rowi_spectrum junk i).mz > upper_bound
    · have hstep : collect_peak L rowi_spectrum junk lower_bound upper_bound centre sigma
          rt_shape_row lists i = lists := by
        simp only [collect_peak, if_pos h]
      rw [hstep, List.filter_cons_of_neg (by rw [decide_eq_true_eq]; exact not_not.2 h)]
    · rw [collect_peak_of_match L rowi_spectrum junk lower_bound upper_bound centre sigma
          rt_shape_row lists i h,
        List.filter_cons_of_pos (by rw [decide_eq_true_eq]; exact h), List.map_cons,
        List.append_assoc]
      rfl

/-- The shape samples that one matching loop appends: for each peak visited
that passes the test on the bounds, the m/z weight for the current `centre`
and `sigma`, times the row weight. -/
theorem collect_region_shape (L : Libm α) (rowi_spectrum : PeakSpectrum α) (junk : Peak1D α)
    (lower_bound upper_bound centre sigma rt_shape_row : Dbl α)
    (lists : List (Dbl α) × List (Dbl α)) :
    (collect_region L rowi_spectrum junk lower_bound upper_bound centre sigma rt_shape_row
        lists).2
      = lists.2 ++
        ((match_indices (MZBegin rowi_spectrum lower_bound)
            (MZBegin rowi_spectrum upper_bound)).filter
          (fun index => decide (¬ ((peak_at rowi_spectrum junk index).mz < lower_bound ∨
            (peak_at rowi_spectrum junk index).mz > upper_bound)))).map
          (fun index =>
            mz_weight_spec L centre sigma (peak_at rowi_spectrum junk index).mz
              * rt_shape_row) :=
  collect_peaks_shape L rowi_spectrum junk lower_bound upper_bound centre sigma rt_shape_row _
    lists

/-- The lookup `rt_shape[rowi - rt_offset]` for a row of the window never
fails. -/
theorem rt_shape_lookup (L : Libm α) (sc : Scorer α) (centre_idx rowi : Int)
    (hwin : centre_idx - sc.half_window ≤ rowi ∧ rowi ≤ centre_idx + sc.half_window) :
    ∃ w, (rt_shape L sc)[(rowi - (centre_idx - sc.half_window)).toNat]? = some w ∧
      (rt_shape L sc).getD (rowi - (centre_idx - sc.half_window)).toNat Dbl.nan = w := by
  have hlen : (rt_shape L sc).length = (2 * sc.half_window + 1).toNat := by
    unfold rt_shape
    simp
  have hlt : (rowi - (centre_idx - sc.half_window)).toNat < (rt_shape L sc).length := by
    rw [hlen]
    omega
  refine ⟨(rt_shape L sc)[(rowi - (centre_idx - sc.half_window)).toNat],
    List.getElem?_eq_getElem hlt, ?_⟩
  simp [List.getD, List.getElem?_eq_getElem hlt]

end engine

section engine

variable {α : Type} [LinearOrderedField α]

theorem getSpectrum_ok_range {β : Type} (input_map : List (PeakSpectrum β)) (rowi : Int)
    (spectrum : PeakSpectrum β) (h : getSpectrum input_map rowi = Except.ok spectrum) :
    0 ≤ rowi ∧ rowi < (input_map.length : Int) := by
  unfold getSpectrum at h
  split at h
  · rename_i h0
    split at h
    · rename_i hsome
      have hlt : rowi.toNat < input_map.length := by
        by_contra hge
        rw [List.getElem?_eq_none (by omega)] at hsome
        cases hsome
      exact ⟨h0, by omega⟩
    · cases h
  · cases h

/-- Claim C21. For every row `rowi` of the window `[c - half_window, c +
half_window]` for which the store has a sorted spectrum, the kernel index
`rowi - (c - half_window)` lies in `[0, 2 * half_window]`, the lookup
`rt_shape[rowi - rt_offset]` finds a weight `w`, and the index is
`half_window` for the centre row.  The body of the row loop appends, for each
matched peak of the natural region, its intensity to `data_nat` and
`g * w` to `shape_nat`, and for each matched peak of the isotope region its
intensity to `data_iso` and `g * (w * intensity_ratio)` to `shape_iso`, `g`
being the m/z weight for the values of `centre` and `sigma` at that moment;
for numbers, `g * (w * intensity_ratio)` is `g * w * intensity_ratio`. -/
theorem row_weight_follows_offset (L : Libm α) (sc : Scorer α) (junk : Peak1D α)
    (centre_idx : Int) (centre0 : Dbl α) (st : RowState α) (rowi : Int)
    (rowi_spectrum : PeakSpectrum α)
    (hwin : centre_idx - sc.half_window ≤ rowi ∧ rowi ≤ centre_idx + sc.half_window)
    (hget : getSpectrum sc.input_map rowi = Except.ok rowi_spectrum)
    (hsorted : isSorted rowi_spectrum = true) :
    (0 ≤ rowi - (centre_idx - sc.half_window) ∧
      rowi - (centre_idx - sc.half_window) ≤ 2 * sc.half_window) ∧
    (rowi = centre_idx → rowi - (centre_idx - sc.half_window) = sc.half_window) ∧
    (∃ w st1, (rt_shape L sc)[(rowi - (centre_idx - sc.half_window)).toNat]? = some w ∧
      scan_row L sc junk centre_idx centre0 st rowi = Except.ok st1 ∧
      st1.samples.data_nat
        = st.samples.data_nat ++
          (matched_indices rowi_spectrum junk (centre0 * lower_tol L sc)
            (centre0 * upper_tol L sc)).map
            (fun index => (peak_at rowi_spectrum junk index).intensity) ∧
      st1.samples.shape_nat
        = st.samples.shape_nat ++
          (matched_indices rowi_spectrum junk (centre0 * lower_tol L sc)
            (centre0 * upper_tol L sc)).map
            (fun index =>
              mz_weight_spec L st.centre st.sigma (peak_at rowi_spectrum junk index).mz * w) ∧
      st1.samples.data_iso
        = st.samples.data_iso ++
          (matched_indices rowi_spectrum junk ((centre0 + sc.mz_delta) * lower_tol L sc)
            ((centre0 + sc.mz_delta) * upper_tol L sc)).map
            (fun index => (peak_at rowi_spectrum junk index).intensity) ∧
      st1.samples.shape_iso
        = st.samples.shape_iso ++
          (matched_indices rowi_spectrum junk ((centre0 + sc.mz_delta) * lower_tol L sc)
            ((centre0 + sc.mz_delta) * upper_tol L sc)).map
            (fun index =>
              mz_weight_spec L (st.centre + sc.mz_delta)
                  ((st.centre + sc.mz_delta) * mz_ppm_sigma L sc)
                  (peak_at rowi_spectrum junk index).mz
                * (w * sc.intensity_ratio))) ∧
    ∀ g w intensity_ratio : α,
      (Dbl.fin g * (Dbl.fin w * Dbl.fin intensity_ratio) : Dbl α)
        = Dbl.fin g * Dbl.fin w * Dbl.fin intensity_ratio := by
  have hrow := getSpectrum_ok_range sc.input_map rowi rowi_spectrum hget
  obtain ⟨w, hw, hwd⟩ := rt_shape_lookup L sc centre_idx rowi hwin
  refine ⟨⟨by omega, by omega⟩, fun h => by omega, ⟨w, ?_⟩, ?_⟩
  · have hscan : scan_row L sc junk centre_idx centre0 st rowi
        = Except.ok
            { centre := st.centre + sc.mz_delta,
              sigma := (st.centre + sc.mz_delta) * mz_ppm_sigma L sc,
              samples :=
                { data_nat := (collect_region L rowi_spectrum junk (centre0 * lower_tol L sc)
                    (centre0 * upper_tol L sc) st.centre st.sigma w
                    (st.samples.data_nat, st.samples.shape_nat)).1,
                  shape_nat := (collect_region L rowi_spectrum junk (centre0 * lower_tol L sc)
                    (centre0 * upper_tol L sc) st.centre st.sigma w
                    (st.samples.data_nat, st.samples.shape_nat)).2,
                  data_iso := (collect_region L rowi_spectrum junk
                    ((centre0 + sc.mz_delta) * lower_tol L sc)
                    ((centre0 + sc.mz_delta) * upper_tol L sc) (st.centre + sc.mz_delta)
                    ((st.centre + sc.mz_delta) * mz_ppm_sigma L sc) (w * sc.intensity_ratio)
                    (st.samples.data_iso, st.samples.shape_iso)).1,
                  shape_iso := (collect_region L rowi_spectrum junk
                    ((centre0 + sc.mz_delta) * lower_tol L sc)
                    ((centre0 + sc.mz_delta) * upper_tol L sc) (st.centre + sc.mz_delta)
                    ((st.centre + sc.mz_delta) * mz_ppm_sigma L sc) (w * sc.intensity_ratio)
                    (st.samples.data_iso, st.samples.shape_iso)).2 } } := by
      unfold scan_row
      simp only [if_pos hrow, hget, hsorted, Bool.not_true, Bool.false_eq_true, if_false, hwd]
    refine ⟨_, hw, hscan, ?_, ?_, ?_, ?_⟩
    · exact collect_region_data L rowi_spectrum junk _ _ _ _ _ _
    · exact collect_region_shape L rowi_spectrum junk _ _ _ _ _ _
    · exact collect_region_data L rowi_spectrum junk _ _ _ _ _ _
    · exact collect_region_shape L rowi_spectrum junk _ _ _ _ _ _
  · intro g w1 r
    simp only [Dbl.fin_mul, mul_assoc]

end engine

/-- Witness for C21: the centre row of `store_two_rows` under `scorer_on`, with
`half_window = 1`: the kernel index is `1`. -/
theorem row_weight_follows_offset_witness :
    ((0 : Int) - (scorer_on store_two_rows).half_window ≤ 0 ∧
      (0 : Int) ≤ 0 + (scorer_on store_two_rows).half_window) ∧
    getSpectrum (scorer_on store_two_rows).input_map 0
      = Except.ok [⟨100.0, 1.0⟩, ⟨1000.0, 1.0⟩] ∧
    isSorted ([⟨100.0, 1.0⟩, ⟨1000.0, 1.0⟩] : PeakSpectrum ℚ) = true ∧
    (0 : Int) - (0 - (scorer_on store_two_rows).half_window)
      = (scorer_on store_two_rows).half_window :=
  ⟨by decide, rfl, by decide!,
    (row_weight_follows_offset libm_q (scorer_on store_two_rows) junk_zero 0 100.0
      { centre := 100.0, sigma := 100.0 * mz_ppm_sigma libm_q (scorer_on store_two_rows),
        samples := Samples.empty ℚ } 0 [⟨100.0, 1.0⟩, ⟨1000.0, 1.0⟩] (by decide) rfl
      (by decide!)).2.1 rfl⟩

/-! ## Theorems: the clamp of the correlations -/

section engine

variable {α : Type} [LinearOrderedField α]

/-- The clamp `(c > 0.0 ? c : 0.0)` is `std::max({0.0, c})`; its result is at
least `0`, so a number and not negative; and it is exactly `0` when `c` is not
greater than `0`. -/
theorem clamp_correl_spec (c : Dbl α) :
    clamp_correl c = std_max [0.0, c] ∧
    (0 : Dbl α) ≤ clamp_correl c ∧
    ¬ (clamp_correl c < 0) ∧
    clamp_correl c ≠ Dbl.nan ∧
    (¬ (c > 0.0) → clamp_correl c = 0.0) ∧
    (c > 0.0 → clamp_correl c = c) := by
  have hle : (0 : Dbl α) ≤ clamp_correl c := by
    unfold clamp_correl
    split
    · rename_i h
      cases c with
      | nan => exact absurd h (by simp [Dbl.gt_def, Dbl.lt])
      | ninf => exact absurd h (by simp [Dbl.gt_def, Dbl.lt])
      | pinf => simp [Dbl.le_def, Dbl.le]
      | fin x =>
        rw [Dbl.lit_0_0, gt_iff_lt, Dbl.fin_lt] at h
        rw [Dbl.lit_zero, Dbl.fin_le]
        exact h.le
    · rw [Dbl.lit_0_0, Dbl.lit_zero, Dbl.fin_le]
  refine ⟨?_, hle, ?_, ?_, ?_, ?_⟩
  · simp only [clamp_correl, std_max, List.foldl_cons, List.foldl_nil, gt_iff_lt]
  · intro hlt
    cases hc : clamp_correl c with
    | nan => rw [hc] at hle; simp [Dbl.le_def, Dbl.le] at hle
    | ninf => rw [hc] at hle; simp [Dbl.le_def, Dbl.le] at hle
    | pinf => rw [hc] at hlt; simp [Dbl.lt_def, Dbl.lt] at hlt
    | fin x =>
      rw [hc] at hle hlt
      rw [Dbl.lit_zero, Dbl.fin_le] at hle
      rw [Dbl.lit_zero, Dbl.fin_lt] at hlt
      exact absurd hlt (not_lt.2 hle)
  · intro hnan
    rw [hnan] at hle
    simp [Dbl.le_def, Dbl.le] at hle
  · intro h
    unfold clamp_correl
    rw [if_neg h]
  · intro h
    unfold clamp_correl
    rw [if_pos h]

/-- Claim C25. Each of the five correlations is `max(0, cov / sqrt(var1 * var2))`
of its covariance and variances: it is at least `0`, never negative and
always a number, and it is exactly `0` whenever the raw quotient is not
greater than `0`. -/
theorem correlations_are_clamped (L : Libm α) (V : VectorLib α) (s : Samples α) :
    (correl_XabYab L V s
        = std_max [0.0, cov_Xab V s / Dbl.sqrt L (var_Xab V s * var_Yab V s)] ∧
      correl_XabYa_ L V s
        = std_max [0.0, cov_Xa_ V s / Dbl.sqrt L (var_Xab V s * var_Ya_ V s)] ∧
      correl_XabY_b L V s
        = std_max [0.0, cov_X_b V s / Dbl.sqrt L (var_Xab V s * var_Y_b V s)] ∧
      correl_YabYa_ L V s
        = std_max [0.0, cov_YabYa_ V s / Dbl.sqrt L (var_Yab V s * var_Ya_ V s)] ∧
      correl_YabY_b L V s
        = std_max [0.0, cov_YabY_b V s / Dbl.sqrt L (var_Yab V s * var_Y_b V s)]) ∧
    ((0 : Dbl α) ≤ correl_XabYab L V s ∧ (0 : Dbl α) ≤ correl_XabYa_ L V s ∧
      (0 : Dbl α) ≤ correl_XabY_b L V s ∧ (0 : Dbl α) ≤ correl_YabYa_ L V s ∧
      (0 : Dbl α) ≤ correl_YabY_b L V s) ∧
    (¬ (correl_XabYab L V s < 0) ∧ ¬ (correl_XabYa_ L V s < 0) ∧
      ¬ (correl_XabY_b L V s < 0) ∧ ¬ (correl_YabYa_ L V s < 0) ∧
      ¬ (correl_YabY_b L V s < 0)) ∧
    ((¬ (cov_Xab V s / Dbl.sqrt L (var_Xab V s * var_Yab V s) > 0.0) →
        correl_XabYab L V s = 0.0) ∧
      (¬ (cov_Xa_ V s / Dbl.sqrt L (var_Xab V s * var_Ya_ V s) > 0.0) →
        correl_XabYa_ L V s = 0.0) ∧
      (¬ (cov_X_b V s / Dbl.sqrt L (var_Xab V s * var_Y_b V s) > 0.0) →
        correl_XabY_b L V s = 0.0) ∧
      (¬ (cov_YabYa_ V s / Dbl.sqrt L (var_Yab V s * var_Ya_ V s) > 0.0) →
        correl_YabYa_ L V s = 0.0) ∧
      (¬ (cov_YabY_b V s / Dbl.sqrt L (var_Yab V s * var_Y_b V s) > 0.0) →
        correl_YabY_b L V s = 0.0)) := by
  have h1 := clamp_correl_spec (cov_Xab V s / Dbl.sqrt L (var_Xab V s * var_Yab V s))
  have h2 := clamp_correl_spec (cov_Xa_ V s / Dbl.sqrt L (var_Xab V s * var_Ya_ V s))
  have h3 := clamp_correl_spec (cov_X_b V s / Dbl.sqrt L (var_Xab V s * var_Y_b V s))
  have h4 := clamp_correl_spec (cov_YabYa_ V s / Dbl.sqrt L (var_Yab V s * var_Ya_ V s))
  have h5 := clamp_correl_spec (cov_YabY_b V s / Dbl.sqrt L (var_Yab V s * var_Y_b V s))
  exact ⟨⟨h1.1, h2.1, h3.1, h4.1, h5.1⟩, ⟨h1.2.1, h2.2.1, h3.2.1, h4.2.1, h5.2.1⟩,
    ⟨h1.2.2.1, h2.2.2.1, h3.2.2.1, h4.2.2.1, h5.2.2.1⟩,
    ⟨h1.2.2.2.2.1, h2.2.2.2.2.1, h3.2.2.2.2.1, h4.2.2.2.2.1, h5.2.2.2.2.1⟩⟩

end engine

/-! ## Theorems: Steiger's statistic -/

section engine

variable {α : Type} [LinearOrderedField α]

/-- Half of a double: `0.5 * x` is `x / 2`. -/
theorem Dbl.half_mul (x : Dbl α) : (0.5 : Dbl α) * x = x / 2 := by
  have h2 : (2 : α) ≠ 0 := two_ne_zero
  have hne : ((1 : α) / 2) ≠ 0 := by norm_num
  have hpos : (0 : α) < 1 / 2 := by norm_num
  rw [Dbl.lit_0_5, Dbl.lit_ofNat]
  cases x with
  | nan => rfl
  | ninf =>
    show Dbl.inf_of_sign false (1 / 2) = Dbl.div Dbl.ninf (Dbl.fin 2)
    simp only [Dbl.inf_of_sign, if_neg hne, decide_eq_true hpos, Dbl.div,
      Bool.true_eq_false, if_false]
    rw [if_neg (by norm_num)]
  | pinf =>
    show Dbl.inf_of_sign true (1 / 2) = Dbl.div Dbl.pinf (Dbl.fin 2)
    simp only [Dbl.inf_of_sign, if_neg hne, decide_eq_true hpos, Dbl.div, if_true]
    rw [if_neg (by norm_num)]
  | fin x =>
    rw [Dbl.fin_mul, Dbl.fin_div _ _ h2]
    congr 1
    ring

/-- The local `zABA0` is Steiger's expression for the clamped correlations
`correl_XabYab`, `correl_XabYa_` and `correl_YabYa_` of the code, and `zAB0B`
is the same expression for `correl_XabYab`, `correl_XabY_b` and
`correl_YabY_b`; for a peak whose sample lists pass the test on the sample
counts, `n` is the number of natural samples plus the number of isotope
samples. -/
theorem z_is_steiger (L : Libm α) (V : VectorLib α) (s : Samples α)
    (min_sample_opt nAB : Dbl α)
    (henough : ¬ (Dbl.ofNat s.data_nat.length < min_sample_opt ∨
      Dbl.ofNat s.data_iso.length < min_sample_opt)) :
    apply_min_sample min_sample_opt s
      = (s, Dbl.ofNat (s.data_nat.length + s.data_iso.length)) ∧
    zABA0 L V s nAB
      = steiger_z L (correl_XabYab L V s) (correl_XabYa_ L V s) (correl_YabYa_ L V s) nAB ∧
    zAB0B L V s nAB
      = steiger_z L (correl_XabYab L V s) (correl_XabY_b L V s) (correl_YabY_b L V s) nAB ∧
    rm2ABA0 L V s
      = (correl_XabYab L V s * correl_XabYab L V s
          + correl_XabYa_ L V s * correl_XabYa_ L V s) / 2 ∧
    rm2AB0B L V s
      = (correl_XabYab L V s * correl_XabYab L V s
          + correl_XabY_b L V s * correl_XabY_b L V s) / 2 ∧
    fABA0 L V s = (1 - correl_XabYa_ L V s) / (2 * (1 - rm2ABA0 L V s)) ∧
    fAB0B L V s = (1 - correl_XabY_b L V s) / (2 * (1 - rm2AB0B L V s)) ∧
    hABA0 L V s = (1 - fABA0 L V s * rm2ABA0 L V s) / (1 - rm2ABA0 L V s) ∧
    hAB0B L V s = (1 - fAB0B L V s * rm2AB0B L V s) / (1 - rm2AB0B L V s) := by
  have h1 : (1.0 : Dbl α) = 1 := by rw [Dbl.lit_1_0, Dbl.lit_one]
  have h2 : (2.0 : Dbl α) = 2 := by rw [Dbl.lit_2_0, Dbl.lit_ofNat]
  have h3 : (3.0 : Dbl α) = 3 := by rw [Dbl.lit_3_0, Dbl.lit_ofNat]
  have hrA : rm2ABA0 L V s
      = (correl_XabYab L V s * correl_XabYab L V s
          + correl_XabYa_ L V s * correl_XabYa_ L V s) / 2 := by
    unfold rm2ABA0
    rw [Dbl.half_mul]
  have hrB : rm2AB0B L V s
      = (correl_XabYab L V s * correl_XabYab L V s
          + correl_XabY_b L V s * correl_XabY_b L V s) / 2 := by
    unfold rm2AB0B
    rw [Dbl.half_mul]
  have hfA : fABA0 L V s = (1 - correl_XabYa_ L V s) / (2 * (1 - rm2ABA0 L V s)) := by
    unfold fABA0
    rw [h1, h2]
  have hfB : fAB0B L V s = (1 - correl_XabY_b L V s) / (2 * (1 - rm2AB0B L V s)) := by
    unfold fAB0B
    rw [h1, h2]
  have hhA : hABA0 L V s = (1 - fABA0 L V s * rm2ABA0 L V s) / (1 - rm2ABA0 L V s) := by
    unfold hABA0
    rw [h1]
  have hhB : hAB0B L V s = (1 - fAB0B L V s * rm2AB0B L V s) / (1 - rm2AB0B L V s) := by
    unfold hAB0B
    rw [h1]
  refine ⟨?_, ?_, ?_, hrA, hrB, hfA, hfB, hhA, hhB⟩
  · unfold apply_min_sample
    rw [if_neg henough]
  · unfold zABA0 steiger_z sqrt_nAB
    simp only [h1, h2, h3]
    rw [hhA, hfA, hrA]
  · unfold zAB0B steiger_z sqrt_nAB
    simp only [h1, h2, h3]
    rw [hhB, hfB, hrB]

end engine

/-- The second pass on `store_two_and_one`, with two natural and two isotope
samples and `min_sample = 2`: `n = 4`. -/
theorem z_is_steiger_witness :
    ¬ ((Dbl.ofNat pass_with_stale_samples.samples.data_nat.length : Dbl ℚ) < 2.0 ∨
      (Dbl.ofNat pass_with_stale_samples.samples.data_iso.length : Dbl ℚ) < 2.0) ∧
    apply_min_sample (2.0 : Dbl ℚ) pass_with_stale_samples.samples
      = (pass_with_stale_samples.samples, Dbl.ofNat (2 + 2)) ∧
    zABA0 libm_q vector_h pass_with_stale_samples.samples 4
      = steiger_z libm_q (correl_XabYab libm_q vector_h pass_with_stale_samples.samples)
          (correl_XabYa_ libm_q vector_h pass_with_stale_samples.samples)
          (correl_YabYa_ libm_q vector_h pass_with_stale_samples.samples) 4 :=
  have h := z_is_steiger libm_q vector_h pass_with_stale_samples.samples 2.0 4 (by decide!)
  ⟨by decide!, h.1, h.2.1⟩

/-! ## Theorems: symmetry of the retention-time kernel -/

section engine

variable {α : Type} [LinearOrderedField α]

/-- Entry `i` of `rt_shape` for a positive number `rt_width`, as a number. -/
theorem rt_shape_entry (L : Libm α) (sc : Scorer α) (rt_width : α)
    (hwidth : sc.rt_width = Dbl.fin rt_width) (hpos : 0 < rt_width)
    (hd : 0 < L.std_dev_in_fwhm) (hr : 0 < L.root2pi) (i : Nat)
    (hi : (i : Int) ≤ 2 * sc.half_window) :
    (rt_shape L sc)[i]?
      = some (Dbl.fin
          (L.exp (-(1 / 2) * ((((i : Int) - sc.half_window : Int) : α)
              / (rt_width / L.std_dev_in_fwhm))
            * ((((i : Int) - sc.half_window : Int) : α) / (rt_width / L.std_dev_in_fwhm)))
            / (rt_width / L.std_dev_in_fwhm * L.root2pi))) := by
  have hs : 0 < rt_width / L.std_dev_in_fwhm := div_pos hpos hd
  have hlt : i < (2 * sc.half_window + 1).toNat := by omega
  unfold rt_shape
  simp only [List.getElem?_map, List.getElem?_range hlt, Option.map_some', hwidth,
    Dbl.fin_div _ _ hd.ne', Dbl.ofInt, Dbl.fin_div _ _ hs.ne', Dbl.lit_0_5, Dbl.fin_neg,
    Dbl.fin_mul, Dbl.exp, Dbl.fin_div _ _ (mul_pos hs hr).ne']

/-- Claim C30. For a `<cmath>` whose `exp` is positive and monotone, a positive
`root2pi`, a positive `std_dev_in_fwhm`, a positive number `rt_width` and
`half_window >= 0`: for every `i` in `[0, 2 * half_window]` the entries `i` and
`2 * half_window - i` of `rt_shape` are the same number, which is positive
and at most the entry `half_window`. -/
theorem rt_shape_is_symmetric (L : Libm α) (sc : Scorer α) (rt_width : α)
    (hexp_pos : ∀ x : α, 0 < L.exp x) (hexp_mono : ∀ x y : α, x ≤ y → L.exp x ≤ L.exp y)
    (hr : 0 < L.root2pi) (hd : 0 < L.std_dev_in_fwhm)
    (hwidth : sc.rt_width = Dbl.fin rt_width) (hpos : 0 < rt_width)
    (hh : 0 ≤ sc.half_window) (i : Nat) (hi : (i : Int) ≤ 2 * sc.half_window) :
    ∃ a c : α,
      (rt_shape L sc)[i]? = some (Dbl.fin a) ∧
      (rt_shape L sc)[(2 * sc.half_window - (i : Int)).toNat]? = some (Dbl.fin a) ∧
      (rt_shape L sc)[sc.half_window.toNat]? = some (Dbl.fin c) ∧
      0 < a ∧ a ≤ c ∧
      (0 : Dbl α) < Dbl.fin a ∧ Dbl.fin a ≤ Dbl.fin c := by
  have hs : 0 < rt_width / L.std_dev_in_fwhm := div_pos hpos hd
  have hden : 0 < rt_width / L.std_dev_in_fwhm * L.root2pi := mul_pos hs hr
  have h1 := rt_shape_entry L sc rt_width hwidth hpos hd hr i hi
  have h2 := rt_shape_entry L sc rt_width hwidth hpos hd hr
    (2 * sc.half_window - (i : Int)).toNat (by omega)
  have h3 := rt_shape_entry L sc rt_width hwidth hpos hd hr sc.half_window.toNat (by omega)
  have hj : (((2 * sc.half_window - (i : Int)).toNat : Int) - sc.half_window : Int)
      = -((i : Int) - sc.half_window) := by omega
  have hc : ((sc.half_window.toNat : Int) - sc.half_window : Int) = 0 := by omega
  have hpt : ∀ p : α, -(1 / 2) * p * p ≤ 0 := by
    intro p
    nlinarith [mul_self_nonneg p]
  refine ⟨_, _, h1, ?_, h3, div_pos (hexp_pos _) hden, ?_, ?_, ?_⟩
  · rw [h2, hj]
    congr 3
    push_cast
    ring_nf
  · apply div_le_div_of_nonneg_right _ hden.le
    apply hexp_mono
    rw [hc]
    simp only [Int.cast_zero, zero_div, mul_zero]
    exact hpt _
  · rw [Dbl.lit_zero, Dbl.fin_lt]
    exact div_pos (hexp_pos _) hden
  · rw [Dbl.fin_le]
    apply div_le_div_of_nonneg_right _ hden.le
    apply hexp_mono
    rw [hc]
    simp only [Int.cast_zero, zero_div, mul_zero]
    exact hpt _

end engine

/-- Witness for C30: over the reals, with the exponential function, `rt_width = 17`
and `half_window = 1`, at `i = 0`. -/
theorem rt_shape_is_symmetric_witness :
    ∃ a c : ℝ,
      (rt_shape
          { sqrt := Real.sqrt, exp := Real.exp, atanh := fun x => x,
            root2pi := Real.sqrt (2 * Real.pi), std_dev_in_fwhm := 2.355 }
          { intensity_ratio := 2.0, rt_width := Dbl.fin 17, rt_sigma := 0.1, ppm := 4.0,
            mz_width := 150.0, mz_sigma := 1.5, mz_delta := 6.0201, min_sample := 2.0,
            half_window := 1, input_map := [] })[0]? = some (Dbl.fin a) ∧
      (rt_shape
          { sqrt := Real.sqrt, exp := Real.exp, atanh := fun x => x,
            root2pi := Real.sqrt (2 * Real.pi), std_dev_in_fwhm := 2.355 }
          { intensity_ratio := 2.0, rt_width := Dbl.fin 17, rt_sigma := 0.1, ppm := 4.0,
            mz_width := 150.0, mz_sigma := 1.5, mz_delta := 6.0201, min_sample := 2.0,
            half_window := 1, input_map := [] })[2]? = some (Dbl.fin a) ∧
      (rt_shape
          { sqrt := Real.sqrt, exp := Real.exp, atanh := fun x => x,
            root2pi := Real.sqrt (2 * Real.pi), std_dev_in_fwhm := 2.355 }
          { intensity_ratio := 2.0, rt_width := Dbl.fin 17, rt_sigma := 0.1, ppm := 4.0,
            mz_width := 150.0, mz_sigma := 1.5, mz_delta := 6.0201, min_sample := 2.0,
            half_window := 1, input_map := [] })[1]? = some (Dbl.fin c) ∧
      0 < a ∧ a ≤ c := by
  obtain ⟨a, c, h1, h2, h3, h4, h5, _⟩ := rt_shape_is_symmetric
    { sqrt := Real.sqrt, exp := Real.exp, atanh := fun x => x,
      root2pi := Real.sqrt (2 * Real.pi), std_dev_in_fwhm := 2.355 }
    { intensity_ratio := 2.0, rt_width := Dbl.fin 17, rt_sigma := 0.1, ppm := 4.0,
      mz_width := 150.0, mz_sigma := 1.5, mz_delta := 6.0201, min_sample := 2.0,
      half_window := 1, input_map := [] }
    17 Real.exp_pos (fun x y h => Real.exp_le_exp.2 h)
    (Real.sqrt_pos.2 (by positivity)) (by norm_num) rfl (by norm_num) (by decide) 0 (by decide)
  exact ⟨a, c, h1, h2, h3, h4, h5⟩

/-! ## Theorems: the statistics on sample lists of numbers -/

section engine

variable {α : Type} [LinearOrderedField α]

theorem foldl_add_fin (l : List α) :
    ∀ a : α, (l.map Dbl.fin).foldl (· + ·) (Dbl.fin a) = Dbl.fin (a + l.sum) := by
  induction l with
  | nil => intro a; simp
  | cons x l ih =>
    intro a
    rw [List.map_cons, List.foldl_cons, Dbl.fin_add, ih, List.sum_cons, add_assoc]

/-- The mean of `vector.h` on a non-empty list of numbers. -/
theorem mean_vector_fin (l : List α) (h : l ≠ []) :
    (vector_h : VectorLib α).mean_vector (l.map Dbl.fin) = Dbl.fin (rmean l) := by
  have hlen : ((l.length : Nat) : α) ≠ 0 :=
    Nat.cast_ne_zero.2 (fun h0 => h (List.length_eq_zero.1 h0))
  show (l.map Dbl.fin).foldl (· + ·) 0 / Dbl.ofNat (l.map Dbl.fin).length = _
  rw [Dbl.lit_zero, foldl_add_fin, List.length_map, zero_add]
  show Dbl.fin l.sum / Dbl.fin (l.length : α) = _
  rw [Dbl.fin_div _ _ hlen]
  rfl

theorem shift_vector_fin (l : List α) (c : α) :
    (vector_h : VectorLib α).shift_vector (l.map Dbl.fin) (Dbl.fin c)
      = (centred l c).map Dbl.fin := by
  show (l.map Dbl.fin).map (fun x => x - Dbl.fin c) = (l.map (fun x => x - c)).map Dbl.fin
  rw [List.map_map, List.map_map]
  apply List.map_congr_left
  intro x _
  simp

theorem square_vector_fin (l : List α) :
    (vector_h : VectorLib α).square_vector (l.map Dbl.fin)
      = (List.zipWith (· * ·) l l).map Dbl.fin := by
  show (l.map Dbl.fin).map (fun x => x * x) = _
  induction l with
  | nil => rfl
  | cons x l ih => simp [ih]

theorem mult_vectors_fin (l k : List α) :
    (vector_h : VectorLib α).mult_vectors (l.map Dbl.fin) (k.map Dbl.fin)
      = (List.zipWith (· * ·) l k).map Dbl.fin := by
  show List.zipWith (· * ·) (l.map Dbl.fin) (k.map Dbl.fin) = _
  induction l generalizing k with
  | nil => simp
  | cons x l ih =>
    cases k with
    | nil => simp
    | cons y k => simp [ih]

theorem zipWith_ne_nil {β : Type} (f : β → β → β) (l k : List β) (hl : l ≠ []) (hk : k ≠ []) :
    List.zipWith f l k ≠ [] := by
  cases l with
  | nil => exact absurd rfl hl
  | cons x l =>
    cases k with
    | nil => exact absurd rfl hk
    | cons y k => simp

theorem centred_ne_nil (l : List α) (c : α) (h : l ≠ []) : centred l c ≠ [] := by
  unfold centred
  simpa using h

theorem ne_nil_of_length_eq {β : Type} (l k : List β) (h : l.length = k.length) (hl : l ≠ []) :
    k ≠ [] := by
  intro hk
  subst hk
  exact hl (List.length_eq_zero.1 h)

/-- The quantities of model AB on sample lists of numbers with non-empty
regions. -/
theorem values_AB (xa xb ya yb : List α) (hxa : xa ≠ []) (hxb : xb ≠ []) (hya : ya ≠ [])
    (hyb : yb ≠ []) :
    EXab vector_h (Samples.ofNumbers xa xb ya yb) = Dbl.fin ((rmean xa + rmean xb) / 2) ∧
    EYab vector_h (Samples.ofNumbers xa xb ya yb) = Dbl.fin ((rmean ya + rmean yb) / 2) ∧
    cov_Xab vector_h (Samples.ofNumbers xa xb ya yb)
      = Dbl.fin (hier (centred xa ((rmean xa + rmean xb) / 2))
          (centred ya ((rmean ya + rmean yb) / 2))
          (centred xb ((rmean xa + rmean xb) / 2)) (centred yb ((rmean ya + rmean yb) / 2))) ∧
    var_Xab vector_h (Samples.ofNumbers xa xb ya yb)
      = Dbl.fin (hier (centred xa ((rmean xa + rmean xb) / 2))
          (centred xa ((rmean xa + rmean xb) / 2))
          (centred xb ((rmean xa + rmean xb) / 2)) (centred xb ((rmean xa + rmean xb) / 2))) ∧
    var_Yab vector_h (Samples.ofNumbers xa xb ya yb)
      = Dbl.fin (hier (centred ya ((rmean ya + rmean yb) / 2))
          (centred ya ((rmean ya + rmean yb) / 2))
          (centred yb ((rmean ya + rmean yb) / 2)) (centred yb ((rmean ya + rmean yb) / 2))) := by
  have hEX : EXab vector_h (Samples.ofNumbers xa xb ya yb)
      = Dbl.fin ((rmean xa + rmean xb) / 2) := by
    simp only [EXab, EXa, EXb, Samples.ofNumbers, mean_vector_fin xa hxa, mean_vector_fin xb hxb,
      mean_scalars_fin]
  have hEY : EYab vector_h (Samples.ofNumbers xa xb ya yb)
      = Dbl.fin ((rmean ya + rmean yb) / 2) := by
    simp only [EYab, EYa, EYb, Samples.ofNumbers, mean_vector_fin ya hya, mean_vector_fin yb hyb,
      mean_scalars_fin]
  have hCXa : CXa vector_h (Samples.ofNumbers xa xb ya yb)
      = (centred xa ((rmean xa + rmean xb) / 2)).map Dbl.fin := by
    rw [CXa, hEX]
    exact shift_vector_fin xa _
  have hCXb : CXb vector_h (Samples.ofNumbers xa xb ya yb)
      = (centred xb ((rmean xa + rmean xb) / 2)).map Dbl.fin := by
    rw [CXb, hEX]
    exact shift_vector_fin xb _
  have hCYa : CYa vector_h (Samples.ofNumbers xa xb ya yb)
      = (centred ya ((rmean ya + rmean yb) / 2)).map Dbl.fin := by
    rw [CYa, hEY]
    exact shift_vector_fin ya _
  have hCYb : CYb vector_h (Samples.ofNumbers xa xb ya yb)
      = (centred yb ((rmean ya + rmean yb) / 2)).map Dbl.fin := by
    rw [CYb, hEY]
    exact shift_vector_fin yb _
  refine ⟨hEX, hEY, ?_, ?_, ?_⟩
  · simp only [cov_Xab, ECXaCYa, ECXbCYb, CXaCYa, CXbCYb, hCXa, hCXb, hCYa, hCYb,
      mult_vectors_fin]
    rw [mean_vector_fin _ (zipWith_ne_nil _ _ _ (centred_ne_nil _ _ hxa) (centred_ne_nil _ _ hya)),
      mean_vector_fin _ (zipWith_ne_nil _ _ _ (centred_ne_nil _ _ hxb) (centred_ne_nil _ _ hyb)),
      mean_scalars_fin]
    rfl
  · simp only [var_Xab, ECXa2, ECXb2, CXa2, CXb2, hCXa, hCXb, square_vector_fin]
    rw [mean_vector_fin _ (zipWith_ne_nil _ _ _ (centred_ne_nil _ _ hxa) (centred_ne_nil _ _ hxa)),
      mean_vector_fin _ (zipWith_ne_nil _ _ _ (centred_ne_nil _ _ hxb) (centred_ne_nil _ _ hxb)),
      mean_scalars_fin]
    rfl
  · simp only [var_Yab, ECYa2, ECYb2, CYa2, CYb2, hCYa, hCYb, square_vector_fin]
    rw [mean_vector_fin _ (zipWith_ne_nil _ _ _ (centred_ne_nil _ _ hya) (centred_ne_nil _ _ hya)),
      mean_vector_fin _ (zipWith_ne_nil _ _ _ (centred_ne_nil _ _ hyb) (centred_ne_nil _ _ hyb)),
      mean_scalars_fin]
    rfl

end engine

section engine

variable {α : Type} [LinearOrderedField α]

/-- The quantities of model A0 on sample lists of numbers with non-empty
regions, `e` being `EYa_`. -/
theorem values_A0 (xa xb ya yb : List α) (hxa : xa ≠ []) (hxb : xb ≠ []) (hya : ya ≠ []) :
    EYa_ vector_h (Samples.ofNumbers xa xb ya yb) = Dbl.fin (1 / 2 * rmean ya) ∧
    cov_Xa_ vector_h (Samples.ofNumbers xa xb ya yb)
      = Dbl.fin ((rmean (List.zipWith (· * ·) (centred xa ((rmean xa + rmean xb) / 2))
            (centred ya (1 / 2 * rmean ya)))
          + -(rmean (centred xb ((rmean xa + rmean xb) / 2)) * (1 / 2 * rmean ya))) / 2) ∧
    var_Ya_ vector_h (Samples.ofNumbers xa xb ya yb)
      = Dbl.fin ((rmean (List.zipWith (· * ·) (centred ya (1 / 2 * rmean ya))
            (centred ya (1 / 2 * rmean ya)))
          + 1 / 2 * rmean ya * (1 / 2 * rmean ya)) / 2) := by
  have hEX : EXab vector_h (Samples.ofNumbers xa xb ya yb)
      = Dbl.fin ((rmean xa + rmean xb) / 2) := by
    simp only [EXab, EXa, EXb, Samples.ofNumbers, mean_vector_fin xa hxa, mean_vector_fin xb hxb,
      mean_scalars_fin]
  have hE : EYa_ vector_h (Samples.ofNumbers xa xb ya yb) = Dbl.fin (1 / 2 * rmean ya) := by
    simp only [EYa_, EYa, Samples.ofNumbers, mean_vector_fin ya hya, Dbl.lit_0_5, Dbl.fin_mul]
  have hCXa : CXa vector_h (Samples.ofNumbers xa xb ya yb)
      = (centred xa ((rmean xa + rmean xb) / 2)).map Dbl.fin := by
    rw [CXa, hEX]
    exact shift_vector_fin xa _
  have hCXb : CXb vector_h (Samples.ofNumbers xa xb ya yb)
      = (centred xb ((rmean xa + rmean xb) / 2)).map Dbl.fin := by
    rw [CXb, hEX]
    exact shift_vector_fin xb _
  have hCYa_ : CYa_ vector_h (Samples.ofNumbers xa xb ya yb)
      = (centred ya (1 / 2 * rmean ya)).map Dbl.fin := by
    rw [CYa_, hE]
    exact shift_vector_fin ya _
  refine ⟨hE, ?_, ?_⟩
  · simp only [cov_Xa_, ECXaCYaEa_, ECXbCYbEa_, CXaCYa_, hCXa, hCXb, hCYa_, hE,
      mult_vectors_fin]
    rw [mean_vector_fin _ (zipWith_ne_nil _ _ _ (centred_ne_nil _ _ hxa) (centred_ne_nil _ _ hya)),
      mean_vector_fin _ (centred_ne_nil _ _ hxb), mult_scalars_fin, Dbl.fin_neg,
      mean_scalars_fin]
  · simp only [var_Ya_, ECYaEa_2, ECYbEa_2, CYa_2, hCYa_, hE, square_vector_fin]
    rw [mean_vector_fin _ (zipWith_ne_nil _ _ _ (centred_ne_nil _ _ hya) (centred_ne_nil _ _ hya)),
      mult_scalars_fin, mean_scalars_fin]

/-- The quantities of model 0B on sample lists of numbers with non-empty
regions, `e` being `EY_b`. -/
theorem values_0B (xa xb ya yb : List α) (hxa : xa ≠ []) (hxb : xb ≠ []) (hyb : yb ≠ []) :
    EY_b vector_h (Samples.ofNumbers xa xb ya yb) = Dbl.fin (1 / 2 * rmean yb) ∧
    cov_X_b vector_h (Samples.ofNumbers xa xb ya yb)
      = Dbl.fin ((-(rmean (centred xa ((rmean xa + rmean xb) / 2)) * (1 / 2 * rmean yb))
          + rmean (List.zipWith (· * ·) (centred xb ((rmean xa + rmean xb) / 2))
            (centred yb (1 / 2 * rmean yb)))) / 2) ∧
    var_Y_b vector_h (Samples.ofNumbers xa xb ya yb)
      = Dbl.fin ((1 / 2 * rmean yb * (1 / 2 * rmean yb)
          + rmean (List.zipWith (· * ·) (centred yb (1 / 2 * rmean yb))
            (centred yb (1 / 2 * rmean yb)))) / 2) := by
  have hEX : EXab vector_h (Samples.ofNumbers xa xb ya yb)
      = Dbl.fin ((rmean xa + rmean xb) / 2) := by
    simp only [EXab, EXa, EXb, Samples.ofNumbers, mean_vector_fin xa hxa, mean_vector_fin xb hxb,
      mean_scalars_fin]
  have hE : EY_b vector_h (Samples.ofNumbers xa xb ya yb) = Dbl.fin (1 / 2 * rmean yb) := by
    simp only [EY_b, EYb, Samples.ofNumbers, mean_vector_fin yb hyb, Dbl.lit_0_5, Dbl.fin_mul]
  have hCXa : CXa vector_h (Samples.ofNumbers xa xb ya yb)
      = (centred xa ((rmean xa + rmean xb) / 2)).map Dbl.fin := by
    rw [CXa, hEX]
    exact shift_vector_fin xa _
  have hCXb : CXb vector_h (Samples.ofNumbers xa xb ya yb)
      = (centred xb ((rmean xa + rmean xb) / 2)).map Dbl.fin := by
    rw [CXb, hEX]
    exact shift_vector_fin xb _
  have hCY_b : CY_b vector_h (Samples.ofNumbers xa xb ya yb)
      = (centred yb (1 / 2 * rmean yb)).map Dbl.fin := by
    rw [CY_b, hE]
    exact shift_vector_fin yb _
  refine ⟨hE, ?_, ?_⟩
  · simp only [cov_X_b, ECXaCYaE_b, ECXbCYbE_b, CXbCY_b, hCXa, hCXb, hCY_b, hE,
      mult_vectors_fin]
    rw [mean_vector_fin _ (zipWith_ne_nil _ _ _ (centred_ne_nil _ _ hxb) (centred_ne_nil _ _ hyb)),
      mean_vector_fin _ (centred_ne_nil _ _ hxa), mult_scalars_fin, Dbl.fin_neg,
      mean_scalars_fin]
  · simp only [var_Y_b, ECYaE_b2, ECYbE_b2, CY_b2, hCY_b, hE, square_vector_fin]
    rw [mean_vector_fin _ (zipWith_ne_nil _ _ _ (centred_ne_nil _ _ hyb) (centred_ne_nil _ _ hyb)),
      mult_scalars_fin, mean_scalars_fin]

theorem zipWith_mul_const (c : α) :
    ∀ (l : List α) (k : List α), l.length = k.length →
      List.zipWith (· * ·) l (k.map (fun _ => c)) = l.map (fun x => x * c)
  | [], [], _ => rfl
  | [], _ :: _, h => by simp at h
  | _ :: _, [], h => by simp at h
  | x :: l, y :: k, h => by
    simp only [List.length_cons, add_left_inj] at h
    rw [List.map_cons, List.zipWith_cons_cons, zipWith_mul_const c l k h, List.map_cons]

theorem rmean_map_mul_const (l : List α) (c : α) :
    rmean (l.map (fun x => x * c)) = rmean l * c := by
  unfold rmean
  rw [List.sum_map_mul_right, List.length_map]
  simp only [List.map_id', div_mul_eq_mul_div]

theorem rmean_const (k : List α) (c : α) (h : k ≠ []) : rmean (k.map (fun _ => c)) = c := by
  have hlen : ((k.length : Nat) : α) ≠ 0 :=
    Nat.cast_ne_zero.2 (fun h0 => h (List.length_eq_zero.1 h0))
  unfold rmean
  rw [List.length_map, List.map_const', List.sum_replicate, nsmul_eq_mul]
  field_simp

end engine

section engine

variable {α : Type} [LinearOrderedField α]

theorem ofNumbers_flat_iso (xa xb ya yb : List α) :
    { Samples.ofNumbers xa xb ya yb with
      shape_iso := (Samples.ofNumbers xa xb ya yb).shape_iso.map (fun _ => (0 : Dbl α)) }
      = Samples.ofNumbers xa xb ya (yb.map (fun _ => (0 : α))) := by
  simp only [Samples.ofNumbers, List.map_map, Function.comp_def, Dbl.lit_zero]

theorem ofNumbers_flat_nat (xa xb ya yb : List α) :
    { Samples.ofNumbers xa xb ya yb with
      shape_nat := (Samples.ofNumbers xa xb ya yb).shape_nat.map (fun _ => (0 : Dbl α)) }
      = Samples.ofNumbers xa xb (ya.map (fun _ => (0 : α))) yb := by
  simp only [Samples.ofNumbers, List.map_map, Function.comp_def, Dbl.lit_zero]

/-- Model A0 is model AB with every shape sample of the isotope region
replaced by `0`. -/
theorem flat_zero_iso (xa xb ya yb : List α) (hxa : xa ≠ []) (hxb : xb ≠ []) (hya : ya ≠ [])
    (hyb : xb.length = yb.length) :
    cov_Xa_ vector_h (Samples.ofNumbers xa xb ya yb)
      = cov_Xab vector_h (Samples.ofNumbers xa xb ya (yb.map (fun _ => (0 : α)))) ∧
    var_Ya_ vector_h (Samples.ofNumbers xa xb ya yb)
      = var_Yab vector_h (Samples.ofNumbers xa xb ya (yb.map (fun _ => (0 : α)))) := by
  have hyb0 : yb ≠ [] := ne_nil_of_length_eq xb yb hyb hxb
  have hz : (yb.map (fun _ => (0 : α))) ≠ [] := by simpa using hyb0
  obtain ⟨_, _, hcov, _, hvar⟩ := values_AB xa xb ya (yb.map (fun _ => (0 : α))) hxa hxb hya hz
  obtain ⟨_, hcovA, hvarA⟩ := values_A0 xa xb ya yb hxa hxb hya
  have he : (rmean ya + rmean (yb.map (fun _ => (0 : α)))) / 2 = 1 / 2 * rmean ya := by
    rw [rmean_const yb 0 hyb0]
    ring
  have hc : centred (yb.map (fun _ => (0 : α))) (1 / 2 * rmean ya)
      = yb.map (fun _ => 0 - 1 / 2 * rmean ya) := by
    unfold centred
    rw [List.map_map]
    rfl
  have hlen : (centred xb ((rmean xa + rmean xb) / 2)).length = yb.length := by
    unfold centred
    rw [List.length_map, hyb]
  rw [hcovA, hvarA, hcov, hvar, he, hc]
  unfold hier
  rw [zipWith_mul_const _ _ _ hlen, rmean_map_mul_const,
    zipWith_mul_const _ (yb.map (fun _ => 0 - 1 / 2 * rmean ya)) yb (by simp),
    rmean_map_mul_const, rmean_const yb _ hyb0]
  constructor
  · congr 1
    ring
  · congr 1
    ring

/-- Model 0B is model AB with every shape sample of the natural region
replaced by `0`. -/
theorem flat_zero_nat (xa xb ya yb : List α) (hxa : xa ≠ []) (hxb : xb ≠ []) (hyb : yb ≠ [])
    (hya : xa.length = ya.length) :
    cov_X_b vector_h (Samples.ofNumbers xa xb ya yb)
      = cov_Xab vector_h (Samples.ofNumbers xa xb (ya.map (fun _ => (0 : α))) yb) ∧
    var_Y_b vector_h (Samples.ofNumbers xa xb ya yb)
      = var_Yab vector_h (Samples.ofNumbers xa xb (ya.map (fun _ => (0 : α))) yb) := by
  have hya0 : ya ≠ [] := ne_nil_of_length_eq xa ya hya hxa
  have hz : (ya.map (fun _ => (0 : α))) ≠ [] := by simpa using hya0
  obtain ⟨_, _, hcov, _, hvar⟩ := values_AB xa xb (ya.map (fun _ => (0 : α))) yb hxa hxb hz hyb
  obtain ⟨_, hcovB, hvarB⟩ := values_0B xa xb ya yb hxa hxb hyb
  have he : (rmean (ya.map (fun _ => (0 : α))) + rmean yb) / 2 = 1 / 2 * rmean yb := by
    rw [rmean_const ya 0 hya0]
    ring
  have hc : centred (ya.map (fun _ => (0 : α))) (1 / 2 * rmean yb)
      = ya.map (fun _ => 0 - 1 / 2 * rmean yb) := by
    unfold centred
    rw [List.map_map]
    rfl
  have hlen : (centred xa ((rmean xa + rmean xb) / 2)).length = ya.length := by
    unfold centred
    rw [List.length_map, hya]
  rw [hcovB, hvarB, hcov, hvar, he, hc]
  unfold hier
  rw [zipWith_mul_const _ _ _ hlen, rmean_map_mul_const,
    zipWith_mul_const _ (ya.map (fun _ => 0 - 1 / 2 * rmean yb)) ya (by simp),
    rmean_map_mul_const, rmean_const ya _ hya0]
  constructor
  · congr 1
    ring
  · congr 1
    ring

/-- Claim C22. For sample lists of numbers with non-empty regions, `cov_Xa_` and
`var_Ya_` of model A0 are the covariance `cov_Xab` and the variance
`var_Yab` of model AB computed on the sample lists in which every shape
sample of the isotope region is replaced by `0`; `cov_X_b` and `var_Y_b` of
model 0B are those computed with every shape sample of the natural region
replaced by `0`; and `EXab` and `var_Xab`, which do not read the shape
samples, are the same in the three models. -/
theorem single_region_models_are_flat_zero (xa xb ya yb : List α) (hxa : xa ≠ [])
    (hxb : xb ≠ []) (hya : xa.length = ya.length) (hyb : xb.length = yb.length) :
    (cov_Xa_ vector_h (Samples.ofNumbers xa xb ya yb)
        = cov_Xab vector_h
            { Samples.ofNumbers xa xb ya yb with
              shape_iso := (Samples.ofNumbers xa xb ya yb).shape_iso.map (fun _ => 0) } ∧
      var_Ya_ vector_h (Samples.ofNumbers xa xb ya yb)
        = var_Yab vector_h
            { Samples.ofNumbers xa xb ya yb with
              shape_iso := (Samples.ofNumbers xa xb ya yb).shape_iso.map (fun _ => 0) }) ∧
    (cov_X_b vector_h (Samples.ofNumbers xa xb ya yb)
        = cov_Xab vector_h
            { Samples.ofNumbers xa xb ya yb with
              shape_nat := (Samples.ofNumbers xa xb ya yb).shape_nat.map (fun _ => 0) } ∧
      var_Y_b vector_h (Samples.ofNumbers xa xb ya yb)
        = var_Yab vector_h
            { Samples.ofNumbers xa xb ya yb with
              shape_nat := (Samples.ofNumbers xa xb ya yb).shape_nat.map (fun _ => 0) }) ∧
    (∀ shape_nat shape_iso : List (Dbl α),
      EXab vector_h
          { Samples.ofNumbers xa xb ya yb with shape_nat := shape_nat, shape_iso := shape_iso }
        = EXab vector_h (Samples.ofNumbers xa xb ya yb) ∧
      var_Xab vector_h
          { Samples.ofNumbers xa xb ya yb with shape_nat := shape_nat, shape_iso := shape_iso }
        = var_Xab vector_h (Samples.ofNumbers xa xb ya yb)) := by
  have hya0 : ya ≠ [] := ne_nil_of_length_eq xa ya hya hxa
  have hyb0 : yb ≠ [] := ne_nil_of_length_eq xb yb hyb hxb
  refine ⟨?_, ?_, fun _ _ => ⟨rfl, rfl⟩⟩
  · rw [ofNumbers_flat_iso]
    exact flat_zero_iso xa xb ya yb hxa hxb hya0 hyb
  · rw [ofNumbers_flat_nat]
    exact flat_zero_nat xa xb ya yb hxa hxb hyb0 hya

end engine

/-- Witness for C22: two natural samples `(1, 2)`, `(3, 4)` and one isotope
sample `(5, 6)`, as (intensity, shape). -/
theorem single_region_models_are_flat_zero_witness :
    cov_Xa_ vector_h (Samples.ofNumbers [(1 : ℚ), 3] [5] [2, 4] [6])
      = cov_Xab vector_h (Samples.ofNumbers [(1 : ℚ), 3] [5] [2, 4] [0]) ∧
    var_Ya_ vector_h (Samples.ofNumbers [(1 : ℚ), 3] [5] [2, 4] [6])
      = var_Yab vector_h (Samples.ofNumbers [(1 : ℚ), 3] [5] [2, 4] [0]) ∧
    cov_Xa_ vector_h (Samples.ofNumbers [(1 : ℚ), 3] [5] [2, 4] [6]) = Dbl.fin (-7 / 4) ∧
    var_Ya_ vector_h (Samples.ofNumbers [(1 : ℚ), 3] [5] [2, 4] [6]) = Dbl.fin (11 / 4) := by
  have h := (single_region_models_are_flat_zero [(1 : ℚ), 3] [5] [2, 4] [6] (by decide)
    (by decide) rfl rfl).1
  obtain ⟨_, hcov, hvar⟩ := values_A0 [(1 : ℚ), 3] [5] [2, 4] [6] (by decide) (by decide)
    (by decide)
  refine ⟨h.1, h.2, ?_, ?_⟩
  · rw [hcov]
    norm_num [rmean, centred]
  · rw [hvar]
    norm_num [rmean, centred]

section engine

variable {α : Type} [LinearOrderedField α]

theorem sum_centred (l : List α) (c : α) : (centred l c).sum = l.sum - l.length * c := by
  unfold centred
  induction l with
  | nil => simp
  | cons x l ih =>
    rw [List.map_cons, List.sum_cons, ih, List.sum_cons, List.length_cons, Nat.cast_succ]
    ring

theorem rmean_centred (l : List α) (c : α) (h : l ≠ []) : rmean (centred l c) = rmean l - c := by
  have hlen : ((l.length : Nat) : α) ≠ 0 :=
    Nat.cast_ne_zero.2 (fun h0 => h (List.length_eq_zero.1 h0))
  unfold rmean
  rw [sum_centred]
  have : (centred l c).length = l.length := by
    unfold centred
    rw [List.length_map]
  rw [this]
  field_simp

/-- The terms of the covariances between the models on sample lists of
numbers with non-empty regions: those the code computes and those the
declarations describe. -/
theorem values_between (xa xb ya yb : List α) (hya : ya ≠ []) (hyb : yb ≠ []) :
    ECYaCYaEa_ vector_h (Samples.ofNumbers xa xb ya yb)
      = Dbl.fin (rmean (List.zipWith (· * ·) (centred ya ((rmean ya + rmean yb) / 2))
          (centred ya (1 / 2 * rmean ya)))) ∧
    ECYbCYbE_b vector_h (Samples.ofNumbers xa xb ya yb)
      = Dbl.fin (rmean (List.zipWith (· * ·) (centred yb ((rmean ya + rmean yb) / 2))
          (centred yb (1 / 2 * rmean yb)))) ∧
    ECYbCYbEa_ vector_h (Samples.ofNumbers xa xb ya yb)
      = Dbl.fin (-((rmean ya - rmean yb) / 2 * (1 / 2 * rmean ya))) ∧
    ECYbCYbEa_spec vector_h (Samples.ofNumbers xa xb ya yb)
      = Dbl.fin ((rmean ya - rmean yb) / 2 * (1 / 2 * rmean ya)) ∧
    ECYaCYaE_b vector_h (Samples.ofNumbers xa xb ya yb)
      = Dbl.fin (-((rmean yb - rmean ya) / 2 * (1 / 2 * rmean yb))) ∧
    ECYaCYaE_b_spec vector_h (Samples.ofNumbers xa xb ya yb)
      = Dbl.fin ((rmean yb - rmean ya) / 2 * (1 / 2 * rmean yb)) := by
  have hEY : EYab vector_h (Samples.ofNumbers xa xb ya yb)
      = Dbl.fin ((rmean ya + rmean yb) / 2) := by
    simp only [EYab, EYa, EYb, Samples.ofNumbers, mean_vector_fin ya hya, mean_vector_fin yb hyb,
      mean_scalars_fin]
  have hEa : EYa_ vector_h (Samples.ofNumbers xa xb ya yb) = Dbl.fin (1 / 2 * rmean ya) := by
    simp only [EYa_, EYa, Samples.ofNumbers, mean_vector_fin ya hya, Dbl.lit_0_5, Dbl.fin_mul]
  have hEb : EY_b vector_h (Samples.ofNumbers xa xb ya yb) = Dbl.fin (1 / 2 * rmean yb) := by
    simp only [EY_b, EYb, Samples.ofNumbers, mean_vector_fin yb hyb, Dbl.lit_0_5, Dbl.fin_mul]
  have hCYa : CYa vector_h (Samples.ofNumbers xa xb ya yb)
      = (centred ya ((rmean ya + rmean yb) / 2)).map Dbl.fin := by
    rw [CYa, hEY]
    exact shift_vector_fin ya _
  have hCYb : CYb vector_h (Samples.ofNumbers xa xb ya yb)
      = (centred yb ((rmean ya + rmean yb) / 2)).map Dbl.fin := by
    rw [CYb, hEY]
    exact shift_vector_fin yb _
  have hCYa_ : CYa_ vector_h (Samples.ofNumbers xa xb ya yb)
      = (centred ya (1 / 2 * rmean ya)).map Dbl.fin := by
    rw [CYa_, hEa]
    exact shift_vector_fin ya _
  have hCY_b : CY_b vector_h (Samples.ofNumbers xa xb ya yb)
      = (centred yb (1 / 2 * rmean yb)).map Dbl.fin := by
    rw [CY_b, hEb]
    exact shift_vector_fin yb _
  have hma : rmean (centred ya ((rmean ya + rmean yb) / 2)) = (rmean ya - rmean yb) / 2 := by
    rw [rmean_centred _ _ hya]
    ring
  have hmb : rmean (centred yb ((rmean ya + rmean yb) / 2)) = (rmean yb - rmean ya) / 2 := by
    rw [rmean_centred _ _ hyb]
    ring
  refine ⟨?_, ?_, ?_, ?_, ?_, ?_⟩
  · simp only [ECYaCYaEa_, CYaCYa_, hCYa, hCYa_, mult_vectors_fin]
    rw [mean_vector_fin _ (zipWith_ne_nil _ _ _ (centred_ne_nil _ _ hya) (centred_ne_nil _ _ hya))]
  · simp only [ECYbCYbE_b, CYbCY_b, hCYb, hCY_b, mult_vectors_fin]
    rw [mean_vector_fin _ (zipWith_ne_nil _ _ _ (centred_ne_nil _ _ hyb) (centred_ne_nil _ _ hyb))]
  · simp only [ECYbCYbEa_, hCYa, hEa]
    rw [mean_vector_fin _ (centred_ne_nil _ _ hya), mult_scalars_fin, Dbl.fin_neg, hma]
  · simp only [ECYbCYbEa_spec, hCYb, hEa]
    rw [mean_vector_fin _ (centred_ne_nil _ _ hyb), mult_scalars_fin, Dbl.fin_neg, hmb]
    congr 1
    ring
  · simp only [ECYaCYaE_b, hCYb, hEb]
    rw [mean_vector_fin _ (centred_ne_nil _ _ hyb), mult_scalars_fin, Dbl.fin_neg, hmb]
  · simp only [ECYaCYaE_b_spec, hCYa, hEb]
    rw [mean_vector_fin _ (centred_ne_nil _ _ hya), mult_scalars_fin, Dbl.fin_neg, hma]
    congr 1
    ring

/-- Claim C23. On sample lists of numbers with non-empty regions, the term
that `score_spectra` computes for the region a single-region model sets to
zero is the negative of the term its declaration describes: `ECYbCYbEa_` is
`-(-E(Ya_)*E(Yb - E(Yab)))` and `ECYaCYaE_b` is `-(-E(Y_b)*E(Ya - E(Yab)))`,
because the code takes the mean of the centred shape samples of the other
region. So `cov_YabYa_` is the documented covariance only when the mean of
the natural shape samples is `0` or the two regions have the same mean shape,
and `cov_YabY_b` only when the mean of the isotope shape samples is `0` or
the two regions have the same mean shape. -/
theorem between_model_covariance_takes_the_other_region (xa xb ya yb : List α) (hya : ya ≠ [])
    (hyb : yb ≠ []) :
    ECYbCYbEa_ vector_h (Samples.ofNumbers xa xb ya yb)
      = -(ECYbCYbEa_spec vector_h (Samples.ofNumbers xa xb ya yb)) ∧
    ECYaCYaE_b vector_h (Samples.ofNumbers xa xb ya yb)
      = -(ECYaCYaE_b_spec vector_h (Samples.ofNumbers xa xb ya yb)) ∧
    (cov_YabYa_ vector_h (Samples.ofNumbers xa xb ya yb)
        = cov_YabYa_spec vector_h (Samples.ofNumbers xa xb ya yb)
      ↔ rmean ya = 0 ∨ rmean ya = rmean yb) ∧
    (cov_YabY_b vector_h (Samples.ofNumbers xa xb ya yb)
        = cov_YabY_b_spec vector_h (Samples.ofNumbers xa xb ya yb)
      ↔ rmean yb = 0 ∨ rmean ya = rmean yb) := by
  obtain ⟨h1, h2, h3, h4, h5, h6⟩ := values_between xa xb ya yb hya hyb
  refine ⟨?_, ?_, ?_, ?_⟩
  · rw [h3, h4, Dbl.fin_neg]
  · rw [h5, h6, Dbl.fin_neg]
  · rw [cov_YabYa_, cov_YabYa_spec, h1, h3, h4, mean_scalars_fin, mean_scalars_fin]
    constructor
    · intro h
      have h := Dbl.fin.inj h
      have h0 : (rmean ya - rmean yb) * rmean ya = 0 := by linarith
      rcases mul_eq_zero.1 h0 with h0 | h0
      · exact Or.inr (by linarith)
      · exact Or.inl h0
    · rintro (h | h)
      · rw [h]
        congr 1
        ring
      · rw [h]
        congr 1
        ring
  · rw [cov_YabY_b, cov_YabY_b_spec, h2, h5, h6, mean_scalars_fin, mean_scalars_fin]
    constructor
    · intro h
      have h := Dbl.fin.inj h
      have h0 : (rmean yb - rmean ya) * rmean yb = 0 := by linarith
      rcases mul_eq_zero.1 h0 with h0 | h0
      · exact Or.inr (by linarith)
      · exact Or.inl h0
    · rintro (h | h)
      · rw [h]
        congr 1
        ring
      · rw [h]
        congr 1
        ring

end engine

/-- Witness for C23: the samples of the first pass over `store_two_and_two`,
two natural samples of shape `shape_100` and two isotope samples of shape
`shape_106`. The code computes `0` for both covariances, the declarations
describe `shape_100 * (shape_100 - shape_106) / 4` and
`shape_106 * (shape_106 - shape_100) / 4`. -/
theorem between_model_covariance_takes_the_other_region_witness :
    cov_YabYa_ vector_h (two_and_two (1 : ℚ) 2 shape_100 shape_106)
      ≠ cov_YabYa_spec vector_h (two_and_two (1 : ℚ) 2 shape_100 shape_106) ∧
    cov_YabY_b vector_h (two_and_two (1 : ℚ) 2 shape_100 shape_106)
      ≠ cov_YabY_b_spec vector_h (two_and_two (1 : ℚ) 2 shape_100 shape_106) ∧
    cov_YabYa_ vector_h (two_and_two (1 : ℚ) 2 shape_100 shape_106) = Dbl.fin 0 ∧
    cov_YabYa_spec vector_h (two_and_two (1 : ℚ) 2 shape_100 shape_106)
      = Dbl.fin (shape_100 * (shape_100 - shape_106) / 4) ∧
    cov_YabY_b vector_h (two_and_two (1 : ℚ) 2 shape_100 shape_106) = Dbl.fin 0 ∧
    cov_YabY_b_spec vector_h (two_and_two (1 : ℚ) 2 shape_100 shape_106)
      = Dbl.fin (shape_106 * (shape_106 - shape_100) / 4) := by
  have hs : two_and_two (1 : ℚ) 2 shape_100 shape_106
      = Samples.ofNumbers [1, 1] [2, 2] [shape_100, shape_100] [shape_106, shape_106] := rfl
  have h := between_model_covariance_takes_the_other_region [(1 : ℚ), 1] [2, 2]
    [shape_100, shape_100] [shape_106, shape_106] (by simp) (by simp)
  obtain ⟨h1, h2, h3, h4, h5, h6⟩ := values_between [(1 : ℚ), 1] [2, 2]
    [shape_100, shape_100] [shape_106, shape_106] (by simp) (by simp)
  have ha : rmean [shape_100, shape_100] = shape_100 := by
    norm_num [rmean]
  have hb : rmean [shape_106, shape_106] = shape_106 := by
    norm_num [rmean]
  have hza : shape_100 ≠ 0 := by norm_num [shape_100]
  have hzb : shape_106 ≠ 0 := by norm_num [shape_106]
  have hne : shape_100 ≠ shape_106 := by norm_num [shape_100, shape_106]
  rw [hs]
  rw [ha, hb] at h
  refine ⟨fun e => ?_, fun e => ?_, ?_, ?_, ?_, ?_⟩
  · rcases h.2.2.1.1 e with h0 | h0
    · exact hza h0
    · exact hne h0
  · rcases h.2.2.2.1 e with h0 | h0
    · exact hzb h0
    · exact hne h0
  · rw [cov_YabYa_, h1, h3, mean_scalars_fin, ha, hb]
    congr 1
    simp only [centred, rmean, List.map_cons, List.map_nil, List.zipWith_cons_cons,
      List.zipWith_nil_right, List.sum_cons, List.sum_nil, List.length_cons, List.length_nil]
    push_cast
    ring
  · rw [cov_YabYa_spec, h1, h4, mean_scalars_fin, ha, hb]
    congr 1
    simp only [centred, rmean, List.map_cons, List.map_nil, List.zipWith_cons_cons,
      List.zipWith_nil_right, List.sum_cons, List.sum_nil, List.length_cons, List.length_nil]
    push_cast
    ring
  · rw [cov_YabY_b, h2, h5, mean_scalars_fin, ha, hb]
    congr 1
    simp only [centred, rmean, List.map_cons, List.map_nil, List.zipWith_cons_cons,
      List.zipWith_nil_right, List.sum_cons, List.sum_nil, List.length_cons, List.length_nil]
    push_cast
    ring
  · rw [cov_YabY_b_spec, h2, h6, mean_scalars_fin, ha, hb]
    congr 1
    simp only [centred, rmean, List.map_cons, List.map_nil, List.zipWith_cons_cons,
      List.zipWith_nil_right, List.sum_cons, List.sum_nil, List.length_cons, List.length_nil]
    push_cast
    ring

/-! ## Theorems: the hierarchical correlations are bounded by one -/

section engine

variable {α : Type} [LinearOrderedField α]

/-- The Cauchy-Schwarz inequality for two blocks. -/
theorem cs_two_blocks (c a b c' a' b' : α) (ha : 0 ≤ a) (hb : 0 ≤ b) (ha' : 0 ≤ a')
    (hb' : 0 ≤ b') (h : c * c ≤ a * b) (h' : c' * c' ≤ a' * b') :
    (c + c') * (c + c') ≤ (a + a') * (b + b') := by
  have hP : 0 ≤ a * b' + a' * b := add_nonneg (mul_nonneg ha hb') (mul_nonneg ha' hb)
  have hsq : (2 * c * c') ^ 2 ≤ (a * b' + a' * b) ^ 2 := by
    have h1 : (c * c) * (c' * c') ≤ (a * b) * (a' * b') :=
      mul_le_mul h h' (mul_self_nonneg c') (mul_nonneg ha hb)
    have h2 : 0 ≤ (a * b' - a' * b) ^ 2 := sq_nonneg _
    nlinarith
  have hle : 2 * c * c' ≤ a * b' + a' * b := (abs_le_of_sq_le_sq' hsq hP).2
  nlinarith

theorem sum_sq_nonneg (u : List α) : 0 ≤ (List.zipWith (· * ·) u u).sum := by
  induction u with
  | nil => simp
  | cons x u ih =>
    rw [List.zipWith_cons_cons, List.sum_cons]
    exact add_nonneg (mul_self_nonneg x) ih

/-- The Cauchy-Schwarz inequality for the sums of products of two lists. -/
theorem list_cs (u : List α) : ∀ v : List α,
    (List.zipWith (· * ·) u v).sum * (List.zipWith (· * ·) u v).sum
      ≤ (List.zipWith (· * ·) u u).sum * (List.zipWith (· * ·) v v).sum := by
  induction u with
  | nil =>
    intro v
    simp
  | cons x u ih =>
    intro v
    cases v with
    | nil =>
      simp
    | cons y v =>
      simp only [List.zipWith_cons_cons, List.sum_cons]
      refine cs_two_blocks (x * y) (x * x) (y * y) _ _ _ (mul_self_nonneg x) (mul_self_nonneg y)
        (sum_sq_nonneg u) (sum_sq_nonneg v) ?_ (ih v)
      exact le_of_eq (by ring)

theorem rmean_sq_nonneg (u : List α) : 0 ≤ rmean (List.zipWith (· * ·) u u) := by
  unfold rmean
  exact div_nonneg (sum_sq_nonneg u) (Nat.cast_nonneg _)

/-- The Cauchy-Schwarz inequality for the means of products of two lists of
the same length. -/
theorem rmean_cs (u v : List α) (h : u.length = v.length) :
    rmean (List.zipWith (· * ·) u v) * rmean (List.zipWith (· * ·) u v)
      ≤ rmean (List.zipWith (· * ·) u u) * rmean (List.zipWith (· * ·) v v) := by
  unfold rmean
  simp only [List.length_zipWith, h, min_self]
  rw [div_mul_div_comm, div_mul_div_comm]
  exact div_le_div_of_nonneg_right (list_cs u v)
    (mul_nonneg (Nat.cast_nonneg _) (Nat.cast_nonneg _))

/-- The Cauchy-Schwarz inequality for the mean of the regional means. -/
theorem hier_cs (ua va ub vb : List α) (ha : ua.length = va.length)
    (hb : ub.length = vb.length) :
    hier ua va ub vb * hier ua va ub vb ≤ hier ua ua ub ub * hier va va vb vb := by
  have h := cs_two_blocks _ _ _ _ _ _ (rmean_sq_nonneg ua) (rmean_sq_nonneg va)
    (rmean_sq_nonneg ub) (rmean_sq_nonneg vb) (rmean_cs ua va ha) (rmean_cs ub vb hb)
  unfold hier
  rw [div_mul_div_comm, div_mul_div_comm]
  exact div_le_div_of_nonneg_right h (by norm_num)

theorem length_centred (l : List α) (c : α) : (centred l c).length = l.length := by
  unfold centred
  rw [List.length_map]

/-- Model AB on sample lists of numbers: the covariance and the two
variances are numbers, and the covariance squared is at most the product of
the variances. -/
theorem cs_AB (xa xb ya yb : List α) (hxa : xa ≠ []) (hxb : xb ≠ [])
    (hya : xa.length = ya.length) (hyb : xb.length = yb.length) :
    ∃ c vx vy : α,
      cov_Xab vector_h (Samples.ofNumbers xa xb ya yb) = Dbl.fin c ∧
      var_Xab vector_h (Samples.ofNumbers xa xb ya yb) = Dbl.fin vx ∧
      var_Yab vector_h (Samples.ofNumbers xa xb ya yb) = Dbl.fin vy ∧
      c * c ≤ vx * vy := by
  obtain ⟨_, _, hcov, hvx, hvy⟩ := values_AB xa xb ya yb hxa hxb
    (ne_nil_of_length_eq xa ya hya hxa) (ne_nil_of_length_eq xb yb hyb hxb)
  refine ⟨_, _, _, hcov, hvx, hvy, hier_cs _ _ _ _ ?_ ?_⟩
  · rw [length_centred, length_centred, hya]
  · rw [length_centred, length_centred, hyb]

/-- Model A0 on sample lists of numbers. -/
theorem cs_A0 (xa xb ya yb : List α) (hxa : xa ≠ []) (hxb : xb ≠ [])
    (hya : xa.length = ya.length) (hyb : xb.length = yb.length) :
    ∃ c vx vy : α,
      cov_Xa_ vector_h (Samples.ofNumbers xa xb ya yb) = Dbl.fin c ∧
      var_Xab vector_h (Samples.ofNumbers xa xb ya yb) = Dbl.fin vx ∧
      var_Ya_ vector_h (Samples.ofNumbers xa xb ya yb) = Dbl.fin vy ∧
      c * c ≤ vx * vy := by
  have hya0 : ya ≠ [] := ne_nil_of_length_eq xa ya hya hxa
  have hyb0 : yb ≠ [] := ne_nil_of_length_eq xb yb hyb hxb
  obtain ⟨c, vx, vy, hc, hvx, hvy, hcs⟩ := cs_AB xa xb ya (yb.map (fun _ => (0 : α))) hxa hxb
    hya (by rw [List.length_map]; exact hyb)
  obtain ⟨h1, h2⟩ := flat_zero_iso xa xb ya yb hxa hxb hya0 hyb
  refine ⟨c, vx, vy, h1.trans hc, ?_, h2.trans hvy, hcs⟩
  rw [← hvx]
  rfl

/-- Model 0B on sample lists of numbers. -/
theorem cs_0B (xa xb ya yb : List α) (hxa : xa ≠ []) (hxb : xb ≠ [])
    (hya : xa.length = ya.length) (hyb : xb.length = yb.length) :
    ∃ c vx vy : α,
      cov_X_b vector_h (Samples.ofNumbers xa xb ya yb) = Dbl.fin c ∧
      var_Xab vector_h (Samples.ofNumbers xa xb ya yb) = Dbl.fin vx ∧
      var_Y_b vector_h (Samples.ofNumbers xa xb ya yb) = Dbl.fin vy ∧
      c * c ≤ vx * vy := by
  have hya0 : ya ≠ [] := ne_nil_of_length_eq xa ya hya hxa
  have hyb0 : yb ≠ [] := ne_nil_of_length_eq xb yb hyb hxb
  obtain ⟨c, vx, vy, hc, hvx, hvy, hcs⟩ := cs_AB xa xb (ya.map (fun _ => (0 : α))) yb hxa hxb
    (by rw [List.length_map]; exact hya) hyb
  obtain ⟨h1, h2⟩ := flat_zero_nat xa xb ya yb hxa hxb hyb0 hya
  refine ⟨c, vx, vy, h1.trans hc, ?_, h2.trans hvy, hcs⟩
  rw [← hvx]
  rfl

/-- A clamped correlation `cov / sqrt(var1 * var2)` of numbers with positive
variances and `cov^2 <= var1 * var2` is a number of `[0, 1]`. -/
theorem clamp_correl_in_unit (L : Libm α)
    (hsqrt : ∀ x : α, 0 ≤ x → 0 ≤ L.sqrt x ∧ L.sqrt x * L.sqrt x = x)
    (c vx vy : α) (hvx : 0 < vx) (hvy : 0 < vy) (hcs : c * c ≤ vx * vy) :
    ∃ r : α, clamp_correl (Dbl.fin c / Dbl.sqrt L (Dbl.fin vx * Dbl.fin vy)) = Dbl.fin r ∧
      0 ≤ r ∧ r ≤ 1 := by
  have hv : 0 < vx * vy := mul_pos hvx hvy
  obtain ⟨hs0, hss⟩ := hsqrt (vx * vy) hv.le
  have hspos : 0 < L.sqrt (vx * vy) := by
    rcases hs0.lt_or_eq with h | h
    · exact h
    · rw [← h, mul_zero] at hss
      exact absurd hss hv.ne
  have hq : Dbl.fin c / Dbl.sqrt L (Dbl.fin vx * Dbl.fin vy)
      = Dbl.fin (c / L.sqrt (vx * vy)) := by
    rw [Dbl.fin_mul]
    simp only [Dbl.sqrt, if_neg (not_lt.2 hv.le)]
    exact Dbl.fin_div _ _ hspos.ne'
  rw [hq]
  unfold clamp_correl
  simp only [Dbl.lit_0_0, gt_iff_lt, Dbl.fin_lt]
  by_cases hpos : 0 < c / L.sqrt (vx * vy)
  · rw [if_pos hpos]
    refine ⟨_, rfl, hpos.le, ?_⟩
    rw [div_le_one hspos]
    have hc : 0 < c := (div_pos_iff_of_pos_right hspos).1 hpos
    by_contra hlt
    have hlt := not_le.1 hlt
    have : L.sqrt (vx * vy) * L.sqrt (vx * vy) < c * c :=
      mul_lt_mul hlt hlt.le hspos hc.le
    rw [hss] at this
    exact absurd hcs (not_le.2 this)
  · rw [if_neg hpos]
    exact ⟨0, rfl, le_refl 0, zero_le_one⟩

theorem half_sum_squares_in_unit (r1 r2 : α) (h1 : 0 ≤ r1) (h1' : r1 ≤ 1) (h2 : 0 ≤ r2)
    (h2' : r2 ≤ 1) :
    0 ≤ 1 / 2 * (r1 * r1 + r2 * r2) ∧ 1 / 2 * (r1 * r1 + r2 * r2) ≤ 1 := by
  have ha : r1 * r1 ≤ 1 := by nlinarith
  have hb : r2 * r2 ≤ 1 := by nlinarith
  have hc : 0 ≤ r1 * r1 := mul_self_nonneg r1
  have hd : 0 ≤ r2 * r2 := mul_self_nonneg r2
  constructor
  · linarith
  · linarith

end engine

section engine

variable {α : Type} [LinearOrderedField α]

/-- Claim C26. For sample lists of numbers with non-empty regions (each region
holding as many shape samples as intensity samples, as the row loop leaves
them) and positive hierarchical variances `var_Xab`, `var_Yab`, `var_Ya_`
and `var_Y_b`, and for every square root that is non-negative and squares
back to its argument: the clamped correlations `correl_XabYab`,
`correl_XabYa_` and `correl_XabY_b`, the arguments of `atanh`, are numbers
of `[0, 1]`, and so are `rm2ABA0` and `rm2AB0B`. -/
theorem hierarchical_correlations_are_bounded (L : Libm α)
    (hsqrt : ∀ x : α, 0 ≤ x → 0 ≤ L.sqrt x ∧ L.sqrt x * L.sqrt x = x)
    (xa xb ya yb : List α) (hxa : xa ≠ []) (hxb : xb ≠ [])
    (hya : xa.length = ya.length) (hyb : xb.length = yb.length)
    (hvX : (0 : Dbl α) < var_Xab vector_h (Samples.ofNumbers xa xb ya yb))
    (hvY : (0 : Dbl α) < var_Yab vector_h (Samples.ofNumbers xa xb ya yb))
    (hvA : (0 : Dbl α) < var_Ya_ vector_h (Samples.ofNumbers xa xb ya yb))
    (hvB : (0 : Dbl α) < var_Y_b vector_h (Samples.ofNumbers xa xb ya yb)) :
    ∃ rAB rA0 r0B : α,
      correl_XabYab L vector_h (Samples.ofNumbers xa xb ya yb) = Dbl.fin rAB ∧
      correl_XabYa_ L vector_h (Samples.ofNumbers xa xb ya yb) = Dbl.fin rA0 ∧
      correl_XabY_b L vector_h (Samples.ofNumbers xa xb ya yb) = Dbl.fin r0B ∧
      rm2ABA0 L vector_h (Samples.ofNumbers xa xb ya yb)
        = Dbl.fin (1 / 2 * (rAB * rAB + rA0 * rA0)) ∧
      rm2AB0B L vector_h (Samples.ofNumbers xa xb ya yb)
        = Dbl.fin (1 / 2 * (rAB * rAB + r0B * r0B)) ∧
      (0 ≤ rAB ∧ rAB ≤ 1) ∧ (0 ≤ rA0 ∧ rA0 ≤ 1) ∧ (0 ≤ r0B ∧ r0B ≤ 1) ∧
      (0 ≤ 1 / 2 * (rAB * rAB + rA0 * rA0) ∧ 1 / 2 * (rAB * rAB + rA0 * rA0) ≤ 1) ∧
      (0 ≤ 1 / 2 * (rAB * rAB + r0B * r0B) ∧ 1 / 2 * (rAB * rAB + r0B * r0B) ≤ 1) := by
  obtain ⟨c1, vx1, vy1, hc1, hvx1, hvy1, hcs1⟩ := cs_AB xa xb ya yb hxa hxb hya hyb
  obtain ⟨c2, vx2, vy2, hc2, hvx2, hvy2, hcs2⟩ := cs_A0 xa xb ya yb hxa hxb hya hyb
  obtain ⟨c3, vx3, vy3, hc3, hvx3, hvy3, hcs3⟩ := cs_0B xa xb ya yb hxa hxb hya hyb
  have hX1 : 0 < vx1 := by
    rw [hvx1, Dbl.lit_zero, Dbl.fin_lt] at hvX
    exact hvX
  have hX2 : 0 < vx2 := by
    rw [hvx2, Dbl.lit_zero, Dbl.fin_lt] at hvX
    exact hvX
  have hX3 : 0 < vx3 := by
    rw [hvx3, Dbl.lit_zero, Dbl.fin_lt] at hvX
    exact hvX
  have hY1 : 0 < vy1 := by
    rw [hvy1, Dbl.lit_zero, Dbl.fin_lt] at hvY
    exact hvY
  have hY2 : 0 < vy2 := by
    rw [hvy2, Dbl.lit_zero, Dbl.fin_lt] at hvA
    exact hvA
  have hY3 : 0 < vy3 := by
    rw [hvy3, Dbl.lit_zero, Dbl.fin_lt] at hvB
    exact hvB
  obtain ⟨r1, hr1, h10, h11⟩ := clamp_correl_in_unit L hsqrt c1 vx1 vy1 hX1 hY1 hcs1
  obtain ⟨r2, hr2, h20, h21⟩ := clamp_correl_in_unit L hsqrt c2 vx2 vy2 hX2 hY2 hcs2
  obtain ⟨r3, hr3, h30, h31⟩ := clamp_correl_in_unit L hsqrt c3 vx3 vy3 hX3 hY3 hcs3
  have e1 : correl_XabYab L vector_h (Samples.ofNumbers xa xb ya yb) = Dbl.fin r1 := by
    rw [correl_XabYab, hc1, hvx1, hvy1]
    exact hr1
  have e2 : correl_XabYa_ L vector_h (Samples.ofNumbers xa xb ya yb) = Dbl.fin r2 := by
    rw [correl_XabYa_, hc2, hvx2, hvy2]
    exact hr2
  have e3 : correl_XabY_b L vector_h (Samples.ofNumbers xa xb ya yb) = Dbl.fin r3 := by
    rw [correl_XabY_b, hc3, hvx3, hvy3]
    exact hr3
  refine ⟨r1, r2, r3, e1, e2, e3, ?_, ?_, ⟨h10, h11⟩, ⟨h20, h21⟩, ⟨h30, h31⟩,
    half_sum_squares_in_unit r1 r2 h10 h11 h20 h21,
    half_sum_squares_in_unit r1 r3 h10 h11 h30 h31⟩
  · rw [rm2ABA0, e1, e2, Dbl.lit_0_5, Dbl.fin_mul, Dbl.fin_mul, Dbl.fin_add, Dbl.fin_mul]
  · rw [rm2AB0B, e1, e3, Dbl.lit_0_5, Dbl.fin_mul, Dbl.fin_mul, Dbl.fin_add, Dbl.fin_mul]

end engine

/-- Witness for C26: over the reals with the real square root, natural
samples `(1, 1)`, `(3, 2)` and isotope samples `(2, 3)`, `(4, 5)`, as
(intensity, shape). -/
theorem hierarchical_correlations_are_bounded_witness :
    ∃ L : Libm ℝ, L.sqrt = Real.sqrt ∧
      (0 : Dbl ℝ) < var_Xab vector_h (Samples.ofNumbers [1, 3] [2, 4] [1, 2] [3, 5]) ∧
      (0 : Dbl ℝ) < var_Yab vector_h (Samples.ofNumbers [1, 3] [2, 4] [1, 2] [3, 5]) ∧
      (0 : Dbl ℝ) < var_Ya_ vector_h (Samples.ofNumbers [1, 3] [2, 4] [1, 2] [3, 5]) ∧
      (0 : Dbl ℝ) < var_Y_b vector_h (Samples.ofNumbers [1, 3] [2, 4] [1, 2] [3, 5]) ∧
      ∃ rAB rA0 r0B : ℝ,
        correl_XabYab L vector_h (Samples.ofNumbers [1, 3] [2, 4] [1, 2] [3, 5])
          = Dbl.fin rAB ∧
        correl_XabYa_ L vector_h (Samples.ofNumbers [1, 3] [2, 4] [1, 2] [3, 5])
          = Dbl.fin rA0 ∧
        correl_XabY_b L vector_h (Samples.ofNumbers [1, 3] [2, 4] [1, 2] [3, 5])
          = Dbl.fin r0B ∧
        (0 ≤ rAB ∧ rAB ≤ 1) ∧ (0 ≤ rA0 ∧ rA0 ≤ 1) ∧ (0 ≤ r0B ∧ r0B ≤ 1) := by
  have hAB := values_AB [(1 : ℝ), 3] [2, 4] [1, 2] [3, 5] (by simp) (by simp) (by simp)
    (by simp)
  have hA0 := values_A0 [(1 : ℝ), 3] [2, 4] [1, 2] [3, 5] (by simp) (by simp) (by simp)
  have h0B := values_0B [(1 : ℝ), 3] [2, 4] [1, 2] [3, 5] (by simp) (by simp) (by simp)
  have hvX : (0 : Dbl ℝ) < var_Xab vector_h (Samples.ofNumbers [1, 3] [2, 4] [1, 2] [3, 5]) := by
    rw [hAB.2.2.2.1, Dbl.lit_zero, Dbl.fin_lt]
    norm_num [hier, rmean, centred]
  have hvY : (0 : Dbl ℝ) < var_Yab vector_h (Samples.ofNumbers [1, 3] [2, 4] [1, 2] [3, 5]) := by
    rw [hAB.2.2.2.2, Dbl.lit_zero, Dbl.fin_lt]
    norm_num [hier, rmean, centred]
  have hvA : (0 : Dbl ℝ) < var_Ya_ vector_h (Samples.ofNumbers [1, 3] [2, 4] [1, 2] [3, 5]) := by
    rw [hA0.2.2, Dbl.lit_zero, Dbl.fin_lt]
    norm_num [rmean, centred]
  have hvB : (0 : Dbl ℝ) < var_Y_b vector_h (Samples.ofNumbers [1, 3] [2, 4] [1, 2] [3, 5]) := by
    rw [h0B.2.2, Dbl.lit_zero, Dbl.fin_lt]
    norm_num [rmean, centred]
  refine ⟨{ sqrt := Real.sqrt, exp := Real.exp, atanh := fun x => x,
            root2pi := Real.sqrt (2 * Real.pi), std_dev_in_fwhm := 2.355 },
    rfl, hvX, hvY, hvA, hvB, ?_⟩
  obtain ⟨rAB, rA0, r0B, h1, h2, h3, _, _, h4, h5, h6, _⟩ :=
    hierarchical_correlations_are_bounded
      { sqrt := Real.sqrt, exp := Real.exp, atanh := fun x => x,
        root2pi := Real.sqrt (2 * Real.pi), std_dev_in_fwhm := 2.355 }
      (fun x hx => ⟨Real.sqrt_nonneg x, Real.mul_self_sqrt hx⟩)
      [(1 : ℝ), 3] [2, 4] [1, 2] [3, 5] (by simp) (by simp) rfl rfl hvX hvY hvA hvB
  exact ⟨rAB, rA0, r0B, h1, h2, h3, h4, h5, h6⟩

/-! ## Theorems: `centre_vector` and `apply_vect_func` -/

theorem foldl_push_eq_map {T U : Type} (f : T → U) (l : List T) :
    ∀ init : List U, l.foldl (fun acc v => acc ++ [f v]) init = init ++ l.map f := by
  induction l with
  | nil => intro init; simp
  | cons x l ih =>
    intro init
    rw [List.foldl_cons, ih, List.map_cons, List.append_assoc]
    rfl

theorem apply_vect_func_eq_map {T : Type} (vect : List T) (func : T → T) :
    apply_vect_func vect func = vect.map func := by
  unfold apply_vect_func
  rw [foldl_push_eq_map func vect []]
  rfl

section engine

variable {α : Type} [LinearOrderedField α]

theorem centre_vector_eq_map (vect : List (Dbl α)) :
    centre_vector vect
      = vect.map (fun v => v - accumulate vect / Dbl.ofNat vect.length) := by
  unfold centre_vector
  exact foldl_push_eq_map _ vect []

theorem accumulate_fin (l : List α) : accumulate (l.map Dbl.fin) = Dbl.fin l.sum := by
  unfold accumulate
  rw [Dbl.lit_0_0, foldl_add_fin, zero_add]

/-- On a non-empty vector of numbers `centre_vector` subtracts the
arithmetic mean from each element. -/
theorem centre_vector_fin (l : List α) (h : l ≠ []) :
    centre_vector (l.map Dbl.fin) = (centred l (rmean l)).map Dbl.fin := by
  have hlen : ((l.length : Nat) : α) ≠ 0 :=
    Nat.cast_ne_zero.2 (fun h0 => h (List.length_eq_zero.1 h0))
  rw [centre_vector_eq_map, accumulate_fin, List.length_map, Dbl.ofNat_eq,
    Dbl.fin_div _ _ hlen]
  unfold centred rmean
  rw [List.map_map, List.map_map]
  apply List.map_congr_left
  intro x _
  simp

theorem sum_centred_rmean (l : List α) (h : l ≠ []) : (centred l (rmean l)).sum = 0 := by
  have hlen : ((l.length : Nat) : α) ≠ 0 :=
    Nat.cast_ne_zero.2 (fun h0 => h (List.length_eq_zero.1 h0))
  rw [sum_centred]
  unfold rmean
  field_simp

theorem centred_zero (l : List α) : centred l 0 = l := by
  unfold centred
  simp

/-- Claim C31. For every non-empty vector `v` of numbers, `centre_vector(v)` has
the length of `v`, its element `i` is `v[i] - mean(v)` with `mean(v)` the sum
of `v` divided by its length, the sum `std::accumulate` of its elements is
`0`, and `centre_vector(centre_vector(v))` is `centre_vector(v)`; the empty
vector is returned as the empty vector; and for every vector of doubles the
result has the length of the argument and its element `i` is the element `i`
of the argument minus the quotient of the accumulated sum and the size. -/
theorem centre_vector_centres_on_the_mean (v : List α) (hv : v ≠ []) :
    (centre_vector (v.map Dbl.fin)).length = v.length ∧
    (∀ i : Nat,
      (centre_vector (v.map Dbl.fin))[i]?
        = (v[i]?).map (fun x => Dbl.fin (x - v.sum / (v.length : α)))) ∧
    accumulate (centre_vector (v.map Dbl.fin)) = Dbl.fin 0 ∧
    centre_vector (centre_vector (v.map Dbl.fin)) = centre_vector (v.map Dbl.fin) ∧
    centre_vector ([] : List (Dbl α)) = [] ∧
    (∀ vect : List (Dbl α),
      (centre_vector vect).length = vect.length ∧
      ∀ i : Nat,
        (centre_vector vect)[i]?
          = (vect[i]?).map (fun x => x - accumulate vect / Dbl.ofNat vect.length)) := by
  have hc := centre_vector_fin v hv
  have hne : centred v (rmean v) ≠ [] := centred_ne_nil v _ hv
  have hsum := sum_centred_rmean v hv
  have hmean : rmean (centred v (rmean v)) = 0 := by
    unfold rmean at hsum ⊢
    rw [hsum, zero_div]
  refine ⟨?_, ?_, ?_, ?_, rfl, ?_⟩
  · rw [hc, List.length_map, length_centred]
  · intro i
    rw [hc]
    unfold centred rmean
    rw [List.map_map, List.getElem?_map]
    rfl
  · rw [hc, accumulate_fin, hsum]
  · rw [hc, centre_vector_fin _ hne, hmean, centred_zero]
  · intro vect
    rw [centre_vector_eq_map]
    exact ⟨List.length_map _ _, fun i => List.getElem?_map _ _ _⟩

/-- Claim C32. For every vector `vect` and function `func`,
`apply_vect_func(vect, func)` is the vector of the values `func(v)` in the
order of `vect`: it has the length of `vect` and its element `i` is `func`
of the element `i` of `vect`.  In `main`, `xx` holds five copies of `x`
before the call and five copies of `centre_vector(x)` after it. -/
theorem apply_vect_func_maps_in_order :
    (∀ (T : Type) (vect : List T) (func : T → T),
      apply_vect_func vect func = vect.map func ∧
      (apply_vect_func vect func).length = vect.length ∧
      ∀ i : Nat, (apply_vect_func vect func)[i]? = (vect[i]?).map func) ∧
    (main_xx_copies : List (List (Dbl α))) = List.replicate 5 main_x ∧
    (main_xx : List (List (Dbl α))) = List.replicate 5 (centre_vector main_x) ∧
    (main_xx : List (List (Dbl α))).length = 5 ∧
    ∀ a ∈ (main_xx : List (List (Dbl α))), a = centre_vector main_x := by
  have hcopies : (main_xx_copies : List (List (Dbl α))) = List.replicate 5 main_x := rfl
  have hxx : (main_xx : List (List (Dbl α))) = List.replicate 5 (centre_vector main_x) := by
    unfold main_xx
    rw [apply_vect_func_eq_map, hcopies, List.map_replicate]
  refine ⟨fun T vect func => ?_, hcopies, hxx, ?_, ?_⟩
  · rw [apply_vect_func_eq_map]
    exact ⟨rfl, List.length_map _ _, fun i => List.getElem?_map _ _ _⟩
  · rw [hxx, List.length_replicate]
  · intro a ha
    rw [hxx] at ha
    exact List.eq_of_mem_replicate ha

end engine

/-- Witness for C31: the vector `x` of `main`, `{1, 5, 2, 5, 2, 3, 2, 5}`,
whose mean is `25/8`. -/
theorem centre_vector_centres_on_the_mean_witness :
    ([1, 5, 2, 5, 2, 3, 2, 5] : List ℚ) ≠ [] ∧
    ([1, 5, 2, 5, 2, 3, 2, 5] : List ℚ).sum / (([1, 5, 2, 5, 2, 3, 2, 5] : List ℚ).length : ℚ)
      = 25 / 8 ∧
    (main_x : List (Dbl ℚ)) = ([1, 5, 2, 5, 2, 3, 2, 5] : List ℚ).map Dbl.fin ∧
    (centre_vector (main_x : List (Dbl ℚ))).length = 8 ∧
    centre_vector (main_x : List (Dbl ℚ))
      = [Dbl.fin (-17 / 8), Dbl.fin (15 / 8), Dbl.fin (-9 / 8), Dbl.fin (15 / 8),
          Dbl.fin (-9 / 8), Dbl.fin (-1 / 8), Dbl.fin (-9 / 8), Dbl.fin (15 / 8)] ∧
    accumulate (centre_vector (main_x : List (Dbl ℚ))) = Dbl.fin 0 ∧
    centre_vector (centre_vector (main_x : List (Dbl ℚ))) = centre_vector main_x := by
  have hx : (main_x : List (Dbl ℚ)) = ([1, 5, 2, 5, 2, 3, 2, 5] : List ℚ).map Dbl.fin := by
    simp [main_x]
  have h := centre_vector_centres_on_the_mean ([1, 5, 2, 5, 2, 3, 2, 5] : List ℚ) (by decide)
  have hc := centre_vector_fin ([1, 5, 2, 5, 2, 3, 2, 5] : List ℚ) (by decide)
  rw [← hx] at h hc
  refine ⟨by decide, by norm_num, hx, h.1, ?_, h.2.2.1, h.2.2.2.1⟩
  rw [hc]
  norm_num [centred, rmean]

/-! ## Theorems: unsorted rows, with reads past the end as undefined behaviour -/

section engine

variable {α : Type} [LinearOrderedField α]

end engine

section engine

variable {α : Type} [LinearOrderedField α]

/-- The covariances and variances of `samples_two_rows`. -/
theorem values_two_rows :
    cov_Xab vector_h (samples_two_rows : Samples α) = Dbl.fin (3 / 4) ∧
    var_Xab vector_h (samples_two_rows : Samples α) = Dbl.fin (3 / 2) ∧
    var_Yab vector_h (samples_two_rows : Samples α) = Dbl.fin (3 / 2) ∧
    cov_Xa_ vector_h (samples_two_rows : Samples α) = Dbl.fin (-(1 / 4)) ∧
    var_Ya_ vector_h (samples_two_rows : Samples α) = Dbl.fin (3 / 2) ∧
    cov_YabYa_ vector_h (samples_two_rows : Samples α) = Dbl.fin (1 / 2) ∧
    cov_YabYa_spec vector_h (samples_two_rows : Samples α) = Dbl.fin (-(1 / 2)) := by
  obtain ⟨_, _, hcov, hvx, hvy⟩ := values_AB [(1 : α), 2] [1, 4] [1, 3] [4, 4]
    (by simp) (by simp) (by simp) (by simp)
  obtain ⟨_, hca, hva⟩ := values_A0 [(1 : α), 2] [1, 4] [1, 3] [4, 4]
    (by simp) (by simp) (by simp)
  obtain ⟨h1, _, h3, h4, _, _⟩ := values_between [(1 : α), 2] [1, 4] [1, 3] [4, 4]
    (by simp) (by simp)
  unfold samples_two_rows
  refine ⟨?_, ?_, ?_, ?_, ?_, ?_, ?_⟩
  · rw [hcov]
    congr 1
    norm_num [hier, rmean, centred]
  · rw [hvx]
    congr 1
    norm_num [hier, rmean, centred]
  · rw [hvy]
    congr 1
    norm_num [hier, rmean, centred]
  · rw [hca]
    congr 1
    norm_num [rmean, centred]
  · rw [hva]
    congr 1
    norm_num [rmean, centred]
  · rw [cov_YabYa_, h1, h3, mean_scalars_fin]
    congr 1
    norm_num [rmean, centred]
  · rw [cov_YabYa_spec, h1, h4, mean_scalars_fin]
    congr 1
    norm_num [rmean, centred]

/-- Claim C24. On the sample lists `samples_two_rows`, which pass the test on the
sample counts with `n = 4`, and for every `<cmath>` whose square root is exact
on squares and whose `atanh` takes different values at `1/2` and `0`: the
correlations of X with the AB and A0 shapes are `1/2` and `0`, the
correlation between the AB and A0 shapes is `0`, and the code puts `1/3` in
its place, computed from its own `cov_YabYa_`; so `zABA0` is
`(atanh(1/2) - atanh(0)) * 147/208` where Steiger's statistic of the
specification is `(atanh(1/2) - atanh(0)) * 49/104`. -/
theorem z_misses_the_shape_correlation (L : Libm α)
    (hsq : ∀ x : α, 0 ≤ x → L.sqrt (x * x) = x) (hatanh : L.atanh (1 / 2) ≠ L.atanh 0) :
    apply_min_sample (2.0 : Dbl α) samples_two_rows = (samples_two_rows, 4) ∧
    correl_XabYab L vector_h (samples_two_rows : Samples α) = Dbl.fin (1 / 2) ∧
    correl_XabYa_ L vector_h (samples_two_rows : Samples α) = Dbl.fin 0 ∧
    correl_YabYa_ L vector_h (samples_two_rows : Samples α) = Dbl.fin (1 / 3) ∧
    correl_YabYa_spec L vector_h (samples_two_rows : Samples α) = Dbl.fin 0 ∧
    zABA0 L vector_h (samples_two_rows : Samples α) 4
      = Dbl.fin ((L.atanh (1 / 2) - L.atanh 0) * (147 / 208)) ∧
    zABA0_spec L vector_h (samples_two_rows : Samples α) 4
      = Dbl.fin ((L.atanh (1 / 2) - L.atanh 0) * (49 / 104)) ∧
    zABA0 L vector_h (samples_two_rows : Samples α) 4
      ≠ zABA0_spec L vector_h (samples_two_rows : Samples α) 4 := by
  obtain ⟨hcov, hvx, hvy, hca, hva, hcc, hcs⟩ := @values_two_rows α _
  have hq : (3 / 2 : α) * (3 / 2) = 3 / 2 * (3 / 2) := rfl
  have hrAB : correl_XabYab L vector_h (samples_two_rows : Samples α) = Dbl.fin (1 / 2) := by
    rw [correl_XabYab, hcov, hvx, hvy,
      clamp_correl_of_square L hsq (3 / 4) (3 / 2) (3 / 2) (3 / 2) (by norm_num) hq,
      if_pos (by norm_num)]
    congr 1
    norm_num
  have hrA0 : correl_XabYa_ L vector_h (samples_two_rows : Samples α) = Dbl.fin 0 := by
    rw [correl_XabYa_, hca, hvx, hva,
      clamp_correl_of_square L hsq (-(1 / 4)) (3 / 2) (3 / 2) (3 / 2) (by norm_num) hq,
      if_neg (by norm_num)]
  have hrYc : correl_YabYa_ L vector_h (samples_two_rows : Samples α) = Dbl.fin (1 / 3) := by
    rw [correl_YabYa_, hcc, hvy, hva,
      clamp_correl_of_square L hsq (1 / 2) (3 / 2) (3 / 2) (3 / 2) (by norm_num) hq,
      if_pos (by norm_num)]
    congr 1
    norm_num
  have hrYs : correl_YabYa_spec L vector_h (samples_two_rows : Samples α) = Dbl.fin 0 := by
    rw [correl_YabYa_spec, hcs, hvy, hva,
      clamp_correl_of_square L hsq (-(1 / 2)) (3 / 2) (3 / 2) (3 / 2) (by norm_num) hq,
      if_neg (by norm_num)]
  have hrm2 : rm2ABA0 L vector_h (samples_two_rows : Samples α) = Dbl.fin (1 / 8) := by
    rw [rm2ABA0, hrAB, hrA0, Dbl.lit_0_5, Dbl.fin_mul, Dbl.fin_mul, Dbl.fin_add, Dbl.fin_mul]
    congr 1
    norm_num
  have hf : fABA0 L vector_h (samples_two_rows : Samples α) = Dbl.fin (4 / 7) := by
    rw [fABA0, hrA0, hrm2, Dbl.lit_1_0, Dbl.lit_2_0, Dbl.fin_sub, Dbl.fin_sub, Dbl.fin_mul,
      Dbl.fin_div _ _ (by norm_num)]
    congr 1
    norm_num
  have hh : hABA0 L vector_h (samples_two_rows : Samples α) = Dbl.fin (52 / 49) := by
    rw [hABA0, hf, hrm2, Dbl.lit_1_0, Dbl.fin_mul, Dbl.fin_sub, Dbl.fin_sub,
      Dbl.fin_div _ _ (by norm_num)]
    congr 1
    norm_num
  have hn : sqrt_nAB L (4 : Dbl α) = Dbl.fin 1 := by
    rw [sqrt_nAB, Dbl.lit_ofNat, Dbl.lit_3_0, Dbl.fin_sub]
    have h1 : (4 : α) - 3 = 1 * 1 := by norm_num
    rw [h1, sqrt_fin_sq L hsq 1 zero_le_one]
  have hat1 : Dbl.atanh L (Dbl.fin (1 / 2 : α)) = Dbl.fin (L.atanh (1 / 2)) := by
    have c1 : ¬ ((1 / 2 : α) < -1 ∨ (1 : α) < 1 / 2) := by norm_num
    have c2 : ¬ ((1 / 2 : α) = 1) := by norm_num
    have c3 : ¬ ((1 / 2 : α) = -1) := by norm_num
    simp only [Dbl.atanh, if_neg c1, if_neg c2, if_neg c3]
  have hat0 : Dbl.atanh L (Dbl.fin (0 : α)) = Dbl.fin (L.atanh 0) := by
    have c1 : ¬ ((0 : α) < -1 ∨ (1 : α) < 0) := by norm_num
    have c2 : ¬ ((0 : α) = 1) := by norm_num
    have c3 : ¬ ((0 : α) = -1) := by norm_num
    simp only [Dbl.atanh, if_neg c1, if_neg c2, if_neg c3]
  have hz : zABA0 L vector_h (samples_two_rows : Samples α) 4
      = Dbl.fin ((L.atanh (1 / 2) - L.atanh 0) * (147 / 208)) := by
    rw [zABA0, hrAB, hrA0, hrYc, hh, hn, hat1, hat0, Dbl.lit_1_0, Dbl.lit_2_0, Dbl.fin_sub,
      Dbl.fin_sub, Dbl.fin_mul, Dbl.fin_mul, Dbl.fin_mul, Dbl.fin_div _ _ (by norm_num)]
    congr 1
    field_simp
    ring
  have hzs : zABA0_spec L vector_h (samples_two_rows : Samples α) 4
      = Dbl.fin ((L.atanh (1 / 2) - L.atanh 0) * (49 / 104)) := by
    have hthree : (4 : Dbl α) - 3 = Dbl.fin (1 * 1) := by
      rw [Dbl.lit_ofNat, Dbl.lit_ofNat, Dbl.fin_sub]
      congr 1
      norm_num
    have htwo : (2 : Dbl α) = Dbl.fin 2 := by
      rw [Dbl.lit_ofNat]
    rw [zABA0_spec, steiger_z, hrAB, hrA0, hrYs, hthree, sqrt_fin_sq L hsq 1 zero_le_one,
      hat1, hat0]
    simp only [htwo, Dbl.lit_one, Dbl.fin_mul, Dbl.fin_add, Dbl.fin_sub]
    rw [Dbl.fin_div _ _ (by norm_num), Dbl.fin_sub, Dbl.fin_mul,
      Dbl.fin_div _ _ (by norm_num), Dbl.fin_mul, Dbl.fin_sub, Dbl.fin_div _ _ (by norm_num),
      Dbl.fin_mul, Dbl.fin_div _ _ (by norm_num)]
    congr 1
    field_simp
    ring
  refine ⟨?_, hrAB, hrA0, hrYc, hrYs, hz, hzs, ?_⟩
  · have hs : ¬ ((Dbl.ofNat (samples_two_rows : Samples α).data_nat.length < (2.0 : Dbl α)) ∨
        (Dbl.ofNat (samples_two_rows : Samples α).data_iso.length < (2.0 : Dbl α))) := by
      simp [samples_two_rows, Samples.ofNumbers]
    unfold apply_min_sample
    rw [if_neg hs]
    rfl
  · rw [hz, hzs]
    intro h
    have h := Dbl.fin.inj h
    have hne : L.atanh (1 / 2) - L.atanh 0 ≠ 0 := sub_ne_zero.2 hatanh
    have : (147 / 208 : α) = 49 / 104 := mul_left_cancel₀ hne h
    norm_num at this

end engine

theorem atanh_series_zero (k : Nat) : atanh_series k 0 = 0 := by
  induction k with
  | zero => rfl
  | succ k ih =>
    rw [atanh_series, ih]
    simp

theorem atanh_series_nonneg (k : Nat) (x : ℚ) (hx : 0 ≤ x) : 0 ≤ atanh_series k x := by
  induction k with
  | zero => exact le_refl 0
  | succ k ih =>
    rw [atanh_series]
    have : 0 ≤ x ^ (2 * k + 1) / (2 * k + 1) := by positivity
    linarith

theorem atanh_series_pos (k : Nat) (x : ℚ) (hx : 0 < x) : 0 < atanh_series (k + 1) x := by
  rw [atanh_series]
  have h1 := atanh_series_nonneg k x hx.le
  have : 0 < x ^ (2 * k + 1) / (2 * k + 1) := by positivity
  linarith

/-- Witness for C24: the rational stand-in `libm_q`, whose square root is exact
on squares and whose `atanh` is a partial sum of the series, positive at
`1/2` and `0` at `0`. -/
theorem z_misses_the_shape_correlation_witness :
    (∀ x : ℚ, 0 ≤ x → libm_q.sqrt (x * x) = x) ∧
    libm_q.atanh (1 / 2) ≠ libm_q.atanh 0 ∧
    correl_YabYa_ libm_q vector_h (samples_two_rows : Samples ℚ) = Dbl.fin (1 / 3) ∧
    correl_YabYa_spec libm_q vector_h (samples_two_rows : Samples ℚ) = Dbl.fin 0 ∧
    zABA0 libm_q vector_h (samples_two_rows : Samples ℚ) 4
      ≠ zABA0_spec libm_q vector_h (samples_two_rows : Samples ℚ) 4 := by
  have hat : libm_q.atanh (1 / 2) ≠ libm_q.atanh 0 := by
    show atanh_series 40 (1 / 2) ≠ atanh_series 40 0
    rw [atanh_series_zero]
    exact (atanh_series_pos 39 (1 / 2) (by norm_num)).ne'
  have h := z_misses_the_shape_correlation libm_q libm_q_sqrt_sq hat
  exact ⟨libm_q_sqrt_sq, hat, h.2.2.2.1, h.2.2.2.2.1, h.2.2.2.2.2.2.2⟩

/-! ## Theorems: the window of the constructor -/

section engine

variable {α : Type} [LinearOrderedField α] [FloorRing α]

/-- A number less than one half away from the integer `k` rounds to `k`. -/
theorem round_half_even_of_lt (m : α) (k : Int) (h1 : (k : α) - 1 / 2 < m)
    (h2 : m < (k : α) + 1 / 2) : round_half_even m = k := by
  unfold round_half_even
  by_cases hk : (k : α) ≤ m
  · have hfl : ⌊m⌋ = k := by
      rw [Int.floor_eq_iff]
      exact ⟨hk, by linarith⟩
    simp only [hfl]
    rw [if_pos (by linarith)]
  · have hk := not_le.1 hk
    have hfl : ⌊m⌋ = k - 1 := by
      rw [Int.floor_eq_iff]
      push_cast
      exact ⟨by linarith, by linarith⟩
    simp only [hfl]
    have hc : ((k - 1 : Int) : α) = (k : α) - 1 := by push_cast; rfl
    rw [if_neg (by rw [hc]; linarith), if_pos (by rw [hc]; linarith)]
    omega

theorem round_half_even_nonneg (m : α) (hm : 0 ≤ m) : 0 ≤ round_half_even m := by
  have hfl : 0 ≤ ⌊m⌋ := Int.floor_nonneg.2 hm
  unfold round_half_even
  simp only
  split
  · exact hfl
  · split
    · omega
    · split
      · exact hfl
      · omega

theorem round_binary64_zero : round_binary64 (0 : α) = Dbl.fin 0 := by
  unfold round_binary64
  rw [if_pos rfl]

/-- A positive number rounds to a number that is not negative, or to `+∞`. -/
theorem round_binary64_of_pos (x : α) (hx : 0 < x) :
    round_binary64 x = Dbl.pinf ∨ ∃ r : α, 0 ≤ r ∧ round_binary64 x = Dbl.fin r := by
  unfold round_binary64
  simp only [if_neg hx.ne', if_pos hx]
  split
  · exact Or.inl rfl
  · refine Or.inr ⟨_, ?_, rfl⟩
    have hulp : (0 : α) < 2 ^ (max (Int.log 2 |x|) (-1022) - 52) := zpow_pos (by norm_num) _
    have hm : 0 ≤ |x| / 2 ^ (max (Int.log 2 |x|) (-1022) - 52) :=
      div_nonneg (abs_nonneg x) hulp.le
    have := round_half_even_nonneg _ hm
    exact mul_nonneg (by exact_mod_cast this) hulp.le

/-- The value of `round_binary64` at a positive number from its exponent `e`
and the integer `k` nearest to it in units of `2^(e - 52)`. -/
theorem round_binary64_eval (x : α) (e k : Int) (hx : 0 < x)
    (he : max (Int.log 2 x) (-1022) = e) (hk : round_half_even (x / 2 ^ (e - 52)) = k)
    (hfit : (k : α) * 2 ^ (e - 52) < 2 ^ (1024 : Int)) :
    round_binary64 x = Dbl.fin ((k : α) * 2 ^ (e - 52)) := by
  unfold round_binary64
  simp only [if_neg hx.ne', if_pos hx, abs_of_pos hx, he, hk]
  rw [if_neg (not_le.2 hfit)]

theorem log2_eq (x : α) (e : Int) (hx : 0 < x) (h1 : (2 : α) ^ e ≤ x)
    (h2 : x < (2 : α) ^ (e + 1)) : Int.log 2 x = e := by
  have hb : (1 : Nat) < 2 := by norm_num
  have hc : ((2 : Nat) : α) = 2 := by norm_num
  have ha : e ≤ Int.log 2 x := by
    rw [← Int.zpow_le_iff_le_log hb hx, hc]
    exact h1
  have hb2 : Int.log 2 x < e + 1 := by
    rw [← Int.lt_zpow_iff_log_lt hb hx, hc]
    exact h2
  omega

theorem log2_lt (x : α) (e : Int) (hx : 0 < x) (h : x < (2 : α) ^ e) : Int.log 2 x < e := by
  have hb : (1 : Nat) < 2 := by norm_num
  have hc : ((2 : Nat) : α) = 2 := by norm_num
  rw [← Int.lt_zpow_iff_log_lt hb hx, hc]
  exact h

theorem toInt_ceil (q : α) (h0 : 0 ≤ q) (hfit : ⌈q⌉ < 2 ^ 31) :
    Dbl.toInt (Dbl.ceil (Dbl.fin q)) = some ⌈q⌉ := by
  have hc : 0 ≤ ⌈q⌉ := Int.ceil_nonneg h0
  have hca : (0 : α) ≤ ((⌈q⌉ : Int) : α) := by exact_mod_cast hc
  simp only [Dbl.ceil, Dbl.toInt, if_pos hca, Int.floor_intCast]
  rw [if_pos ⟨by omega, hfit⟩]

theorem toInt_ceil_of_large (q : α) (h0 : 0 ≤ q) (hfit : 2 ^ 31 ≤ ⌈q⌉) :
    Dbl.toInt (Dbl.ceil (Dbl.fin q)) = none := by
  have hc : 0 ≤ ⌈q⌉ := Int.ceil_nonneg h0
  have hca : (0 : α) ≤ ((⌈q⌉ : Int) : α) := by exact_mod_cast hc
  simp only [Dbl.ceil, Dbl.toInt, if_pos hca, Int.floor_intCast]
  rw [if_neg (by omega)]

/-- The argument of `ceil` for positive numbers `rt_sigma`, `rt_width` and
`std_dev_in_fwhm`: `+∞`, or a number that is not negative. -/
theorem half_window_quotient_of_pos (L : Libm α) (rt_sigma rt_width : α) (hs : 0 < rt_sigma)
    (hw : 0 < rt_width) (hd : 0 < L.std_dev_in_fwhm) :
    half_window_quotient L (Dbl.fin rt_sigma) (Dbl.fin rt_width) = Dbl.pinf ∨
    ∃ q : α, 0 ≤ q ∧ half_window_quotient L (Dbl.fin rt_sigma) (Dbl.fin rt_width) = Dbl.fin q := by
  unfold half_window_quotient
  rw [Dbl.fin_mul]
  simp only [Dbl.round64]
  rcases round_binary64_of_pos (rt_sigma * rt_width) (mul_pos hs hw) with hp | ⟨r, hr, hp⟩
  · left
    rw [hp, Dbl.pinf_div_fin, if_neg (not_lt.2 hd.le)]
  · rw [hp, Dbl.fin_div _ _ hd.ne']
    simp only [Dbl.round64]
    rcases hr.lt_or_eq with hr | hr
    · rcases round_binary64_of_pos (r / L.std_dev_in_fwhm) (div_pos hr hd) with hq | ⟨q, hq0, hq⟩
      · exact Or.inl hq
      · exact Or.inr ⟨q, hq0, hq⟩
    · right
      rw [← hr, zero_div, round_binary64_zero]
      exact ⟨0, le_refl 0, rfl⟩

/-- The argument of `ceil` from the rounded product `r` of two numbers. -/
theorem half_window_quotient_fin (L : Libm α) (rt_sigma rt_width r : α)
    (hd : L.std_dev_in_fwhm ≠ 0) (hr : round_binary64 (rt_sigma * rt_width) = Dbl.fin r) :
    half_window_quotient L (Dbl.fin rt_sigma) (Dbl.fin rt_width)
      = round_binary64 (r / L.std_dev_in_fwhm) := by
  unfold half_window_quotient
  rw [Dbl.fin_mul]
  simp only [Dbl.round64]
  rw [hr, Dbl.fin_div _ _ hd]

theorem half_window_of_fin (L : Libm α) (rt_sigma rt_width q : α)
    (hq : half_window_quotient L (Dbl.fin rt_sigma) (Dbl.fin rt_width) = Dbl.fin q)
    (h0 : 0 ≤ q) (k : Int) (hk : ⌈q⌉ = k) (hfit : k < 2 ^ 31) :
    half_window_of L (Dbl.fin rt_sigma) (Dbl.fin rt_width) = some k := by
  unfold half_window_of
  rw [hq, toInt_ceil q h0 (by rw [hk]; exact hfit), hk]

end engine

section engine

variable {α : Type} [LinearOrderedField α] [FloorRing α]

/-- The number `51/2`, the product of the defaults `1.5` and `17`, is a
binary64 value. -/
theorem round_binary64_default_product : round_binary64 (3 / 2 * 17 : α) = Dbl.fin (51 / 2) := by
  have hx : (0 : α) < 3 / 2 * 17 := by norm_num
  have he : max (Int.log 2 (3 / 2 * 17 : α)) (-1022) = 4 := by
    rw [log2_eq (3 / 2 * 17 : α) 4 hx (by norm_num) (by norm_num)]
    rfl
  have hk : round_half_even ((3 / 2 * 17 : α) / 2 ^ ((4 : Int) - 52)) = 7177611906121728 :=
    round_half_even_of_lt _ _ (by norm_num) (by norm_num)
  rw [round_binary64_eval _ 4 7177611906121728 hx he hk (by norm_num)]
  congr 1
  norm_num

/-- The quotient of `51/2` and the binary64 value nearest to `2.355`, rounded. -/
theorem round_binary64_default_quotient :
    round_binary64 ((51 / 2 : α) / (5302988561228759 / 2251799813685248))
      = Dbl.fin (6095636438319939 / 562949953421312) := by
  have hx : (0 : α) < (51 / 2 : α) / (5302988561228759 / 2251799813685248) := by norm_num
  have he : max (Int.log 2 ((51 / 2 : α) / (5302988561228759 / 2251799813685248))) (-1022)
      = 3 := by
    rw [log2_eq _ 3 hx (by norm_num) (by norm_num)]
    rfl
  have hk : round_half_even (((51 / 2 : α) / (5302988561228759 / 2251799813685248))
      / 2 ^ ((3 : Int) - 52)) = 6095636438319939 :=
    round_half_even_of_lt _ _ (by norm_num) (by norm_num)
  rw [round_binary64_eval _ 3 6095636438319939 hx he hk (by norm_num)]
  congr 1
  norm_num

/-- Claim C16, as amended. For positive numbers `rt_sigma`, `rt_width` and
`std_dev_in_fwhm`, the argument of `ceil` at score.cpp 49, computed in
`double`, is `+∞`, and then `half_window` has no value, or a number `q` that
is not negative; `ceil(q)` is the least integer not below `q`, it is not
negative, and it is at least `1` exactly when `q > 0`; `half_window` is
`ceil(q)` when that is an `int` and has no value otherwise.  With
`std_dev_in_fwhm` the `double` nearest to `2.355` and the defaults
`rt_sigma = 1.5`, `rt_width = 17`, `half_window` is `11`. -/
theorem half_window_is_ceil (L : Libm α) (rt_sigma rt_width : α) (hs : 0 < rt_sigma)
    (hw : 0 < rt_width) (hd : 0 < L.std_dev_in_fwhm) :
    ((half_window_quotient L (Dbl.fin rt_sigma) (Dbl.fin rt_width) = Dbl.pinf ∧
        half_window_of L (Dbl.fin rt_sigma) (Dbl.fin rt_width) = none) ∨
      ∃ q : α, half_window_quotient L (Dbl.fin rt_sigma) (Dbl.fin rt_width) = Dbl.fin q ∧
        0 ≤ q ∧ q ≤ (⌈q⌉ : Int) ∧ (∀ k : Int, q ≤ k → ⌈q⌉ ≤ k) ∧ 0 ≤ ⌈q⌉ ∧
        (1 ≤ ⌈q⌉ ↔ 0 < q) ∧
        (⌈q⌉ < 2 ^ 31 → half_window_of L (Dbl.fin rt_sigma) (Dbl.fin rt_width) = some ⌈q⌉) ∧
        (2 ^ 31 ≤ ⌈q⌉ → half_window_of L (Dbl.fin rt_sigma) (Dbl.fin rt_width) = none)) ∧
    (L.std_dev_in_fwhm = 5302988561228759 / 2251799813685248 →
      half_window_quotient L (Dbl.fin (3 / 2)) (Dbl.fin 17)
        = Dbl.fin (6095636438319939 / 562949953421312) ∧
      half_window_of L (Dbl.fin (3 / 2)) (Dbl.fin 17) = some 11) := by
  constructor
  · rcases half_window_quotient_of_pos L rt_sigma rt_width hs hw hd with hp | ⟨q, hq0, hq⟩
    · left
      refine ⟨hp, ?_⟩
      unfold half_window_of
      rw [hp]
      rfl
    · right
      refine ⟨q, hq, hq0, Int.le_ceil q, fun k hk => Int.ceil_le.2 hk, Int.ceil_nonneg hq0,
        ?_, ?_, ?_⟩
      · rw [← Int.ceil_pos]
        omega
      · intro hfit
        unfold half_window_of
        rw [hq]
        exact toInt_ceil q hq0 hfit
      · intro hlarge
        unfold half_window_of
        rw [hq]
        exact toInt_ceil_of_large q hq0 hlarge
  · intro hstd
    have hquot : half_window_quotient L (Dbl.fin (3 / 2)) (Dbl.fin 17)
        = Dbl.fin (6095636438319939 / 562949953421312) := by
      unfold half_window_quotient
      rw [Dbl.fin_mul]
      simp only [Dbl.round64]
      rw [round_binary64_default_product, hstd, Dbl.fin_div _ _ (by norm_num)]
      simp only [Dbl.round64]
      exact round_binary64_default_quotient
    refine ⟨hquot, ?_⟩
    unfold half_window_of
    rw [hquot, toInt_ceil _ (by norm_num)]
    · congr 1
      rw [Int.ceil_eq_iff]
      constructor <;> norm_num
    · have : ⌈(6095636438319939 / 562949953421312 : α)⌉ = 11 := by
        rw [Int.ceil_eq_iff]
        constructor <;> norm_num
      rw [this]
      norm_num

end engine

/-- Counterexample to C16 as stated, in binary64.  The product of the
positive parameters `rt_sigma = rt_width = 2^-600` is `2^-1200`, which rounds
to `0`: `half_window` is `0`, not at least `1`, while the ceiling of the
exact quotient is `1`.  And for `rt_sigma = 1.5` and `rt_width` the `double`
nearest to `1.57`, the product rounds to the `double` nearest to `2.355` and
the quotient is `1`: `half_window` is `1`, while the ceiling of the exact
quotient of these numbers is `2`. -/
theorem half_window_is_zero_on_underflow :
    ((0 : ℚ) < 2 ^ (-600 : Int) ∧ (0 : ℚ) < libm_binary64.std_dev_in_fwhm) ∧
    half_window_quotient libm_binary64 (Dbl.fin (2 ^ (-600 : Int))) (Dbl.fin (2 ^ (-600 : Int)))
      = Dbl.fin 0 ∧
    half_window_of libm_binary64 (Dbl.fin (2 ^ (-600 : Int))) (Dbl.fin (2 ^ (-600 : Int)))
      = some 0 ∧
    ⌈(2 : ℚ) ^ (-600 : Int) * 2 ^ (-600 : Int) / libm_binary64.std_dev_in_fwhm⌉ = 1 ∧
    half_window_of libm_binary64 (Dbl.fin (3 / 2)) (Dbl.fin double_1_57) = some 1 ∧
    ⌈(3 / 2 : ℚ) * double_1_57 / libm_binary64.std_dev_in_fwhm⌉ = 2 := by
  have hstd : libm_binary64.std_dev_in_fwhm = 5302988561228759 / 2251799813685248 := rfl
  have hprod : round_binary64 ((2 : ℚ) ^ (-600 : Int) * 2 ^ (-600 : Int)) = Dbl.fin 0 := by
    have hx : (0 : ℚ) < 2 ^ (-600 : Int) * 2 ^ (-600 : Int) := by positivity
    have he : max (Int.log 2 ((2 : ℚ) ^ (-600 : Int) * 2 ^ (-600 : Int))) (-1022) = -1022 := by
      have := log2_lt ((2 : ℚ) ^ (-600 : Int) * 2 ^ (-600 : Int)) (-1022) hx (by norm_num)
      omega
    have hk : round_half_even (((2 : ℚ) ^ (-600 : Int) * 2 ^ (-600 : Int))
        / 2 ^ ((-1022 : Int) - 52)) = 0 :=
      round_half_even_of_lt _ _ (by norm_num) (by norm_num)
    rw [round_binary64_eval _ (-1022) 0 hx he hk (by norm_num)]
    congr 1
    norm_num
  have hd : libm_binary64.std_dev_in_fwhm ≠ 0 := by rw [hstd]; norm_num
  have hq0 : half_window_quotient libm_binary64 (Dbl.fin (2 ^ (-600 : Int)))
      (Dbl.fin (2 ^ (-600 : Int))) = Dbl.fin 0 := by
    rw [half_window_quotient_fin libm_binary64 _ _ 0 hd hprod, zero_div]
    exact round_binary64_zero
  have hprod2 : round_binary64 ((3 / 2 : ℚ) * double_1_57)
      = Dbl.fin (5302988561228759 / 2251799813685248) := by
    have hx : (0 : ℚ) < 3 / 2 * double_1_57 := by norm_num [double_1_57]
    have he : max (Int.log 2 ((3 / 2 : ℚ) * double_1_57)) (-1022) = 1 := by
      rw [log2_eq _ 1 hx (by norm_num [double_1_57]) (by norm_num [double_1_57])]
      rfl
    have hk : round_half_even (((3 / 2 : ℚ) * double_1_57) / 2 ^ ((1 : Int) - 52))
        = 5302988561228759 :=
      round_half_even_of_lt _ _ (by norm_num [double_1_57]) (by norm_num [double_1_57])
    rw [round_binary64_eval _ 1 5302988561228759 hx he hk (by norm_num)]
    congr 1
    norm_num
  have hone : round_binary64 (1 : ℚ) = Dbl.fin 1 := by
    have he : max (Int.log 2 (1 : ℚ)) (-1022) = 0 := by
      rw [log2_eq (1 : ℚ) 0 zero_lt_one (by norm_num) (by norm_num)]
      rfl
    have hk : round_half_even ((1 : ℚ) / 2 ^ ((0 : Int) - 52)) = 4503599627370496 :=
      round_half_even_of_lt _ _ (by norm_num) (by norm_num)
    rw [round_binary64_eval _ 0 4503599627370496 zero_lt_one he hk (by norm_num)]
    congr 1
    norm_num
  have hq1 : half_window_quotient libm_binary64 (Dbl.fin (3 / 2)) (Dbl.fin double_1_57)
      = Dbl.fin 1 := by
    rw [half_window_quotient_fin libm_binary64 _ _ _ hd hprod2, hstd, div_self (by norm_num)]
    exact hone
  refine ⟨⟨by positivity, by rw [hstd]; norm_num⟩, hq0, ?_, ?_, ?_, ?_⟩
  · exact half_window_of_fin libm_binary64 _ _ 0 hq0 (le_refl 0) 0 (by simp) (by norm_num)
  · rw [hstd, Int.ceil_eq_iff]
    constructor <;> norm_num
  · exact half_window_of_fin libm_binary64 _ _ 1 hq1 zero_le_one 1 (by simp) (by norm_num)
  · rw [hstd, Int.ceil_eq_iff]
    constructor <;> norm_num [double_1_57]

/-- Witness for C16: the defaults of `hitime.cpp`, `rt_sigma = 1.5` and
`rt_width = 17`, with `std_dev_in_fwhm` the `double` nearest to `2.355`: the
quotient computed is `0x1.5a7f2f4960343p+3`, about `10.828`, and
`half_window` is `11`. -/
theorem half_window_is_ceil_witness :
    ((0 : ℚ) < 3 / 2 ∧ (0 : ℚ) < 17 ∧ (0 : ℚ) < libm_binary64.std_dev_in_fwhm) ∧
    half_window_quotient libm_binary64 (Dbl.fin (3 / 2)) (Dbl.fin 17)
      = Dbl.fin (6095636438319939 / 562949953421312) ∧
    half_window_of libm_binary64 (Dbl.fin (3 / 2)) (Dbl.fin 17) = some 11 := by
  have hstd : libm_binary64.std_dev_in_fwhm = 5302988561228759 / 2251799813685248 := rfl
  have hd : (0 : ℚ) < libm_binary64.std_dev_in_fwhm := by rw [hstd]; norm_num
  have h := (half_window_is_ceil libm_binary64 (3 / 2) 17 (by norm_num) (by norm_num) hd).2 hstd
  exact ⟨⟨by norm_num, by norm_num, hd⟩, h.1, h.2⟩

end HiTIME
